import Mathlib

/-!
# gears: layered resolution of typed command-line flags

A shallow embedding of `gears.go` (package `gears`): the flag registry
(`assertValid`, `Add`, `setValue`), the coercers (`setStringValue`,
`setJsonValue`), the command-line tokenizer (`parseArgs`), `parseJson` and
the three-phase `load`, the typed accessors, and the wrapping loop of
`FprintUsageWithWidth` (`generate_usage.go`). The file `dials.go` is the same
code under its earlier name (package `dials`, `Dial` for `Flag`), with
`parseJson` going through `setValue`; it is not embedded.

Modelling conventions
* The package-level variables `flags`, `shorthandNames`, `values`,
  `positionals`, `configFiles` are the fields of `State`; every function takes
  the state and returns the state it leaves behind.
* A Go map is an association list with unique keys (`GoMap`); a nil map and an
  empty map read alike, and every map write of the embedded code happens after
  `Add` has allocated the maps.
* Go strings are Lean strings (valid UTF-8 text); byte offsets and `len` are
  computed from `Char.utf8Size`.
* `any` is the sum type `Value`; `int` is the 64-bit Go `int`, held in `Int`.
* `float64` is an uninterpreted carrier; `strconv.ParseFloat(_, 64)` is a
  parameter `pf` of every function that reaches it.
* A function returning `error` yields `Exec.ret st err`; `log.Fatal` yields
  `Exec.fatal`; a failed type assertion yields `Exec.crash`.
-/

namespace Gears

/-! ## Go maps -/

/-- Go map with string keys, as an association list. -/
abbrev GoMap (V : Type) := List (String × V)

namespace GoMap

/-- Map read `m[k]` with the comma-ok result folded into an option. -/
def get {V : Type} : GoMap V → String → Option V
  | [], _ => none
  | (k', v) :: m, k => if k' = k then some v else get m k

/-- Map write `m[k] = v`. -/
def set {V : Type} : GoMap V → String → V → GoMap V
  | [], k, v => [(k, v)]
  | (k', v') :: m, k, v => if k' = k then (k, v) :: m else (k', v') :: set m k v

end GoMap

/-! ## Values, flags, state -/

/-- Carrier of `float64` values (the IEEE bit pattern, never inspected). -/
structure Float64 where
  bits : Nat
deriving DecidableEq, Repr

/-- Dynamic Go value (`any`) restricted to the types the package tells apart. -/
inductive Value where
  | nil
  | bool (b : Bool)
  | float (f : Float64)
  | int (i : Int)
  | string (s : String)
  | floats (l : List Float64)
  | ints (l : List Int)
  | strings (l : List String)
  | other (typeName : String)
deriving DecidableEq, Repr

/-- Go struct `Flag`. -/
structure Flag where
  Name : String
  Shorthand : String
  ValueType : String
  DefaultValue : Value
deriving DecidableEq, Repr

/-- Package-level variables of `gears.go`. -/
structure State where
  flags : GoMap Flag
  shorthandNames : GoMap String
  values : GoMap Value
  positionals : List String
  configFiles : List String
deriving DecidableEq, Repr

/-- State after `reset()`: every variable nil. -/
def State.empty : State := ⟨[], [], [], [], []⟩

/-- Assignment `values[name] = v`. -/
def State.setVal (st : State) (name : String) (v : Value) : State :=
  { st with values := st.values.set name v }

/-- JSON value as `encoding/json` sees it; a number keeps its literal text. -/
inductive Json where
  | null
  | bool (b : Bool)
  | number (lit : String)
  | string (s : String)
  | array (elems : List Json)
  | object (members : List (String × Json))

/-- Errors built by `fmt.Errorf`, one constructor per call site. -/
inductive Err where
  | invalidName (name : String)
  | invalidShorthand (shorthand : String)
  | invalidValueType (valueType : String)
  | missingDefault (name : String)
  | nameExists (name : String)
  | shorthandExists (shorthand : String)
  | notOfType (value : Value) (goType : String)
  | jsonNotOfType (raw : Json) (goType : String)
  | mustBeFloat (name : String)
  | mustBeInt (name : String)
  | unknownFlag (name : String)
  | unknownShorthand (shorthand : String)
  | invalidCluster (shorthands : String) (shorthand : String)
  | optionDoesNotExist (name : String)

/-- Calls of `log.Fatal`/`log.Fatalf`, one constructor per call site. -/
inductive Fatal where
  | setUnknownFlag (name : String)
  | parseBool
  | danglingShorthand (shorthand : String) (name : String)
  | jsonSyntax
  | flagDoesNotExist (name : String)
  | wrongType (name : String) (valueType : String)
  | valueNotFound (name : String)
  | loadError (e : Err)

/-- Outcome of a call: it returned (with the state left behind and the
`error` result), it ended the process through `log.Fatal`, or it hit a
run-time panic. -/
inductive Exec where
  | ret (st : State) (err : Option Err)
  | fatal (f : Fatal)
  | crash

/-! ## strconv -/

/-- Value of a run of decimal digits, most significant first. -/
def digitsVal (ds : List Char) : Nat :=
  ds.foldl (fun acc c => acc * 10 + (c.toNat - 48)) 0

/-- Function `strconv.ParseInt(s, 10, bitSize)`: an optional sign, then one or
more digits `0-9`; the value must fit the signed `bitSize`-bit range. -/
def parseInt (s : String) (bitSize : Nat) : Option Int :=
  let neg : Bool := match s.data with
    | '-' :: _ => true
    | _ => false
  let ds : List Char := match s.data with
    | '+' :: r => r
    | '-' :: r => r
    | cs => cs
  if ds = [] then none
  else if ds.all Char.isDigit then
    let un := digitsVal ds
    let cutoff := 2 ^ (bitSize - 1)
    if !neg && cutoff ≤ un then none
    else if neg && cutoff < un then none
    else some (if neg then -(un : Int) else (un : Int))
  else none

/-! ## Coercion of a text token (`setStringValue`) -/

/-- Function `setStringValue(name, str)`. -/
def setStringValue (pf : String → Option Float64) (st : State) (name : String) (str : String) :
    Exec :=
  match st.flags.get name with
  | none => .fatal (.setUnknownFlag name)
  | some flag =>
    if flag.ValueType = "bool" then .fatal .parseBool
    else if flag.ValueType = "float" then
      match pf str with
      | none => .ret st (some (.mustBeFloat flag.Name))
      | some value => .ret (st.setVal flag.Name (.float value)) none
    else if flag.ValueType = "floats" then
      match pf str with
      | none => .ret st (some (.mustBeFloat flag.Name))
      | some value =>
        match st.values.get flag.Name with
        | some (.floats l) => .ret (st.setVal flag.Name (.floats (l ++ [value]))) none
        | _ => .crash
    else if flag.ValueType = "int" then
      match parseInt str 32 with
      | none => .ret st (some (.mustBeInt flag.Name))
      | some value => .ret (st.setVal flag.Name (.int value)) none
    else if flag.ValueType = "ints" then
      match parseInt str 32 with
      | none => .ret st (some (.mustBeInt flag.Name))
      | some value =>
        match st.values.get flag.Name with
        | some (.ints l) => .ret (st.setVal flag.Name (.ints (l ++ [value]))) none
        | _ => .crash
    else if flag.ValueType = "string" then
      .ret (st.setVal flag.Name (.string str)) none
    else if flag.ValueType = "strings" then
      match st.values.get flag.Name with
      | some (.strings l) => .ret (st.setVal flag.Name (.strings (l ++ [str]))) none
      | _ => .crash
    else .ret st none

/-! ## Command-line tokenizer (`parseArgs`) -/

/-- Result of one pass through a loop body: go on with the next element, or
leave the function. -/
inductive Flow where
  | next (st : State) (needValueForName : String)
  | stop (r : Exec)

/-- Inner loop `for c, char := range shorthands`: `c` is the byte offset of
`char` in `shorthands`, `cs` the characters not yet visited. -/
def clusterLoop (shorthands : String) : State → String → Nat → List Char → Flow
  | st, need, _, [] => .next st need
  | st, need, c, char :: cs =>
    let shorthand := String.singleton char
    match st.shorthandNames.get shorthand with
    | none => .stop (.ret st (some (.unknownShorthand shorthand)))
    | some name =>
      match st.flags.get name with
      | none => .stop (.fatal (.danglingShorthand shorthand name))
      | some flag =>
        if flag.ValueType = "bool" then
          clusterLoop shorthands (st.setVal name (.bool true)) need (c + char.utf8Size) cs
        else if c ≠ shorthands.utf8ByteSize - 1 then
          .stop (.ret st (some (.invalidCluster shorthands shorthand)))
        else
          clusterLoop shorthands st name (c + char.utf8Size) cs

/-- Body of the loop `for _, arg := range args[1:]`. -/
def argStep (pf : String → Option Float64) (st : State) (needValueForName : String)
    (arg : String) : Flow :=
  if needValueForName ≠ "" then
    match setStringValue pf st needValueForName arg with
    | .ret st' none => .next st' ""
    | r => .stop r
  else
    match arg.data with
    | '-' :: '-' :: rest =>
      let name := String.mk rest
      match st.flags.get name with
      | none => .stop (.ret st (some (.unknownFlag name)))
      | some flag =>
        if flag.ValueType = "bool" then .next (st.setVal name (.bool true)) ""
        else .next st name
    | '-' :: rest =>
      clusterLoop (String.mk rest) st needValueForName 0 rest
    | _ => .next { st with positionals := st.positionals ++ [arg] } ""

/-- Loop `for _, arg := range args[1:]` of `parseArgs`, from the state `st`
with `needValueForName` pending. -/
def parseArgsLoop (pf : String → Option Float64) : State → String → List String → Exec
  | st, _, [] => .ret st none
  | st, need, arg :: rest =>
    match argStep pf st need arg with
    | .next st' need' => parseArgsLoop pf st' need' rest
    | .stop r => r

/-- Function `parseArgs(args...)`. -/
def parseArgs (pf : String → Option Float64) (st : State) (args : List String) : Exec :=
  if args.length ≤ 1 then .ret st none
  else parseArgsLoop pf st "" args.tail

/-! ## Coercion of a JSON value (`setJsonValue`, `parseJson`)

The decoders below are `json.Unmarshal(raw, &value)` for a fresh `value` of
each of the seven Go types: JSON `null` leaves the zero value and reports no
error, a number is converted from its literal (`strconv.ParseInt(_, 10, 64)`
for `int`, `strconv.ParseFloat(_, 64)` for `float64`), an array is decoded
element by element and fails when an element fails. -/

/-- Decoder `json.Unmarshal` into a `bool`. -/
def unmarshalBool : Json → Option Bool
  | .null => some false
  | .bool b => some b
  | _ => none

/-- Decoder `json.Unmarshal` into a `float64`. -/
def unmarshalFloat (pf : String → Option Float64) : Json → Option Float64
  | .null => some ⟨0⟩
  | .number lit => pf lit
  | _ => none

/-- Decoder `json.Unmarshal` into an `int`. -/
def unmarshalInt : Json → Option Int
  | .null => some 0
  | .number lit => parseInt lit 64
  | _ => none

/-- Decoder `json.Unmarshal` into a `string`. -/
def unmarshalString : Json → Option String
  | .null => some ""
  | .string s => some s
  | _ => none

/-- Elements of a JSON array decoded one by one; the first failure is the
error `json.Unmarshal` reports. -/
def unmarshalElems {α : Type} (dec : Json → Option α) : List Json → Option (List α)
  | [] => some []
  | j :: js =>
    match dec j, unmarshalElems dec js with
    | some a, some as => some (a :: as)
    | _, _ => none

/-- Decoder `json.Unmarshal` into a slice whose elements are decoded by `dec`. -/
def unmarshalSlice {α : Type} (dec : Json → Option α) : Json → Option (List α)
  | .null => some []
  | .array elems => unmarshalElems dec elems
  | _ => none

/-- Function `setJsonValue(flag, raw)`. -/
def setJsonValue (pf : String → Option Float64) (st : State) (flag : Flag) (raw : Json) : Exec :=
  if flag.ValueType = "bool" then
    match unmarshalBool raw with
    | none => .ret st (some (.jsonNotOfType raw "bool"))
    | some value => .ret (st.setVal flag.Name (.bool value)) none
  else if flag.ValueType = "float" then
    match unmarshalFloat pf raw with
    | none => .ret st (some (.jsonNotOfType raw "float64"))
    | some value => .ret (st.setVal flag.Name (.float value)) none
  else if flag.ValueType = "int" then
    match unmarshalInt raw with
    | none => .ret st (some (.jsonNotOfType raw "int"))
    | some value => .ret (st.setVal flag.Name (.int value)) none
  else if flag.ValueType = "string" then
    match unmarshalString raw with
    | none => .ret st (some (.jsonNotOfType raw "string"))
    | some value => .ret (st.setVal flag.Name (.string value)) none
  else if flag.ValueType = "floats" then
    match unmarshalSlice (unmarshalFloat pf) raw with
    | none => .ret st (some (.jsonNotOfType raw "[]float64"))
    | some value => .ret (st.setVal flag.Name (.floats value)) none
  else if flag.ValueType = "ints" then
    match unmarshalSlice unmarshalInt raw with
    | none => .ret st (some (.jsonNotOfType raw "[]int"))
    | some value => .ret (st.setVal flag.Name (.ints value)) none
  else if flag.ValueType = "strings" then
    match unmarshalSlice unmarshalString raw with
    | none => .ret st (some (.jsonNotOfType raw "[]string"))
    | some value => .ret (st.setVal flag.Name (.strings value)) none
  else .ret st none

/-- Loop `for name, raw := range config` of `parseJson`; the list is the
object's members in the order the map iteration visits them. -/
def parseJsonLoop (pf : String → Option Float64) : State → List (String × Json) → Exec
  | st, [] => .ret st none
  | st, (name, raw) :: rest =>
    match st.flags.get name with
    | none => .ret st (some (.optionDoesNotExist name))
    | some flag =>
      match setJsonValue pf st flag raw with
      | .ret st' none => parseJsonLoop pf st' rest
      | r => r

/-- Function `parseJson(data)`: `data` is `none` when `json.Unmarshal` rejects
the bytes as a `map[string]json.RawMessage` (the call ends in `log.Fatalf`),
and otherwise the decoded members in iteration order. -/
def parseJson (pf : String → Option Float64) (st : State)
    (data : Option (List (String × Json))) : Exec :=
  match data with
  | none => .fatal .jsonSyntax
  | some config => parseJsonLoop pf st config

/-! ## Registration (`assertValid`, `setValue`, `Add`) -/

/-- Regular expression `^([a-z]|[0-9]|-)+$`. -/
def matchName (s : String) : Bool :=
  !s.data.isEmpty && s.data.all (fun c => c.isLower || c.isDigit || c == '-')

/-- Regular expression `^([a-z]|[A-Z]|[0-9])?$`. -/
def matchShorthand (s : String) : Bool :=
  match s.data with
  | [] => true
  | [c] => c.isLower || c.isUpper || c.isDigit
  | _ => false

/-- Function `assertValid(flag)`: the error it returns, if any. -/
def assertValid (flag : Flag) : Option Err :=
  if !matchName flag.Name then some (.invalidName flag.Name)
  else if !matchShorthand flag.Shorthand then some (.invalidShorthand flag.Shorthand)
  else if flag.ValueType ≠ "bool" ∧ flag.ValueType ≠ "float" ∧ flag.ValueType ≠ "int" ∧
      flag.ValueType ≠ "string" ∧ flag.ValueType ≠ "floats" ∧ flag.ValueType ≠ "ints" ∧
      flag.ValueType ≠ "strings" then some (.invalidValueType flag.ValueType)
  else if flag.ValueType ≠ "bool" ∧ flag.DefaultValue = .nil then some (.missingDefault flag.Name)
  else none

/-- Function `setValue(flag, anyValue)`. -/
def setValue (st : State) (flag : Flag) (anyValue : Value) : Exec :=
  if flag.ValueType = "bool" then
    match anyValue with
    | .bool value => .ret (st.setVal flag.Name (.bool value)) none
    | _ => .ret st (some (.notOfType anyValue "bool"))
  else if flag.ValueType = "float" then
    match anyValue with
    | .float value => .ret (st.setVal flag.Name (.float value)) none
    | _ => .ret st (some (.notOfType anyValue "float64"))
  else if flag.ValueType = "int" then
    match anyValue with
    | .int value => .ret (st.setVal flag.Name (.int value)) none
    | _ => .ret st (some (.notOfType anyValue "int"))
  else if flag.ValueType = "string" then
    match anyValue with
    | .string value => .ret (st.setVal flag.Name (.string value)) none
    | _ => .ret st (some (.notOfType anyValue "string"))
  else if flag.ValueType = "floats" then
    match anyValue with
    | .floats value => .ret (st.setVal flag.Name (.floats value)) none
    | _ => .ret st (some (.notOfType anyValue "[]float64"))
  else if flag.ValueType = "ints" then
    match anyValue with
    | .ints value => .ret (st.setVal flag.Name (.ints value)) none
    | _ => .ret st (some (.notOfType anyValue "[]int"))
  else if flag.ValueType = "strings" then
    match anyValue with
    | .strings value => .ret (st.setVal flag.Name (.strings value)) none
    | _ => .ret st (some (.notOfType anyValue "[]string"))
  else .ret st none

/-- Function `Add(flag)`. -/
def Add (st : State) (flag : Flag) : Exec :=
  match assertValid flag with
  | some err => .ret st (some err)
  | none =>
    if (st.flags.get flag.Name).isSome then .ret st (some (.nameExists flag.Name))
    else if flag.Shorthand ≠ "" ∧ (st.shorthandNames.get flag.Shorthand).isSome then
      .ret st (some (.shorthandExists flag.Shorthand))
    else
      let st1 : State := { st with flags := st.flags.set flag.Name flag }
      let st2 : State :=
        if flag.Shorthand ≠ "" then
          { st1 with shorthandNames := st1.shorthandNames.set flag.Shorthand flag.Name }
        else st1
      if flag.ValueType = "bool" then setValue st2 flag (.bool false)
      else setValue st2 flag flag.DefaultValue

/-- Function `AddConfigFile(path)`. -/
def AddConfigFile (st : State) (path : String) : State :=
  { st with configFiles := st.configFiles ++ [path] }

/-! ## Resolution (`toEnvVar`, `load`) -/

/-- Function `toEnvVar(name)`: `strings.ToUpper` (taken on its ASCII range,
which holds every character a valid name can have), then every `-` replaced
by `_`. -/
def toEnvVar (name : String) : String :=
  String.mk ((name.data.map Char.toUpper).map (fun c => if c = '-' then '_' else c))

/-- What `load` reads from outside the process image: for each path, `none`
when `fileExists` is false, otherwise the file's bytes as `parseJson` decodes
them; and `os.LookupEnv`. -/
structure World where
  files : String → Option (Option (List (String × Json)))
  env : String → Option String

/-- Phase 1 of `load`: the loop over `configFiles`. -/
def configPhase (pf : String → Option Float64) (w : World) : State → List String → Exec
  | st, [] => .ret st none
  | st, file :: rest =>
    match w.files file with
    | none => configPhase pf w st rest
    | some data =>
      match parseJson pf st data with
      | .ret st' none => configPhase pf w st' rest
      | .ret _ (some e) => .fatal (.loadError e)
      | r => r

/-- Phase 2 of `load`: the loop `for _, flag := range flags`, over the flags
in the order the map iteration yields them. -/
def envPhase (pf : String → Option Float64) (w : World) : State → List Flag → Exec
  | st, [] => .ret st none
  | st, flag :: rest =>
    if flag.ValueType = "floats" ∨ flag.ValueType = "ints" ∨ flag.ValueType = "strings" then
      envPhase pf w st rest
    else
      match w.env (toEnvVar flag.Name) with
      | none => envPhase pf w st rest
      | some value =>
        if flag.ValueType = "bool" then envPhase pf w (st.setVal flag.Name (.bool true)) rest
        else
          match setStringValue pf st flag.Name value with
          | .ret st' none => envPhase pf w st' rest
          | .ret _ (some e) => .fatal (.loadError e)
          | r => r

/-- Function `load(args...)`; `order` lists the registered flags in the order
the iteration over the map `flags` yields them. -/
def load (pf : String → Option Float64) (w : World) (order : List Flag) (st : State)
    (args : List String) : Exec :=
  match configPhase pf w st st.configFiles with
  | .ret st1 none =>
    match envPhase pf w st1 order with
    | .ret st2 none =>
      match parseArgs pf st2 args with
      | .ret st3 none => .ret st3 none
      | .ret _ (some e) => .fatal (.loadError e)
      | r => r
    | r => r
  | r => r

/-! ## Programmatic access (`SetValue`, `getValue` and the typed accessors) -/

/-- Function `SetValue(name, value)`; the error of `setValue` is dropped. -/
def SetValue (st : State) (name : String) (value : Value) : Exec :=
  match st.flags.get name with
  | none => .fatal (.flagDoesNotExist name)
  | some flag =>
    match setValue st flag value with
    | .ret st' _ => .ret st' none
    | r => r

/-- Outcome of a typed accessor: the value it returns, `log.Fatalf`, or the
panic of the type assertion `values[name].(T)`. -/
inductive Got (α : Type) where
  | value (a : α)
  | fatal (f : Fatal)
  | crash

/-- Function `getValue[T](name, valueType)`; `cast` is the type assertion
`.(T)`. -/
def getValue {α : Type} (cast : Value → Option α) (st : State) (name valueType : String) :
    Got α :=
  match st.flags.get name with
  | none => .fatal (.flagDoesNotExist name)
  | some flag =>
    if flag.ValueType ≠ valueType then .fatal (.wrongType name valueType)
    else
      match st.values.get name with
      | none => .fatal (.valueNotFound name)
      | some .nil => .fatal (.valueNotFound name)
      | some v =>
        match cast v with
        | some a => .value a
        | none => .crash

/-- Function `BoolValue(name)`. -/
def BoolValue (st : State) (name : String) : Got Bool :=
  getValue (fun v => match v with | .bool b => some b | _ => none) st name "bool"

/-- Function `FloatValue(name)`. -/
def FloatValue (st : State) (name : String) : Got Float64 :=
  getValue (fun v => match v with | .float x => some x | _ => none) st name "float"

/-- Function `IntValue(name)`. -/
def IntValue (st : State) (name : String) : Got Int :=
  getValue (fun v => match v with | .int i => some i | _ => none) st name "int"

/-- Function `StringValue(name)`. -/
def StringValue (st : State) (name : String) : Got String :=
  getValue (fun v => match v with | .string s => some s | _ => none) st name "string"

/-- Function `FloatValues(name)`. -/
def FloatValues (st : State) (name : String) : Got (List Float64) :=
  getValue (fun v => match v with | .floats l => some l | _ => none) st name "floats"

/-- Function `IntValues(name)`. -/
def IntValues (st : State) (name : String) : Got (List Int) :=
  getValue (fun v => match v with | .ints l => some l | _ => none) st name "ints"

/-- Function `StringValues(name)`. -/
def StringValues (st : State) (name : String) : Got (List String) :=
  getValue (fun v => match v with | .strings l => some l | _ => none) st name "strings"

/-! ## Usage text: the wrapping loop of `FprintUsageWithWidth`

The description `desc` (with its default suffix appended) is the list of its
bytes, one `Char` a byte; `len(desc)` is the length of the list. The fields
`Description` and `ExcludeFromUsage` that `generate_usage.go` reads are not
declared by the `Flag` of `gears.go`, so the description is a parameter. A
loop that need not end takes fuel: one unit for each pass. -/

/-- The string `indent` of `FprintUsageWithWidth`. -/
def indent : List Char := [' ', ' ', ' ', ' ']

/-- Index expression `desc[i]`; `none` is the index-out-of-range panic. -/
def byteAt (desc : List Char) (i : Int) : Option Char :=
  if i < 0 then none else desc[i.toNat]?

/-- Outcome of the inner loop: the `wrappedWidth` it leaves, a panic, or no
fuel left. -/
inductive Inner where
  | width (wrappedWidth : Int)
  | crash
  | outOfFuel

/-- Inner loop `for remaining > maxDescWidth && desc[l+wrappedWidth-1] != ' '`
from the value `wrappedWidth`. -/
def innerLoop (desc : List Char) (maxDescWidth : Int) (l remaining : Nat)
    (maxWrappedWidth : Int) : Nat → Int → Inner
  | 0, _ => .outOfFuel
  | fuel + 1, wrappedWidth =>
    if (remaining : Int) > maxDescWidth then
      match byteAt desc (l + wrappedWidth - 1) with
      | none => .crash
      | some b =>
        if b ≠ ' ' then
          if wrappedWidth = 0 then .width maxWrappedWidth
          else innerLoop desc maxDescWidth l remaining maxWrappedWidth fuel (wrappedWidth - 1)
        else .width wrappedWidth
    else .width wrappedWidth

/-- Outcome of the wrapping loop, with the lines written so far (each without
its final newline): it ended, it panicked, or it ran out of fuel. -/
inductive Wrapped where
  | done (lines : List (List Char))
  | crash (lines : List (List Char))
  | outOfFuel (lines : List (List Char))
deriving DecidableEq

/-- Loop `for l := 0; l < len(desc); { ... }` from the position `l`, `out`
being the lines written before. -/
def wrapLoop (desc : List Char) (maxDescWidth : Int) : Nat → Nat → List (List Char) → Wrapped
  | 0, l, out => if l < desc.length then .outOfFuel out else .done out
  | fuel + 1, l, out =>
    if l < desc.length then
      match innerLoop desc maxDescWidth l (desc.length - l)
          (min maxDescWidth ((desc.length - l : Nat) : Int)) (desc.length + 1)
          (min maxDescWidth ((desc.length - l : Nat) : Int)) with
      | .width wrappedWidth =>
        if wrappedWidth < 0 ∨ (l : Int) + wrappedWidth > desc.length then .crash out
        else
          wrapLoop desc maxDescWidth fuel (l + wrappedWidth.toNat)
            (out ++ [indent ++ (desc.drop l).take wrappedWidth.toNat])
      | .crash => .crash out
      | .outOfFuel => .outOfFuel out
    else .done out

/-- The wrapping of one description by `FprintUsageWithWidth(w, width)`. -/
def wrapDescription (desc : List Char) (width : Int) (fuel : Nat) : Wrapped :=
  wrapLoop desc (width - indent.length) fuel 0 []

/-! ## Specification-level definitions -/

/-- The seven value types `assertValid` lets through. -/
def validType (vt : String) : Bool :=
  vt = "bool" || vt = "float" || vt = "int" || vt = "string" || vt = "floats" ||
    vt = "ints" || vt = "strings"

/-- Registry invariant that `Add` establishes: every entry of `flags` is filed
under the flag's own, valid name and has one of the seven value types; every
key of `shorthandNames` is one alphanumeric character and maps to a
registered name; no key of `flags` occurs twice. -/
def RegistryOk (st : State) : Prop :=
  (∀ p ∈ st.flags, p.2.Name = p.1 ∧ matchName p.1 = true ∧ validType p.2.ValueType = true) ∧
  (∀ p ∈ st.shorthandNames,
    p.1 ≠ "" ∧ matchShorthand p.1 = true ∧ (st.flags.get p.2).isSome = true) ∧
  (st.flags.map Prod.fst).Nodup

instance (st : State) : Decidable (RegistryOk st) := by
  unfold RegistryOk
  infer_instance

/-- Number of bytes of the UTF-8 encoding of a run of characters. -/
def utf8Len (cs : List Char) : Nat :=
  (cs.map Char.utf8Size).sum

/-- State in which every name of the list holds `true`, set left to right. -/
def setAllTrue (st : State) (names : List String) : State :=
  names.foldl (fun s n => s.setVal n (.bool true)) st

/-- Names that the characters of a cluster stand for in `shorthandNames`. -/
def clusterNames (st : State) (cs : List Char) : List String :=
  cs.filterMap (fun c => st.shorthandNames.get (String.singleton c))

/-- The character is the shorthand of a registered flag. -/
def isShorthand (st : State) (c : Char) : Prop :=
  ∃ n f, st.shorthandNames.get (String.singleton c) = some n ∧ st.flags.get n = some f

/-- The character is the shorthand of a registered bool flag. -/
def isBoolShorthand (st : State) (c : Char) : Prop :=
  ∃ n f, st.shorthandNames.get (String.singleton c) = some n ∧ st.flags.get n = some f ∧
    f.ValueType = "bool"

/-- Whether a flag token takes the token after it as its value: `--name` for
a registered non-bool flag, or a cluster whose last character is the shorthand
of a registered non-bool flag. -/
def takesValue (st : State) (tok : String) : Bool :=
  match tok.data with
  | '-' :: '-' :: rest =>
    match st.flags.get (String.mk rest) with
    | some f => decide (f.ValueType ≠ "bool")
    | none => false
  | '-' :: rest =>
    match rest.getLast? with
    | none => false
    | some c =>
      match st.shorthandNames.get (String.singleton c) with
      | none => false
      | some n =>
        match st.flags.get n with
        | some f => decide (f.ValueType ≠ "bool")
        | none => false
  | _ => false

/-- The tokens that are positional arguments: those that do not start with
`-` and are not the value of the value-taking flag before them (`pending`
tells whether the first token is such a value). -/
def expectedPositionals (st : State) : Bool → List String → List String
  | _, [] => []
  | true, _ :: rest => expectedPositionals st false rest
  | false, tok :: rest =>
    if tok.data.head? = some '-' then expectedPositionals st (takesValue st tok) rest
    else tok :: expectedPositionals st false rest

/-- The dynamic value that `setJsonValue` stores for a flag of value type
`vt` when handed `raw`, or `none` when it reports an error. -/
def jsonValue (pf : String → Option Float64) (vt : String) (raw : Json) : Option Value :=
  if vt = "bool" then (unmarshalBool raw).map Value.bool
  else if vt = "float" then (unmarshalFloat pf raw).map Value.float
  else if vt = "int" then (unmarshalInt raw).map Value.int
  else if vt = "string" then (unmarshalString raw).map Value.string
  else if vt = "floats" then (unmarshalSlice (unmarshalFloat pf) raw).map Value.floats
  else if vt = "ints" then (unmarshalSlice unmarshalInt raw).map Value.ints
  else if vt = "strings" then (unmarshalSlice unmarshalString raw).map Value.strings
  else none

/-- The dynamic value that `setStringValue` stores for a scalar, non-bool flag
of value type `vt` when handed the token, or `none` when it reports an
error. -/
def tokenValue (pf : String → Option Float64) (vt : String) (tok : String) : Option Value :=
  if vt = "float" then (pf tok).map Value.float
  else if vt = "int" then (parseInt tok 32).map Value.int
  else if vt = "string" then some (.string tok)
  else none

/-- Value types of the three list kinds. -/
def isListType (vt : String) : Bool :=
  vt = "floats" || vt = "ints" || vt = "strings"

/-- Value type of the elements of a list kind. -/
def elemType (vt : String) : String :=
  if vt = "floats" then "float" else if vt = "ints" then "int" else "string"

/-- JSON shape of a scalar kind: bool is a boolean, float and int a number,
string a string. -/
def scalarShape (vt : String) : Json → Bool
  | .bool _ => vt = "bool"
  | .number _ => vt = "float" || vt = "int"
  | .string _ => vt = "string"
  | _ => false

/-- The one JSON shape of a kind: the scalar shape, or for a list kind an
array whose elements all have the scalar shape. -/
def hasShape (vt : String) (raw : Json) : Bool :=
  if isListType vt then
    match raw with
    | .array elems => elems.all (scalarShape (elemType vt))
    | _ => false
  else scalarShape vt raw

/-- What `json.Unmarshal` takes for a scalar kind: `null`, or a value of the
scalar shape whose number, if it is one, converts (`strconv.ParseFloat`
accepts the literal of a float, `strconv.ParseInt(_, 10, 64)` that of an
int). -/
def scalarFits (pf : String → Option Float64) (vt : String) : Json → Bool
  | .null => true
  | .bool _ => vt = "bool"
  | .number lit =>
    (vt = "float" && (pf lit).isSome) || (vt = "int" && (parseInt lit 64).isSome)
  | .string _ => vt = "string"
  | _ => false

/-- What `json.Unmarshal` takes for a kind: for a scalar kind what
`scalarFits` says, for a list kind `null` or an array whose elements all fit
the scalar kind. -/
def jsonFits (pf : String → Option Float64) (vt : String) (raw : Json) : Bool :=
  if isListType vt then
    match raw with
    | .null => true
    | .array elems => elems.all (scalarFits pf (elemType vt))
    | _ => false
  else scalarFits pf vt raw

/-- The array `elems` holds, in order, exactly the elements of the list value
`v`, written in the scalar shape of the list kind `vt`. -/
def arrayOf (pf : String → Option Float64) (vt : String) (elems : List Json) (v : Value) :
    Prop :=
  (vt = "strings" ∧ ∃ ss, elems = ss.map Json.string ∧ v = .strings ss) ∨
  (vt = "ints" ∧ ∃ lits is, elems = lits.map Json.number ∧
    List.Forall₂ (fun l i => parseInt l 64 = some i) lits is ∧ v = .ints is) ∨
  (vt = "floats" ∧ ∃ lits fs, elems = lits.map Json.number ∧
    List.Forall₂ (fun l x => pf l = some x) lits fs ∧ v = .floats fs)

/-- The dynamic value has the Go type of the declared kind: `bool` for bool,
`float64` for float, `int` for int, `string` for string, `[]float64`,
`[]int`, `[]string` for the list kinds; `nil` has none of them. -/
def hasType (vt : String) : Value → Bool
  | .bool _ => vt = "bool"
  | .float _ => vt = "float"
  | .int _ => vt = "int"
  | .string _ => vt = "string"
  | .floats _ => vt = "floats"
  | .ints _ => vt = "ints"
  | .strings _ => vt = "strings"
  | _ => false

/-- Every variable that phase 2 of `load` hands to `setStringValue` (the
variable of a scalar, non-bool flag of `order` that is set) holds a token the
flag's kind accepts. -/
def envParses (pf : String → Option Float64) (w : World) (order : List Flag) : Bool :=
  order.all fun g =>
    isListType g.ValueType || decide (g.ValueType = "bool") ||
      match w.env (toEnvVar g.Name) with
      | none => true
      | some e => (tokenValue pf g.ValueType e).isSome

/-- The member of a config object names a registered flag and gives it a
value that `setJsonValue` accepts. -/
def memberOk (pf : String → Option Float64) (st : State) (p : String × Json) : Bool :=
  match st.flags.get p.1 with
  | some f => (jsonValue pf f.ValueType p.2).isSome
  | none => false

/-- State after the two map writes of `Add`: `flags[flag.Name] = flag` and,
for a non-empty shorthand, `shorthandNames[flag.Shorthand] = flag.Name`. -/
def withEntries (st : State) (flag : Flag) : State :=
  { st with
    flags := st.flags.set flag.Name flag,
    shorthandNames :=
      if flag.Shorthand ≠ "" then st.shorthandNames.set flag.Shorthand flag.Name
      else st.shorthandNames }

/-- The value `Add` hands to `setValue`: `false` for a bool flag, the default
for every other kind. -/
def initialValue (flag : Flag) : Value :=
  if flag.ValueType = "bool" then .bool false else flag.DefaultValue

/-- Every entry of the value store belongs to a registered flag and has the
Go type of that flag's kind. -/
def ValuesTyped (st : State) : Prop :=
  ∀ p ∈ st.values, ∃ f, st.flags.get p.1 = some f ∧ hasType f.ValueType p.2 = true

instance (st : State) : Decidable (ValuesTyped st) :=
  decidable_of_iff
    (∀ p ∈ st.values, (st.flags.get p.1).any (fun f => hasType f.ValueType p.2) = true)
    (by
      unfold ValuesTyped
      refine forall_congr' fun p => forall_congr' fun _ => ?_
      cases st.flags.get p.1 <;> simp)

/-- Every registered flag holds the value `Add` gave it. -/
def DefaultsHeld (st : State) : Prop :=
  ∀ p ∈ st.flags, st.values.get p.1 = some (initialValue p.2)

/-- Every key of the shorthand map is a non-empty string that maps to a
registered name whose flag has exactly that shorthand. -/
def ShorthandsOk (st : State) : Prop :=
  ∀ p ∈ st.shorthandNames, p.1 ≠ "" ∧ ∃ f, st.flags.get p.2 = some f ∧ f.Shorthand = p.1

/-- States reached from the empty state by calls of `Add`, whatever each call
returns. -/
inductive AddReachable : State → Prop
  | empty : AddReachable State.empty
  | add {st st' : State} (flag : Flag) (e : Option Err) :
      AddReachable st → Add st flag = .ret st' e → AddReachable st'

/-- States reached from the empty state by calls of `Add` that all return
`nil`. -/
inductive Registered : State → Prop
  | empty : Registered State.empty
  | add {st st' : State} (flag : Flag) :
      Registered st → Add st flag = .ret st' none → Registered st'

/-- States reached from the empty state by calls of `Add`, `SetValue`,
`parseJson` and `parseArgs` that return (with an error or without). -/
inductive Reachable (pf : String → Option Float64) : State → Prop
  | empty : Reachable pf State.empty
  | add {st st' : State} (flag : Flag) (e : Option Err) :
      Reachable pf st → Add st flag = .ret st' e → Reachable pf st'
  | setValue {st st' : State} (name : String) (value : Value) (e : Option Err) :
      Reachable pf st → SetValue st name value = .ret st' e → Reachable pf st'
  | parseJson {st st' : State} (data : Option (List (String × Json))) (e : Option Err) :
      Reachable pf st → parseJson pf st data = .ret st' e → Reachable pf st'
  | parseArgs {st st' : State} (args : List String) (e : Option Err) :
      Reachable pf st → parseArgs pf st args = .ret st' e → Reachable pf st'

/-- What the spec says of one typed accessor `get` of kind `kind`, whose
result type embeds into the dynamic values by `inj`: it returns `a` exactly
when the name is registered with that kind and the store holds `a`, and it
ends in `log.Fatalf` in each of the three other cases. -/
def AccessorSpec {α : Type} (get : State → String → Got α) (kind : String) (inj : α → Value)
    (st : State) (name : String) : Prop :=
  (∀ a, get st name = .value a ↔
    (∃ f, st.flags.get name = some f ∧ f.ValueType = kind) ∧
      st.values.get name = some (inj a)) ∧
  (st.flags.get name = none → get st name = .fatal (.flagDoesNotExist name)) ∧
  (∀ f, st.flags.get name = some f → f.ValueType ≠ kind →
    get st name = .fatal (.wrongType name kind)) ∧
  (∀ f, st.flags.get name = some f → f.ValueType = kind → st.values.get name = none →
    get st name = .fatal (.valueNotFound name))

/-- Value of the decimal digit `c`. -/
def digitValue (c : Char) : Nat := c.toNat - 48

/-- The token is an optionally signed base-10 integer literal (a `+` or a
`-` or nothing, then one or more digits `0-9`) and `z` is the integer it
denotes. -/
def IsIntLiteral (tok : String) (z : Int) : Prop :=
  ∃ ds : List Char, ds ≠ [] ∧ (∀ c ∈ ds, c.isDigit = true) ∧
    (((tok.data = ds ∨ tok.data = '+' :: ds) ∧
        z = (Nat.ofDigits 10 (ds.reverse.map digitValue) : Nat)) ∨
      (tok.data = '-' :: ds ∧ z = -((Nat.ofDigits 10 (ds.reverse.map digitValue) : Nat) : Int)))

/-- Each window of `m` consecutive characters of the text holds a space: for
every start `i` with `i + m ≤ len(desc)` one of `desc[i]`, ..., `desc[i+m-1]`
is a space. -/
def SpaceInEveryWindow (m : Int) (desc : List Char) : Prop :=
  ∀ i, i < desc.length + 1 → (i : Int) + m ≤ desc.length →
    ∃ j, j < desc.length ∧ i ≤ j ∧ (j : Int) < i + m ∧ desc[j]? = some ' '

instance (m : Int) (desc : List Char) : Decidable (SpaceInEveryWindow m desc) := by
  unfold SpaceInEveryWindow
  infer_instance

/-- The line content the spec gives for the remaining text `rest` at content
width `m`: all of `rest` when it fits, and otherwise the longest prefix of
`rest` that is at most `m` characters long and ends in a space. -/
def IsWrapLine (m : Nat) (rest chunk : List Char) : Prop :=
  (rest.length ≤ m ∧ chunk = rest) ∨
  (m < rest.length ∧ chunk <+: rest ∧ chunk.length ≤ m ∧ chunk.getLast? = some ' ' ∧
    ∀ p, p <+: rest → p.length ≤ m → p.getLast? = some ' ' → p.length ≤ chunk.length)

/-- The chunks cut the text into lines from left to right, each one the line
of `IsWrapLine` for what remains of the text. -/
inductive Wraps (m : Nat) : List Char → List (List Char) → Prop
  | nil : Wraps m [] []
  | cons {rest chunk : List Char} {chunks : List (List Char)} :
      rest ≠ [] → IsWrapLine m rest chunk → Wraps m (rest.drop chunk.length) chunks →
      Wraps m rest (chunk :: chunks)

/-- What the spec says of an accessor right after the successful `Add` of
`flag` left the state `st`: for a flag of the accessor's kind it returns the
value `Add` seeded (`false` for bool, the default otherwise). -/
def ReturnsDefault {α : Type} (get : State → String → Got α) (kind : String) (inj : α → Value)
    (st : State) (flag : Flag) : Prop :=
  flag.ValueType = kind → ∃ a, initialValue flag = inj a ∧ get st flag.Name = .value a

/-- The property holds of each of the seven typed accessors, taken with its
kind and with the constructor of the values it returns. -/
def AllAccessors
    (P : (α : Type) → (State → String → Got α) → String → (α → Value) → Prop) : Prop :=
  P Bool BoolValue "bool" Value.bool ∧ P Float64 FloatValue "float" Value.float ∧
    P Int IntValue "int" Value.int ∧ P String StringValue "string" Value.string ∧
    P (List Float64) FloatValues "floats" Value.floats ∧
    P (List Int) IntValues "ints" Value.ints ∧
    P (List String) StringValues "strings" Value.strings

/-- Largest `k ≤ w` for which `desc[l+k-1]` is a space, and `0` when there
is none: the width the inner loop looks for from `wrappedWidth = w`. -/
def lastSpace (desc : List Char) (l : Nat) : Nat → Nat
  | 0 => 0
  | w + 1 => if desc[l + w]? = some ' ' then w + 1 else lastSpace desc l w

/-- Every registered flag has a value of its kind in the store. -/
def ValuesPresent (st : State) : Prop :=
  ∀ p ∈ st.flags, ∃ v, st.values.get p.1 = some v ∧ hasType p.2.ValueType v = true

/-- Nothing is pending, or the pending name is a registered flag that takes a
value. -/
def PendingOk (st : State) (need : String) : Prop :=
  need = "" ∨ ∃ f, st.flags.get need = some f ∧ f.ValueType ≠ "bool"

/-- State and pending name with which the loop of `parseArgs` goes on after
it has read the tokens `args`; `none` when one of them makes the function
return, exit or panic. -/
def argsRun (pf : String → Option Float64) : State → String → List String →
    Option (State × String)
  | st, need, [] => some (st, need)
  | st, need, arg :: rest =>
    match argStep pf st need arg with
    | .next st' need' => argsRun pf st' need' rest
    | .stop _ => none

/-- Zero value of the Go type of a kind: `false`, `0`, `0`, `""`, and for a
list kind the slice with no elements. -/
def zeroValue (vt : String) : Value :=
  if vt = "bool" then .bool false
  else if vt = "float" then .float ⟨0⟩
  else if vt = "int" then .int 0
  else if vt = "string" then .string ""
  else if vt = "floats" then .floats []
  else if vt = "ints" then .ints []
  else .strings []

/-- The config file at `path`, if it exists, decodes to an object whose every
member names a registered flag and gives it a value `setJsonValue` accepts. -/
def fileOk (pf : String → Option Float64) (w : World) (st : State) (path : String) : Bool :=
  match w.files path with
  | none => true
  | some none => false
  | some (some config) => config.all (memberOk pf st)

/-- Every registered config file that exists is read by phase 1 of `load`
without an error. -/
def filesOk (pf : String → Option Float64) (w : World) (st : State) : Bool :=
  st.configFiles.all (fileOk pf w st)

/-! ## Sample data -/

/-- Calls of `Add` one after the other, as a test does; it stops at the first
call that returns an error. -/
def registerAll (st : State) (fs : List Flag) : Exec :=
  fs.foldl (fun r f =>
    match r with
    | .ret s none => Add s f
    | r => r) (.ret st none)

/-- A stand-in for `strconv.ParseFloat` that knows two literals. -/
def demoParseFloat : String → Option Float64 := fun s =>
  if s = "1.0" then some ⟨4607182418800017408⟩
  else if s = "2.0" then some ⟨4611686018427387904⟩
  else none

/-- The registry that `TestParseArgs` builds with eight calls of `Add`
(`demoState_registered`). -/
def demoState : State :=
  { flags := [("mybool-a", ⟨"mybool-a", "a", "bool", .nil⟩),
      ("mybool-b", ⟨"mybool-b", "b", "bool", .nil⟩),
      ("mystring", ⟨"mystring", "s", "string", .string ""⟩),
      ("myint", ⟨"myint", "i", "int", .int 0⟩),
      ("myfloat", ⟨"myfloat", "f", "float", .float ⟨0⟩⟩),
      ("mystrings", ⟨"mystrings", "S", "strings", .strings []⟩),
      ("myints", ⟨"myints", "I", "ints", .ints []⟩),
      ("myfloats", ⟨"myfloats", "F", "floats", .floats []⟩)],
    shorthandNames := [("a", "mybool-a"), ("b", "mybool-b"), ("s", "mystring"), ("i", "myint"),
      ("f", "myfloat"), ("S", "mystrings"), ("I", "myints"), ("F", "myfloats")],
    values := [("mybool-a", .bool false), ("mybool-b", .bool false), ("mystring", .string ""),
      ("myint", .int 0), ("myfloat", .float ⟨0⟩), ("mystrings", .strings []),
      ("myints", .ints []), ("myfloats", .floats [])],
    positionals := [],
    configFiles := [] }

/-- The registry of `demoState` with one config file registered. -/
def demoLoadState : State :=
  { demoState with configFiles := ["test.json"] }

/-- A world with the config file `test.json` and two variables set. -/
def demoWorld : World :=
  { files := fun p =>
      if p = "test.json" then
        some (some [("mystring", .string "json"), ("mystrings", .array [.string "f"])])
      else none,
    env := fun k =>
      if k = "MYSTRING" then some "env" else if k = "MYSTRINGS" then some "e" else none }

/-- A world with two config files, the second giving `mystring` again. -/
def demoTwoFiles : World :=
  { files := fun p =>
      if p = "test.json" then
        some (some [("mystring", .string "json"), ("myint", .number "7")])
      else if p = "test2.json" then some (some [("mystring", .string "json2")])
      else none,
    env := fun k => if k = "MYBOOL_A" then some "false" else if k = "MYSTRINGS" then some "e"
      else none }

/-! ## Lemmas: maps and state -/

theorem GoMap.get_set_self {V : Type} (m : GoMap V) (k : String) (v : V) :
    (m.set k v).get k = some v := by
  induction m with
  | nil => simp [GoMap.set, GoMap.get]
  | cons p m ih =>
    obtain ⟨k', v'⟩ := p
    by_cases h : k' = k
    · simp [GoMap.set, GoMap.get, h]
    · simp [GoMap.set, GoMap.get, h, ih]

theorem GoMap.get_set_other {V : Type} (m : GoMap V) (k k' : String) (v : V) (h : k' ≠ k) :
    (m.set k v).get k' = m.get k' := by
  induction m with
  | nil => simp [GoMap.set, GoMap.get, Ne.symm h]
  | cons p m ih =>
    obtain ⟨k₀, v₀⟩ := p
    by_cases h₀ : k₀ = k
    · subst h₀
      simp [GoMap.set, GoMap.get, Ne.symm h]
    · by_cases h₁ : k₀ = k'
      · subst h₁
        simp [GoMap.set, GoMap.get, h₀]
      · simp [GoMap.set, GoMap.get, h₀, h₁, ih]

theorem GoMap.mem_of_get {V : Type} (m : GoMap V) (k : String) (v : V)
    (h : m.get k = some v) : (k, v) ∈ m := by
  induction m with
  | nil => simp [GoMap.get] at h
  | cons p m ih =>
    obtain ⟨k₀, v₀⟩ := p
    by_cases h₀ : k₀ = k
    · simp [GoMap.get, h₀] at h
      simp [h₀, h]
    · simp [GoMap.get, h₀] at h
      exact List.mem_cons_of_mem _ (ih h)

theorem GoMap.mem_set {V : Type} (m : GoMap V) (k : String) (v : V) (p : String × V)
    (h : p ∈ m.set k v) : p ∈ m ∨ p = (k, v) := by
  induction m with
  | nil =>
    simp [GoMap.set] at h
    exact Or.inr h
  | cons q m ih =>
    obtain ⟨k₀, v₀⟩ := q
    by_cases h₀ : k₀ = k
    · simp [GoMap.set, h₀] at h
      rcases h with h | h
      · exact Or.inr h
      · exact Or.inl (List.mem_cons_of_mem _ h)
    · simp [GoMap.set, h₀] at h
      rcases h with h | h
      · exact Or.inl (by simp [h])
      · rcases ih h with h' | h'
        · exact Or.inl (List.mem_cons_of_mem _ h')
        · exact Or.inr h'

theorem GoMap.isSome_get_set {V : Type} (m : GoMap V) (k k' : String) (v : V)
    (h : (m.get k').isSome = true) : ((m.set k v).get k').isSome = true := by
  by_cases hk : k' = k
  · subst hk
    simp [GoMap.get_set_self]
  · rw [GoMap.get_set_other m k k' v hk]
    exact h

@[simp] theorem State.setVal_flags (st : State) (n : String) (v : Value) :
    (st.setVal n v).flags = st.flags := rfl

@[simp] theorem State.setVal_shorthandNames (st : State) (n : String) (v : Value) :
    (st.setVal n v).shorthandNames = st.shorthandNames := rfl

@[simp] theorem State.setVal_positionals (st : State) (n : String) (v : Value) :
    (st.setVal n v).positionals = st.positionals := rfl

@[simp] theorem State.setVal_configFiles (st : State) (n : String) (v : Value) :
    (st.setVal n v).configFiles = st.configFiles := rfl

@[simp] theorem State.setVal_get_self (st : State) (n : String) (v : Value) :
    (st.setVal n v).values.get n = some v :=
  GoMap.get_set_self _ _ _

theorem State.setVal_get_other (st : State) (n m : String) (v : Value) (h : m ≠ n) :
    (st.setVal n v).values.get m = st.values.get m :=
  GoMap.get_set_other _ _ _ _ h

/-! ## Lemmas: the registry invariant -/

theorem RegistryOk.of_same {st st' : State} (h : RegistryOk st) (hf : st'.flags = st.flags)
    (hs : st'.shorthandNames = st.shorthandNames) : RegistryOk st' := by
  unfold RegistryOk at *
  rw [hf, hs]
  exact h

theorem RegistryOk.flag {st : State} (h : RegistryOk st) {n : String} {f : Flag}
    (hf : st.flags.get n = some f) :
    f.Name = n ∧ matchName n = true ∧ validType f.ValueType = true :=
  h.1 (n, f) (GoMap.mem_of_get _ _ _ hf)

theorem matchName_ne_empty {n : String} (h : matchName n = true) : n ≠ "" := by
  rintro rfl
  simp [matchName] at h

theorem RegistryOk.name_ne_empty {st : State} (h : RegistryOk st) {n : String} {f : Flag}
    (hf : st.flags.get n = some f) : n ≠ "" :=
  matchName_ne_empty (h.flag hf).2.1

theorem RegistryOk.shorthand {st : State} (h : RegistryOk st) {sh n : String}
    (hs : st.shorthandNames.get sh = some n) :
    sh ≠ "" ∧ matchShorthand sh = true ∧ ∃ f, st.flags.get n = some f := by
  obtain ⟨h1, h2, h3⟩ := h.2.1 (sh, n) (GoMap.mem_of_get _ _ _ hs)
  refine ⟨h1, h2, ?_⟩
  cases hg : st.flags.get n with
  | none => simp [hg] at h3
  | some f => exact ⟨f, rfl⟩

theorem alnum_utf8Size (c : Char) (h : (c.isLower || c.isUpper || c.isDigit) = true) :
    c.utf8Size = 1 := by
  simp [Char.isLower, Char.isUpper, Char.isDigit] at h
  simp [Char.utf8Size]
  intro h2
  exfalso
  have h3 := UInt32.lt_toNat_of_lt (m := 127) (by decide) h2
  rcases h with (h | h) | h
  · have := UInt32.toNat_le_of_le (m := 122) (by decide) h.2
    omega
  · have := UInt32.toNat_le_of_le (m := 90) (by decide) h.2
    omega
  · have := UInt32.toNat_le_of_le (m := 57) (by decide) h.2
    omega

theorem alnum_ne_dash (c : Char) (h : (c.isLower || c.isUpper || c.isDigit) = true) :
    c ≠ '-' := by
  rintro rfl
  revert h
  decide

theorem matchShorthand_singleton {c : Char} (h : matchShorthand (String.singleton c) = true) :
    (c.isLower || c.isUpper || c.isDigit) = true := h

theorem utf8ByteSize_mk (cs : List Char) : (String.mk cs).utf8ByteSize = utf8Len cs := by
  induction cs with
  | nil => rfl
  | cons c cs ih =>
    simp [String.utf8ByteSize, String.utf8ByteSize.go, utf8Len] at ih ⊢
    omega

/-! ## Lemmas: coercers -/

theorem setStringValue_ret {pf : String → Option Float64} {st st' : State} {n s : String}
    {e : Option Err} (h : setStringValue pf st n s = .ret st' e) :
    ∃ f, st.flags.get n = some f ∧
      ((e ≠ none ∧ st' = st) ∨ (e = none ∧ (st' = st ∨ ∃ v, st' = st.setVal f.Name v))) := by
  unfold setStringValue at h
  split at h
  · cases h
  · rename_i flag hf
    refine ⟨flag, hf, ?_⟩
    repeat' split at h
    all_goals
      cases h <;> first
        | exact Or.inl ⟨Option.some_ne_none _, rfl⟩
        | exact Or.inr ⟨rfl, Or.inl rfl⟩
        | exact Or.inr ⟨rfl, Or.inr ⟨_, rfl⟩⟩

theorem setJsonValue_ret (pf : String → Option Float64) (st : State) (flag : Flag) (raw : Json) :
    ∃ st' e, setJsonValue pf st flag raw = .ret st' e ∧
      ((e ≠ none ∧ st' = st) ∨ (e = none ∧ (st' = st ∨ ∃ v, st' = st.setVal flag.Name v))) := by
  unfold setJsonValue
  repeat' split
  all_goals first
    | exact ⟨_, _, rfl, Or.inl ⟨Option.some_ne_none _, rfl⟩⟩
    | exact ⟨_, _, rfl, Or.inr ⟨rfl, Or.inl rfl⟩⟩
    | exact ⟨_, _, rfl, Or.inr ⟨rfl, Or.inr ⟨_, rfl⟩⟩⟩

theorem setStringValue_string (pf : String → Option Float64) (st : State) (n v : String)
    (f : Flag) (hf : st.flags.get n = some f) (hk : f.ValueType = "string") :
    setStringValue pf st n v = .ret (st.setVal f.Name (.string v)) none := by
  simp [setStringValue, hf, hk]

/-! ## Lemmas: the tokenizer -/

theorem data_long (n : String) : ("--" ++ n).data = '-' :: '-' :: n.data := by
  simp [String.data_append]

theorem data_short (cs : List Char) : ("-" ++ String.mk cs).data = '-' :: cs := by
  simp [String.data_append]

theorem argStep_long (pf : String → Option Float64) (st : State) (n : String) :
    argStep pf st "" ("--" ++ n) =
      match st.flags.get n with
      | none => .stop (.ret st (some (.unknownFlag n)))
      | some flag =>
        if flag.ValueType = "bool" then .next (st.setVal n (.bool true)) ""
        else .next st n := by
  simp only [argStep, data_long]
  simp

theorem argStep_short (pf : String → Option Float64) (st : State) (cs : List Char)
    (h : cs.head? ≠ some '-') :
    argStep pf st "" ("-" ++ String.mk cs) = clusterLoop (String.mk cs) st "" 0 cs := by
  simp only [argStep, data_short]
  cases cs with
  | nil => simp
  | cons c cs =>
    have hc : c ≠ '-' := by simpa using h
    simp
    split
    · rename_i heq
      simp at heq
      exact absurd heq.1 hc
    · rename_i heq
      simp at heq
      simp [heq]
    · rename_i h1 h2
      exact absurd rfl (h2 _)

theorem argStep_pending (pf : String → Option Float64) (st : State) (need arg : String)
    (h : need ≠ "") :
    argStep pf st need arg =
      match setStringValue pf st need arg with
      | .ret st' none => .next st' ""
      | r => .stop r := by
  simp only [argStep, if_pos h]

theorem setAllTrue_frame (names : List String) : ∀ st : State,
    (setAllTrue st names).flags = st.flags ∧
    (setAllTrue st names).shorthandNames = st.shorthandNames ∧
    (setAllTrue st names).positionals = st.positionals ∧
    (setAllTrue st names).configFiles = st.configFiles := by
  induction names with
  | nil => intro st; exact ⟨rfl, rfl, rfl, rfl⟩
  | cons n ns ih =>
    intro st
    have := ih (st.setVal n (.bool true))
    simpa [setAllTrue] using this

theorem setAllTrue_get (names : List String) : ∀ (st : State) (m : String),
    (setAllTrue st names).values.get m =
      if m ∈ names then some (.bool true) else st.values.get m := by
  induction names with
  | nil => intro st m; simp [setAllTrue]
  | cons n ns ih =>
    intro st m
    have h := ih (st.setVal n (.bool true)) m
    simp only [setAllTrue, List.foldl_cons] at h ⊢
    rw [h]
    by_cases h1 : m ∈ ns
    · simp [h1]
    · by_cases h2 : m = n
      · subst h2
        simp [h1]
      · simp [h1, h2, State.setVal_get_other]

theorem utf8Len_cons (c : Char) (cs : List Char) : utf8Len (c :: cs) = c.utf8Size + utf8Len cs := by
  simp [utf8Len]

theorem utf8Len_append (as bs : List Char) : utf8Len (as ++ bs) = utf8Len as + utf8Len bs := by
  simp [utf8Len]

theorem clusterLoop_bools (sh : String) (st0 : State) (cs : List Char) (need : String) :
    ∀ (bs : List Char) (st : State) (c : Nat), st.flags = st0.flags →
      st.shorthandNames = st0.shorthandNames → (∀ b ∈ bs, isBoolShorthand st0 b) →
      clusterLoop sh st need c (bs ++ cs) =
        clusterLoop sh (setAllTrue st (clusterNames st0 bs)) need (c + utf8Len bs) cs := by
  intro bs
  induction bs with
  | nil => intro st c _ _ _; simp [clusterNames, setAllTrue, utf8Len]
  | cons b bs ih =>
    intro st c hf hs hb
    obtain ⟨n, f, h1, h2, h3⟩ := hb b (List.mem_cons_self _ _)
    have hrest : ∀ b' ∈ bs, isBoolShorthand st0 b' := fun b' hb' =>
      hb b' (List.mem_cons_of_mem _ hb')
    have := ih (st.setVal n (.bool true)) (c + b.utf8Size) hf hs hrest
    have hn : clusterNames st0 (b :: bs) = n :: clusterNames st0 bs := by
      simp [clusterNames, h1]
    simp only [List.cons_append, clusterLoop, hs, h1, hf, h2, h3, if_true]
    show clusterLoop sh (st.setVal n (Value.bool true)) need (c + b.utf8Size) (bs ++ cs) = _
    rw [this, hn, utf8Len_cons, Nat.add_assoc]
    rfl


theorem isBoolShorthand_alnum {st : State} (hok : RegistryOk st) {c : Char}
    (h : isShorthand st c) : (c.isLower || c.isUpper || c.isDigit) = true := by
  obtain ⟨n, f, h1, _⟩ := h
  exact matchShorthand_singleton (hok.shorthand h1).2.1

theorem isBoolShorthand.isShorthand {st : State} {c : Char} (h : isBoolShorthand st c) :
    isShorthand st c := by
  obtain ⟨n, f, h1, h2, _⟩ := h
  exact ⟨n, f, h1, h2⟩

theorem head_ne_dash {st : State} (hok : RegistryOk st) {cs : List Char}
    (h : ∀ c ∈ cs, isShorthand st c) : cs.head? ≠ some '-' := by
  cases cs with
  | nil => simp
  | cons c cs =>
    have := alnum_ne_dash c (isBoolShorthand_alnum hok (h c (List.mem_cons_self _ _)))
    simpa using this

theorem argStep_bool_cluster (pf : String → Option Float64) (st : State) (cs : List Char)
    (hok : RegistryOk st) (h : ∀ c ∈ cs, isBoolShorthand st c) :
    argStep pf st "" ("-" ++ String.mk cs) = .next (setAllTrue st (clusterNames st cs)) "" := by
  rw [argStep_short pf st cs (head_ne_dash hok (fun c hc => (h c hc).isShorthand))]
  have := clusterLoop_bools (String.mk cs) st [] "" cs st 0 rfl rfl h
  rw [List.append_nil] at this
  rw [this]
  rfl

theorem argStep_value_cluster (pf : String → Option Float64) (st : State) (bs : List Char)
    (c : Char) (n : String) (f : Flag) (hok : RegistryOk st)
    (h : ∀ b ∈ bs, isBoolShorthand st b)
    (hc : st.shorthandNames.get (String.singleton c) = some n) (hf : st.flags.get n = some f)
    (hk : f.ValueType ≠ "bool") :
    argStep pf st "" ("-" ++ String.mk (bs ++ [c])) =
      .next (setAllTrue st (clusterNames st bs)) n := by
  have hall : ∀ x ∈ bs ++ [c], isShorthand st x := by
    intro x hx
    rcases List.mem_append.1 hx with hx | hx
    · exact (h x hx).isShorthand
    · simp at hx
      subst hx
      exact ⟨n, f, hc, hf⟩
  rw [argStep_short pf st _ (head_ne_dash hok hall)]
  rw [clusterLoop_bools (String.mk (bs ++ [c])) st [c] "" bs st 0 rfl rfl h]
  have hsz : c.utf8Size = 1 :=
    alnum_utf8Size c (isBoolShorthand_alnum hok ⟨n, f, hc, hf⟩)
  have hlen : (String.mk (bs ++ [c])).utf8ByteSize - 1 = 0 + utf8Len bs := by
    rw [utf8ByteSize_mk, utf8Len_append, utf8Len_cons, hsz]
    simp [utf8Len]
  simp only [clusterLoop, (setAllTrue_frame _ st).1, (setAllTrue_frame _ st).2.1, hc, hf, hk,
    if_false, hlen]
  simp

theorem utf8Len_pos {cs : List Char} (h : cs ≠ []) : 0 < utf8Len cs := by
  cases cs with
  | nil => exact absurd rfl h
  | cons c cs =>
    rw [utf8Len_cons]
    have := Char.utf8Size_pos c
    omega

theorem clusterLoop_reject (sh : String) (st0 : State) (c : Char) (post : List Char)
    (n : String) (f : Flag) (need : String) (hpost : post ≠ [])
    (hc : st0.shorthandNames.get (String.singleton c) = some n)
    (hf : st0.flags.get n = some f) (hk : f.ValueType ≠ "bool") :
    ∀ (pre : List Char) (st : State) (off : Nat), st.flags = st0.flags →
      st.shorthandNames = st0.shorthandNames → (∀ b ∈ pre, isShorthand st0 b) →
      off + utf8Len (pre ++ c :: post) = sh.utf8ByteSize →
      ∃ st' e, clusterLoop sh st need off (pre ++ c :: post) = .stop (.ret st' (some e)) ∧
        st'.flags = st.flags ∧ st'.shorthandNames = st.shorthandNames ∧
        st'.positionals = st.positionals ∧
        ∀ m g, st0.flags.get m = some g → g.ValueType ≠ "bool" →
          st'.values.get m = st.values.get m := by
  intro pre
  induction pre with
  | nil =>
    intro st off hfl hsh _ hoff
    refine ⟨st, .invalidCluster sh (String.singleton c), ?_, rfl, rfl, rfl, fun _ _ _ _ => rfl⟩
    have h1 := utf8Len_pos hpost
    have h2 := Char.utf8Size_pos c
    rw [List.nil_append, utf8Len_cons] at hoff
    have hne : off ≠ sh.utf8ByteSize - 1 := by omega
    simp [clusterLoop, hsh, hc, hfl, hf, hk, hne]
  | cons b pre ih =>
    intro st off hfl hsh hpre hoff
    obtain ⟨nb, fb, hb1, hb2⟩ := hpre b (List.mem_cons_self _ _)
    have hrest : ∀ b' ∈ pre, isShorthand st0 b' := fun b' hb' =>
      hpre b' (List.mem_cons_of_mem _ hb')
    rw [List.cons_append, utf8Len_cons] at hoff
    by_cases hbk : fb.ValueType = "bool"
    · obtain ⟨st', e, h1, h2, h3, h4, h5⟩ :=
        ih (st.setVal nb (.bool true)) (off + b.utf8Size) hfl hsh hrest (by omega)
      refine ⟨st', e, ?_, h2, h3, h4, ?_⟩
      · simp only [List.cons_append, clusterLoop, hsh, hb1, hfl, hb2, hbk, if_true]
        exact h1
      · intro m g hm hg
        rw [h5 m g hm hg]
        apply State.setVal_get_other
        rintro rfl
        rw [hm] at hb2
        cases hb2
        exact hg hbk
    · refine ⟨st, .invalidCluster sh (String.singleton b), ?_, rfl, rfl, rfl, fun _ _ _ _ => rfl⟩
      have h1 : 0 < utf8Len (pre ++ c :: post) := utf8Len_pos (by simp)
      have h2 := Char.utf8Size_pos b
      have hne : off ≠ sh.utf8ByteSize - 1 := by omega
      simp [clusterLoop, hsh, hb1, hfl, hb2, hbk, hne]

theorem clusterLoop_unknown (sh : String) (st0 : State) (hok : RegistryOk st0) :
    ∀ (cs : List Char) (st : State) (need : String) (off : Nat), st.flags = st0.flags →
      st.shorthandNames = st0.shorthandNames →
      (∃ u ∈ cs, st0.shorthandNames.get (String.singleton u) = none) →
      ∃ st' e, clusterLoop sh st need off cs = .stop (.ret st' (some e)) := by
  intro cs
  induction cs with
  | nil =>
    intro st need off _ _ h
    obtain ⟨u, hu, _⟩ := h
    simp at hu
  | cons c cs ih =>
    intro st need off hfl hsh h
    cases hc : st0.shorthandNames.get (String.singleton c) with
    | none =>
      exact ⟨st, .unknownShorthand (String.singleton c), by simp [clusterLoop, hsh, hc]⟩
    | some n =>
      obtain ⟨f, hf⟩ := (hok.shorthand hc).2.2
      have hrest : ∃ u ∈ cs, st0.shorthandNames.get (String.singleton u) = none := by
        obtain ⟨u, hu, hnone⟩ := h
        rcases List.mem_cons.1 hu with rfl | hu
        · rw [hc] at hnone
          cases hnone
        · exact ⟨u, hu, hnone⟩
      by_cases hk : f.ValueType = "bool"
      · obtain ⟨st', e, h1⟩ := ih (st.setVal n (.bool true)) need (off + c.utf8Size) hfl hsh hrest
        exact ⟨st', e, by simp only [clusterLoop, hsh, hc, hfl, hf, hk, if_true]; exact h1⟩
      · by_cases hoff : off ≠ sh.utf8ByteSize - 1
        · exact ⟨st, .invalidCluster sh (String.singleton c),
            by simp [clusterLoop, hsh, hc, hfl, hf, hk, hoff]⟩
        · obtain ⟨st', e, h1⟩ := ih st n (off + c.utf8Size) hfl hsh hrest
          refine ⟨st', e, ?_⟩
          simp only [clusterLoop, hsh, hc, hfl, hf, hk, if_false, hoff]
          exact h1

theorem utf8Len_eq_zero {cs : List Char} (h : utf8Len cs = 0) : cs = [] := by
  cases cs with
  | nil => rfl
  | cons c cs =>
    have := @utf8Len_pos (c :: cs) (by simp)
    omega

/-- What a cluster that runs to its end leaves behind. -/
theorem clusterLoop_next (sh : String) (st0 : State) :
    ∀ (cs : List Char) (st : State) (need : String) (off : Nat) (st1 : State) (need1 : String),
      st.flags = st0.flags → st.shorthandNames = st0.shorthandNames →
      off + utf8Len cs = sh.utf8ByteSize →
      clusterLoop sh st need off cs = .next st1 need1 →
      st1.flags = st0.flags ∧ st1.shorthandNames = st0.shorthandNames ∧
      st1.positionals = st.positionals ∧
      ((cs = [] ∧ need1 = need) ∨
        ∃ c n f, cs.getLast? = some c ∧ st0.shorthandNames.get (String.singleton c) = some n ∧
          st0.flags.get n = some f ∧
          ((f.ValueType = "bool" ∧ need1 = need) ∨ (f.ValueType ≠ "bool" ∧ need1 = n))) := by
  intro cs
  induction cs with
  | nil =>
    intro st need off st1 need1 hfl hsh _ h
    simp only [clusterLoop] at h
    cases h
    exact ⟨hfl, hsh, rfl, Or.inl ⟨rfl, rfl⟩⟩
  | cons c cs ih =>
    intro st need off st1 need1 hfl hsh hoff h
    rw [utf8Len_cons] at hoff
    simp only [clusterLoop, hsh, hfl] at h
    cases hc : st0.shorthandNames.get (String.singleton c) with
    | none => simp [hc] at h
    | some n =>
      cases hf : st0.flags.get n with
      | none => simp [hc, hf] at h
      | some f =>
        simp only [hc, hf] at h
        by_cases hk : f.ValueType = "bool"
        · simp only [hk, if_true] at h
          obtain ⟨h1, h2, h3, h4⟩ :=
            ih (st.setVal n (.bool true)) need (off + c.utf8Size) st1 need1 hfl hsh (by omega) h
          refine ⟨h1, h2, h3, Or.inr ?_⟩
          rcases h4 with ⟨hnil, hneed⟩ | ⟨c', n', f', hl, hrest⟩
          · subst hnil
            exact ⟨c, n, f, rfl, hc, hf, Or.inl ⟨hk, hneed⟩⟩
          · refine ⟨c', n', f', ?_, hrest⟩
            cases cs with
            | nil => simp at hl
            | cons d ds => simpa [List.getLast?_cons_cons] using hl
        · simp only [hk, if_false] at h
          by_cases ho : off ≠ sh.utf8ByteSize - 1
          · simp [ho] at h
          · simp only [ho, if_false] at h
            have hsz := Char.utf8Size_pos c
            have hnil : cs = [] := utf8Len_eq_zero (by omega)
            subst hnil
            simp only [clusterLoop] at h
            cases h
            exact ⟨hfl, hsh, rfl, Or.inr ⟨c, _, f, rfl, hc, hf, Or.inr ⟨hk, rfl⟩⟩⟩

theorem clusterLoop_not_ok (sh : String) :
    ∀ (cs : List Char) (st : State) (need : String) (off : Nat) (st' : State),
      clusterLoop sh st need off cs ≠ .stop (.ret st' none) := by
  intro cs
  induction cs with
  | nil => intro st need off st' h; simp [clusterLoop] at h
  | cons c cs ih =>
    intro st need off st' h
    simp only [clusterLoop] at h
    split at h
    · simp at h
    · split at h
      · simp at h
      · split at h
        · exact ih _ _ _ _ h
        · split at h
          · simp at h
          · exact ih _ _ _ _ h

theorem argStep_of_long (pf : String → Option Float64) (st : State) (tok : String)
    (r : List Char) (h : tok.data = '-' :: '-' :: r) :
    argStep pf st "" tok =
      match st.flags.get (String.mk r) with
      | none => .stop (.ret st (some (.unknownFlag (String.mk r))))
      | some flag =>
        if flag.ValueType = "bool" then .next (st.setVal (String.mk r) (.bool true)) ""
        else .next st (String.mk r) := by
  simp [argStep, h]

theorem argStep_of_short (pf : String → Option Float64) (st : State) (tok : String)
    (r : List Char) (h : tok.data = '-' :: r) (hr : r.head? ≠ some '-') :
    argStep pf st "" tok = clusterLoop (String.mk r) st "" 0 r := by
  have : tok = "-" ++ String.mk r := by
    cases tok
    simp at h
    simp [h, String.ext_iff]
  rw [this]
  exact argStep_short pf st r hr

theorem argStep_of_positional (pf : String → Option Float64) (st : State) (tok : String)
    (h : tok.data.head? ≠ some '-') :
    argStep pf st "" tok = .next { st with positionals := st.positionals ++ [tok] } "" := by
  simp only [argStep]
  split
  · rename_i hx; exact absurd rfl hx
  · split
    · rename_i heq; simp [heq] at h
    · rename_i heq; simp [heq] at h
    · rfl

theorem takesValue_of_long (st : State) (tok : String) (r : List Char)
    (h : tok.data = '-' :: '-' :: r) :
    takesValue st tok =
      match st.flags.get (String.mk r) with
      | some f => decide (f.ValueType ≠ "bool")
      | none => false := by
  simp [takesValue, h]

theorem takesValue_of_short (st : State) (tok : String) (r : List Char)
    (h : tok.data = '-' :: r) (hr : r.head? ≠ some '-') :
    takesValue st tok =
      match r.getLast? with
      | none => false
      | some c =>
        match st.shorthandNames.get (String.singleton c) with
        | none => false
        | some n =>
          match st.flags.get n with
          | some f => decide (f.ValueType ≠ "bool")
          | none => false := by
  cases r with
  | nil => simp [takesValue, h]
  | cons c cs =>
    have hc : c ≠ '-' := by simpa using hr
    simp only [takesValue, h]
    split
    · rename_i heq
      simp at heq
      exact absurd heq.1 hc
    · rename_i heq
      simp at heq
      subst heq
      rfl
    · rename_i h1 h2
      exact absurd rfl (h2 _)

theorem data_cases (tok : String) :
    (∃ r, tok.data = '-' :: '-' :: r) ∨ (∃ r, tok.data = '-' :: r ∧ r.head? ≠ some '-') ∨
      tok.data.head? ≠ some '-' := by
  cases h : tok.data with
  | nil => right; right; simp
  | cons c r =>
    by_cases hc : c = '-'
    · subst hc
      cases r with
      | nil => right; left; exact ⟨[], rfl, by simp⟩
      | cons d r' =>
        by_cases hd : d = '-'
        · subst hd
          left; exact ⟨r', rfl⟩
        · right; left; exact ⟨d :: r', rfl, by simpa using hd⟩
    · right; right; simpa using hc

theorem parseArgsLoop_positionals (pf : String → Option Float64) (st0 : State)
    (hok : RegistryOk st0) :
    ∀ (toks : List String) (st : State) (need : String) (st' : State),
      st.flags = st0.flags → st.shorthandNames = st0.shorthandNames →
      parseArgsLoop pf st need toks = .ret st' none →
      st'.positionals =
        st.positionals ++ expectedPositionals st0 (decide (need ≠ "")) toks := by
  intro toks
  induction toks with
  | nil =>
    intro st need st' _ _ h
    simp only [parseArgsLoop] at h
    cases h
    cases decide (need ≠ "") <;> simp [expectedPositionals]
  | cons tok rest ih =>
    intro st need st' hfl hsh h
    simp only [parseArgsLoop] at h
    by_cases hneed : need ≠ ""
    · rw [argStep_pending pf st need tok hneed] at h
      cases hs : setStringValue pf st need tok with
      | fatal x => simp [hs] at h
      | crash => simp [hs] at h
      | ret st1 e =>
        cases e with
        | some e => simp [hs] at h
        | none =>
          simp only [hs] at h
          obtain ⟨f, _, hcase⟩ := setStringValue_ret hs
          have hst1 : st1.flags = st.flags ∧ st1.shorthandNames = st.shorthandNames ∧
              st1.positionals = st.positionals := by
            rcases hcase with ⟨hne, _⟩ | ⟨_, rfl | ⟨v, rfl⟩⟩
            · exact absurd rfl hne
            · exact ⟨rfl, rfl, rfl⟩
            · exact ⟨rfl, rfl, rfl⟩
          have := ih st1 "" st' (hst1.1.trans hfl) (hst1.2.1.trans hsh) h
          rw [this, hst1.2.2]
          simp [hneed, expectedPositionals]
    · have hneed' : need = "" := by simpa using hneed
      subst hneed'
      have hexp : ∀ l, expectedPositionals st0 (decide ("" ≠ "")) l =
          expectedPositionals st0 false l := fun l => rfl
      rw [hexp]
      rcases data_cases tok with ⟨r, hr⟩ | ⟨r, hr, hhead⟩ | hpos
      · -- long flag
        rw [argStep_of_long pf st tok r hr, hfl] at h
        have hhd : tok.data.head? = some '-' := by simp [hr]
        simp only [expectedPositionals, hhd, if_true, takesValue_of_long st0 tok r hr]
        cases hf : st0.flags.get (String.mk r) with
        | none => simp [hf] at h
        | some f =>
          simp only [hf] at h
          by_cases hk : f.ValueType = "bool"
          · simp only [hk, if_true] at h
            have := ih (st.setVal (String.mk r) (.bool true)) "" st' hfl hsh h
            rw [this]
            simp [hk]
          · simp only [hk, if_false] at h
            have := ih st (String.mk r) st' hfl hsh h
            rw [this]
            have hne : String.mk r ≠ "" := hok.name_ne_empty hf
            simp [hk, hne]
      · -- shorthand cluster
        rw [argStep_of_short pf st tok r hr hhead] at h
        have hhd : tok.data.head? = some '-' := by simp [hr]
        simp only [expectedPositionals, hhd, if_true, takesValue_of_short st0 tok r hr hhead]
        cases hc : clusterLoop (String.mk r) st "" 0 r with
        | stop x =>
          simp only [hc] at h
          subst h
          exact absurd hc (clusterLoop_not_ok _ _ _ _ _ _)
        | next st1 need1 =>
          simp only [hc] at h
          obtain ⟨h1, h2, h3, h4⟩ := clusterLoop_next (String.mk r) st0 r st "" 0 st1 need1 hfl hsh
            (by rw [utf8ByteSize_mk]; omega) hc
          have := ih st1 need1 st' h1 h2 h
          rw [this, h3]
          rcases h4 with ⟨hnil, hn1⟩ | ⟨c, n, f, hl, hcn, hf, hcase⟩
          · subst hnil; subst hn1
            rfl
          · rcases hcase with ⟨hk, hn1⟩ | ⟨hk, hn1⟩
            · subst hn1
              simp [hl, hcn, hf, hk]
            · subst hn1
              have hne : need1 ≠ "" := hok.name_ne_empty hf
              simp [hl, hcn, hf, hk, hne]
      · -- positional
        rw [argStep_of_positional pf st tok hpos] at h
        have := ih { st with positionals := st.positionals ++ [tok] } "" st' hfl hsh h
        rw [this]
        simp [expectedPositionals, hpos]

/-! ## Lemmas: JSON values -/

theorem validType_cases {vt : String} (h : validType vt = true) :
    vt = "bool" ∨ vt = "float" ∨ vt = "int" ∨ vt = "string" ∨ vt = "floats" ∨ vt = "ints" ∨
      vt = "strings" := by
  simpa [validType, or_assoc] using h

theorem setJsonValue_some (pf : String → Option Float64) (st : State) (f : Flag) (raw : Json)
    (v : Value) (h : jsonValue pf f.ValueType raw = some v) :
    setJsonValue pf st f raw = .ret (st.setVal f.Name v) none := by
  unfold jsonValue at h
  unfold setJsonValue
  repeat' split at h
  all_goals first
    | (simp only [Option.map_eq_some'] at h
       obtain ⟨a, ha, rfl⟩ := h
       simp [*])
    | cases h

theorem setJsonValue_none (pf : String → Option Float64) (st : State) (f : Flag) (raw : Json)
    (hv : validType f.ValueType = true) (h : jsonValue pf f.ValueType raw = none) :
    ∃ e, setJsonValue pf st f raw = .ret st (some e) := by
  unfold jsonValue at h
  unfold setJsonValue
  rcases validType_cases hv with hk | hk | hk | hk | hk | hk | hk <;>
    · simp only [hk, Option.map_eq_none'] at h
      simp at h
      simp [hk, h]

theorem unmarshalElems_isSome {α : Type} (dec : Json → Option α) (es : List Json) :
    (unmarshalElems dec es).isSome = es.all (fun j => (dec j).isSome) := by
  induction es with
  | nil => rfl
  | cons j js ih =>
    simp only [unmarshalElems, List.all_cons]
    cases hj : dec j with
    | none => simp
    | some a =>
      cases hjs : unmarshalElems dec js with
      | none => simp [hjs] at ih; simpa using ih
      | some as => simp [hjs] at ih; simpa using ih

theorem scalarFits_bool (pf : String → Option Float64) (j : Json) :
    scalarFits pf "bool" j = (unmarshalBool j).isSome := by
  cases j <;> simp [scalarFits, unmarshalBool]

theorem scalarFits_float (pf : String → Option Float64) (j : Json) :
    scalarFits pf "float" j = (unmarshalFloat pf j).isSome := by
  cases j <;> simp [scalarFits, unmarshalFloat]

theorem scalarFits_int (pf : String → Option Float64) (j : Json) :
    scalarFits pf "int" j = (unmarshalInt j).isSome := by
  cases j <;> simp [scalarFits, unmarshalInt]

theorem scalarFits_string (pf : String → Option Float64) (j : Json) :
    scalarFits pf "string" j = (unmarshalString j).isSome := by
  cases j <;> simp [scalarFits, unmarshalString]

theorem unmarshalSlice_isSome {α : Type} (dec : Json → Option α) (raw : Json) :
    (unmarshalSlice dec raw).isSome =
      match raw with
      | .null => true
      | .array elems => elems.all (fun j => (dec j).isSome)
      | _ => false := by
  cases raw <;> simp [unmarshalSlice, unmarshalElems_isSome]

theorem jsonFits_iff (pf : String → Option Float64) (vt : String) (raw : Json)
    (hv : validType vt = true) : jsonFits pf vt raw = (jsonValue pf vt raw).isSome := by
  rcases validType_cases hv with hk | hk | hk | hk | hk | hk | hk <;> subst hk
  · simp [jsonFits, jsonValue, isListType, scalarFits_bool]
  · simp [jsonFits, jsonValue, isListType, scalarFits_float]
  · simp [jsonFits, jsonValue, isListType, scalarFits_int]
  · simp [jsonFits, jsonValue, isListType, scalarFits_string]
  · simp only [jsonFits, jsonValue, isListType, elemType]
    simp [unmarshalSlice_isSome, scalarFits_float]
    cases raw <;> simp
    congr 1
    funext j
    exact scalarFits_float pf j
  · simp only [jsonFits, jsonValue, isListType, elemType]
    simp [unmarshalSlice_isSome, scalarFits_int]
    cases raw <;> simp
    congr 1
    funext j
    exact scalarFits_int pf j
  · simp only [jsonFits, jsonValue, isListType, elemType]
    simp [unmarshalSlice_isSome, scalarFits_string]
    cases raw <;> simp
    congr 1
    funext j
    exact scalarFits_string pf j

theorem setJsonValue_frame {pf : String → Option Float64} {st st' : State} {f : Flag}
    {raw : Json} {e : Option Err} (h : setJsonValue pf st f raw = .ret st' e) :
    st'.flags = st.flags ∧ st'.shorthandNames = st.shorthandNames ∧
      st'.positionals = st.positionals ∧ st'.configFiles = st.configFiles ∧
      ∀ m, m ≠ f.Name → st'.values.get m = st.values.get m := by
  obtain ⟨s1, e1, h1, hcase⟩ := setJsonValue_ret pf st f raw
  rw [h1] at h
  cases h
  rcases hcase with ⟨_, rfl⟩ | ⟨_, rfl | ⟨v, rfl⟩⟩
  · exact ⟨rfl, rfl, rfl, rfl, fun _ _ => rfl⟩
  · exact ⟨rfl, rfl, rfl, rfl, fun _ _ => rfl⟩
  · exact ⟨rfl, rfl, rfl, rfl, fun m hm => State.setVal_get_other _ _ _ _ hm⟩

theorem parseJsonLoop_unknown (pf : String → Option Float64) :
    ∀ (config : List (String × Json)) (st : State),
      (∃ p ∈ config, st.flags.get p.1 = none) →
      ∃ st' e, parseJsonLoop pf st config = .ret st' (some e) := by
  intro config
  induction config with
  | nil =>
    intro st h
    obtain ⟨p, hp, _⟩ := h
    simp at hp
  | cons p rest ih =>
    intro st h
    obtain ⟨name, raw⟩ := p
    cases hf : st.flags.get name with
    | none => exact ⟨st, .optionDoesNotExist name, by simp [parseJsonLoop, hf]⟩
    | some flag =>
      obtain ⟨s1, e1, h1, _⟩ := setJsonValue_ret pf st flag raw
      cases e1 with
      | some e => exact ⟨s1, e, by simp [parseJsonLoop, hf, h1]⟩
      | none =>
        have hfl := (setJsonValue_frame h1).1
        have hrest : ∃ q ∈ rest, s1.flags.get q.1 = none := by
          obtain ⟨q, hq, hnone⟩ := h
          rcases List.mem_cons.1 hq with rfl | hq
          · simp [hf] at hnone
          · exact ⟨q, hq, by rw [hfl]; exact hnone⟩
        obtain ⟨st', e, h2⟩ := ih s1 hrest
        exact ⟨st', e, by simp [parseJsonLoop, hf, h1, h2]⟩

theorem parseJsonLoop_ok (pf : String → Option Float64) (st0 : State) (hok : RegistryOk st0) :
    ∀ (config : List (String × Json)) (st st' : State), st.flags = st0.flags →
      parseJsonLoop pf st config = .ret st' none →
      st'.flags = st.flags ∧ st'.shorthandNames = st.shorthandNames ∧
      st'.positionals = st.positionals ∧ st'.configFiles = st.configFiles ∧
      (∀ m, m ∉ config.map Prod.fst → st'.values.get m = st.values.get m) ∧
      ((config.map Prod.fst).Nodup → ∀ k j, (k, j) ∈ config →
        ∃ f v, st0.flags.get k = some f ∧ jsonValue pf f.ValueType j = some v ∧
          st'.values.get k = some v) := by
  intro config
  induction config with
  | nil =>
    intro st st' _ h
    simp only [parseJsonLoop] at h
    cases h
    exact ⟨rfl, rfl, rfl, rfl, fun _ _ => rfl, fun _ k j hkj => by simp at hkj⟩
  | cons p rest ih =>
    intro st st' hfl h
    obtain ⟨name, raw⟩ := p
    simp only [parseJsonLoop, hfl] at h
    cases hf : st0.flags.get name with
    | none => simp [hf] at h
    | some flag =>
      simp only [hf] at h
      have hname : flag.Name = name := (hok.flag hf).1
      have hvt := (hok.flag hf).2.2
      cases hv : jsonValue pf flag.ValueType raw with
      | none =>
        obtain ⟨e, he⟩ := setJsonValue_none pf st flag raw hvt hv
        simp [he] at h
      | some v =>
        rw [setJsonValue_some pf st flag raw v hv, hname] at h
        simp only at h
        obtain ⟨h1, h2, h3, h4, h5, h6⟩ := ih (st.setVal name v) st' hfl h
        refine ⟨h1, h2, h3, h4, ?_, ?_⟩
        · intro m hm
          simp only [List.map_cons, List.mem_cons, not_or] at hm
          rw [h5 m hm.2, State.setVal_get_other _ _ _ _ hm.1]
        · intro hnd k j hkj
          simp only [List.map_cons, List.nodup_cons] at hnd
          rcases List.mem_cons.1 hkj with heq | hmem
          · cases heq
            exact ⟨flag, v, hf, hv, by rw [h5 _ hnd.1]; exact State.setVal_get_self _ _ _⟩
          · exact h6 hnd.2 k j hmem

/-! ## Lemmas: the phases of `load` -/

theorem GoMap.get_of_mem_nodup {V : Type} (m : GoMap V) (k : String) (v : V)
    (hnd : (m.map Prod.fst).Nodup) (h : (k, v) ∈ m) : m.get k = some v := by
  induction m with
  | nil => simp at h
  | cons p m ih =>
    obtain ⟨k₀, v₀⟩ := p
    simp only [List.map_cons, List.nodup_cons] at hnd
    rcases List.mem_cons.1 h with heq | hmem
    · cases heq
      simp [GoMap.get]
    · have hne : k₀ ≠ k := by
        rintro rfl
        exact hnd.1 (List.mem_map.2 ⟨(k₀, v), hmem, rfl⟩)
      simp [GoMap.get, hne, ih hnd.2 hmem]

theorem RegistryOk.get_of_order {st : State} (hok : RegistryOk st) {order : List Flag}
    (hord : order.Perm (st.flags.map Prod.snd)) {g : Flag} (hg : g ∈ order) :
    st.flags.get g.Name = some g := by
  have hmem : g ∈ st.flags.map Prod.snd := hord.mem_iff.1 hg
  obtain ⟨p, hp, rfl⟩ := List.mem_map.1 hmem
  obtain ⟨k, f⟩ := p
  have hname : f.Name = k := (hok.1 (k, f) hp).1
  show st.flags.get f.Name = some f
  rw [hname]
  exact GoMap.get_of_mem_nodup _ _ _ hok.2.2 hp

theorem mem_order {st : State} {order : List Flag}
    (hord : order.Perm (st.flags.map Prod.snd)) {n : String} {f : Flag}
    (hf : st.flags.get n = some f) : f ∈ order :=
  hord.mem_iff.2 (List.mem_map.2 ⟨(n, f), GoMap.mem_of_get _ _ _ hf, rfl⟩)

theorem isListType_false {vt : String} (h : isListType vt = false) :
    vt ≠ "floats" ∧ vt ≠ "ints" ∧ vt ≠ "strings" := by
  simpa [isListType, not_or, and_assoc] using h

theorem setStringValue_token_some (pf : String → Option Float64) (st : State) (n tok : String)
    (f : Flag) (v : Value) (hf : st.flags.get n = some f)
    (hv : tokenValue pf f.ValueType tok = some v) :
    setStringValue pf st n tok = .ret (st.setVal f.Name v) none := by
  unfold tokenValue at hv
  unfold setStringValue
  simp only [hf]
  repeat' split at hv
  all_goals first
    | (simp only [Option.map_eq_some'] at hv
       obtain ⟨a, ha, rfl⟩ := hv
       simp [*])
    | (cases hv; simp [*])
    | cases hv

theorem setStringValue_token_none (pf : String → Option Float64) (st : State) (n tok : String)
    (f : Flag) (hf : st.flags.get n = some f) (hvt : validType f.ValueType = true)
    (hnb : f.ValueType ≠ "bool") (hnl : isListType f.ValueType = false)
    (hv : tokenValue pf f.ValueType tok = none) :
    ∃ e, setStringValue pf st n tok = .ret st (some e) := by
  obtain ⟨h1, h2, h3⟩ := isListType_false hnl
  unfold tokenValue at hv
  unfold setStringValue
  rcases validType_cases hvt with hk | hk | hk | hk | hk | hk | hk
  · exact absurd hk hnb
  · simp only [hk, Option.map_eq_none'] at hv
    simp at hv
    simp [hf, hk, hv]
  · simp only [hk, Option.map_eq_none'] at hv
    simp at hv
    simp [hf, hk, hv]
  · simp [hk] at hv
  · exact absurd hk h1
  · exact absurd hk h2
  · exact absurd hk h3

/-- One pass of the loop of phase 2 that did not end the process. -/
theorem envPhase_cons (pf : String → Option Float64) (w : World) (st0 : State)
    (hok : RegistryOk st0) (st st2 : State) (g : Flag) (rest : List Flag)
    (hfl : st.flags = st0.flags) (hg : st0.flags.get g.Name = some g)
    (h : envPhase pf w st (g :: rest) = .ret st2 none) :
    ∃ st1, envPhase pf w st1 rest = .ret st2 none ∧ st1.flags = st.flags ∧
      st1.shorthandNames = st.shorthandNames ∧ st1.positionals = st.positionals ∧
      st1.configFiles = st.configFiles ∧
      (∀ m, m ≠ g.Name → st1.values.get m = st.values.get m) ∧
      ((isListType g.ValueType = true ∨ w.env (toEnvVar g.Name) = none) ∧ st1 = st ∨
        ∃ e, isListType g.ValueType = false ∧ w.env (toEnvVar g.Name) = some e ∧
          ((g.ValueType = "bool" ∧ st1 = st.setVal g.Name (.bool true)) ∨
            (g.ValueType ≠ "bool" ∧ ∃ v, tokenValue pf g.ValueType e = some v ∧
              st1 = st.setVal g.Name v))) := by
  simp only [envPhase] at h
  by_cases hl : isListType g.ValueType = true
  · have hl' : g.ValueType = "floats" ∨ g.ValueType = "ints" ∨ g.ValueType = "strings" := by
      simpa [isListType, or_assoc] using hl
    rw [if_pos hl'] at h
    exact ⟨st, h, rfl, rfl, rfl, rfl, fun _ _ => rfl, Or.inl ⟨Or.inl hl, rfl⟩⟩
  · have hl2 : isListType g.ValueType = false := by simpa using hl
    have hl' : ¬(g.ValueType = "floats" ∨ g.ValueType = "ints" ∨ g.ValueType = "strings") := by
      simpa [isListType, or_assoc] using hl
    rw [if_neg hl'] at h
    cases he : w.env (toEnvVar g.Name) with
    | none =>
      simp only [he] at h
      exact ⟨st, h, rfl, rfl, rfl, rfl, fun _ _ => rfl, Or.inl ⟨Or.inr rfl, rfl⟩⟩
    | some e =>
      simp only [he] at h
      by_cases hb : g.ValueType = "bool"
      · rw [if_pos hb] at h
        exact ⟨_, h, rfl, rfl, rfl, rfl, fun m hm => State.setVal_get_other _ _ _ _ hm,
          Or.inr ⟨e, hl2, rfl, Or.inl ⟨hb, rfl⟩⟩⟩
      · rw [if_neg hb] at h
        have hg' : st.flags.get g.Name = some g := by rw [hfl]; exact hg
        cases hv : tokenValue pf g.ValueType e with
        | none =>
          obtain ⟨err, herr⟩ := setStringValue_token_none pf st g.Name e g hg'
            (hok.flag hg).2.2 hb hl2 hv
          simp [herr] at h
        | some v =>
          rw [setStringValue_token_some pf st g.Name e g v hg' hv] at h
          exact ⟨_, h, rfl, rfl, rfl, rfl, fun m hm => State.setVal_get_other _ _ _ _ hm,
            Or.inr ⟨e, hl2, rfl, Or.inr ⟨hb, v, hv, rfl⟩⟩⟩

/-- What phase 2 leaves for one registered flag, when it runs to its end. -/
theorem envPhase_ok (pf : String → Option Float64) (w : World) (st0 : State)
    (hok : RegistryOk st0) (n : String) (f : Flag) (hf : st0.flags.get n = some f) :
    ∀ (order : List Flag) (st st2 : State), st.flags = st0.flags →
      (∀ g ∈ order, st0.flags.get g.Name = some g) →
      envPhase pf w st order = .ret st2 none →
      st2.flags = st.flags ∧ st2.shorthandNames = st.shorthandNames ∧
      st2.positionals = st.positionals ∧ st2.configFiles = st.configFiles ∧
      ((f ∉ order ∨ isListType f.ValueType = true ∨ w.env (toEnvVar n) = none) →
        st2.values.get n = st.values.get n) ∧
      (∀ e, f ∈ order → isListType f.ValueType = false → w.env (toEnvVar n) = some e →
        (f.ValueType = "bool" ∧ st2.values.get n = some (.bool true)) ∨
        (f.ValueType ≠ "bool" ∧ ∃ v, tokenValue pf f.ValueType e = some v ∧
          st2.values.get n = some v)) := by
  have hname : f.Name = n := (hok.flag hf).1
  intro order
  induction order with
  | nil =>
    intro st st2 _ _ h
    simp only [envPhase] at h
    cases h
    exact ⟨rfl, rfl, rfl, rfl, fun _ => rfl, fun e hmem => by simp at hmem⟩
  | cons g rest ih =>
    intro st st2 hfl hord h
    have hg := hord g (List.mem_cons_self _ _)
    obtain ⟨st1, h1, k1, k2, k3, k4, k5, k6⟩ := envPhase_cons pf w st0 hok st st2 g rest hfl hg h
    obtain ⟨i1, i2, i3, i4, i5, i6⟩ :=
      ih st1 st2 (k1.trans hfl) (fun x hx => hord x (List.mem_cons_of_mem _ hx)) h1
    have hgf : g.Name = n → g = f := by
      intro hgn
      rw [hgn, hf] at hg
      cases hg
      rfl
    refine ⟨i1.trans k1, i2.trans k2, i3.trans k3, i4.trans k4, ?_, ?_⟩
    · intro hcase
      have hrest : f ∉ rest ∨ isListType f.ValueType = true ∨ w.env (toEnvVar n) = none := by
        rcases hcase with hc | hc | hc
        · exact Or.inl (fun hm => hc (List.mem_cons_of_mem _ hm))
        · exact Or.inr (Or.inl hc)
        · exact Or.inr (Or.inr hc)
      rw [i5 hrest]
      by_cases hgn : g.Name = n
      · have hgeq := hgf hgn
        subst hgeq
        rcases k6 with ⟨_, rfl⟩ | ⟨e, hl, he, _⟩
        · rfl
        · rcases hcase with hc | hc | hc
          · exact absurd (List.mem_cons_self _ _) hc
          · rw [hl] at hc
            cases hc
          · rw [← hgn, he] at hc
            cases hc
      · exact k5 n (Ne.symm hgn)
    · intro e hmem hl he
      by_cases hr : f ∈ rest
      · exact i6 e hr hl he
      · have hgeq : g = f := by
          rcases List.mem_cons.1 hmem with h' | h'
          · exact h'.symm
          · exact absurd h' hr
        subst hgeq
        rw [i5 (Or.inl hr)]
        rcases k6 with ⟨hc, _⟩ | ⟨e', _, he', hcase⟩
        · rcases hc with hc | hc
          · rw [hl] at hc
            cases hc
          · rw [hname, he] at hc
            cases hc
        · rw [hname, he] at he'
          cases he'
          rcases hcase with ⟨hb, rfl⟩ | ⟨hb, v, hv, rfl⟩
          · exact Or.inl ⟨hb, by rw [hname]; exact State.setVal_get_self _ _ _⟩
          · exact Or.inr ⟨hb, v, hv, by rw [hname]; exact State.setVal_get_self _ _ _⟩

theorem parseJsonLoop_frame (pf : String → Option Float64) :
    ∀ (config : List (String × Json)) (st st' : State) (e : Option Err),
      parseJsonLoop pf st config = .ret st' e →
      st'.flags = st.flags ∧ st'.shorthandNames = st.shorthandNames ∧
      st'.positionals = st.positionals ∧ st'.configFiles = st.configFiles := by
  intro config
  induction config with
  | nil =>
    intro st st' e h
    simp only [parseJsonLoop] at h
    cases h
    exact ⟨rfl, rfl, rfl, rfl⟩
  | cons p rest ih =>
    intro st st' e h
    obtain ⟨name, raw⟩ := p
    simp only [parseJsonLoop] at h
    cases hf : st.flags.get name with
    | none =>
      simp only [hf] at h
      cases h
      exact ⟨rfl, rfl, rfl, rfl⟩
    | some flag =>
      simp only [hf] at h
      obtain ⟨s1, e1, h1, _⟩ := setJsonValue_ret pf st flag raw
      have hfr := setJsonValue_frame h1
      rw [h1] at h
      cases e1 with
      | some err =>
        simp only at h
        cases h
        exact ⟨hfr.1, hfr.2.1, hfr.2.2.1, hfr.2.2.2.1⟩
      | none =>
        simp only at h
        obtain ⟨i1, i2, i3, i4⟩ := ih s1 st' e h
        exact ⟨i1.trans hfr.1, i2.trans hfr.2.1, i3.trans hfr.2.2.1, i4.trans hfr.2.2.2.1⟩

theorem parseJsonLoop_ret (pf : String → Option Float64) (config : List (String × Json))
    (st : State) : ∃ st' e, parseJsonLoop pf st config = .ret st' e := by
  induction config generalizing st with
  | nil => exact ⟨st, none, rfl⟩
  | cons p rest ih =>
    obtain ⟨name, raw⟩ := p
    cases hf : st.flags.get name with
    | none => exact ⟨st, some (.optionDoesNotExist name), by simp [parseJsonLoop, hf]⟩
    | some flag =>
      obtain ⟨s1, e1, h1, _⟩ := setJsonValue_ret pf st flag raw
      cases e1 with
      | some err => exact ⟨s1, some err, by simp [parseJsonLoop, hf, h1]⟩
      | none =>
        obtain ⟨st', e, h2⟩ := ih s1
        exact ⟨st', e, by simp [parseJsonLoop, hf, h1, h2]⟩

/-- One pass of the loop of phase 1 that did not end the process. -/
theorem configPhase_cons (pf : String → Option Float64) (w : World) (st st1 : State)
    (file : String) (rest : List String)
    (h : configPhase pf w st (file :: rest) = .ret st1 none) :
    (w.files file = none ∧ configPhase pf w st rest = .ret st1 none) ∨
      ∃ config st', w.files file = some (some config) ∧
        parseJsonLoop pf st config = .ret st' none ∧
        configPhase pf w st' rest = .ret st1 none := by
  simp only [configPhase] at h
  cases hw : w.files file with
  | none =>
    simp only [hw] at h
    exact Or.inl ⟨rfl, h⟩
  | some data =>
    simp only [hw] at h
    cases data with
    | none => simp [parseJson] at h
    | some config =>
      obtain ⟨st', e, h1⟩ := parseJsonLoop_ret pf config st
      simp only [parseJson, h1] at h
      cases e with
      | some err => simp at h
      | none => exact Or.inr ⟨config, st', rfl, h1, h⟩

theorem configPhase_frame (pf : String → Option Float64) (w : World) :
    ∀ (files : List String) (st st1 : State), configPhase pf w st files = .ret st1 none →
      st1.flags = st.flags ∧ st1.shorthandNames = st.shorthandNames ∧
      st1.positionals = st.positionals ∧ st1.configFiles = st.configFiles := by
  intro files
  induction files with
  | nil =>
    intro st st1 h
    simp only [configPhase] at h
    cases h
    exact ⟨rfl, rfl, rfl, rfl⟩
  | cons file rest ih =>
    intro st st1 h
    rcases configPhase_cons pf w st st1 file rest h with ⟨_, h1⟩ | ⟨config, st', _, h1, h2⟩
    · exact ih st st1 h1
    · obtain ⟨i1, i2, i3, i4⟩ := ih st' st1 h2
      obtain ⟨j1, j2, j3, j4⟩ := parseJsonLoop_frame pf config st st' none h1
      exact ⟨i1.trans j1, i2.trans j2, i3.trans j3, i4.trans j4⟩

theorem parseArgs_long_scalar (pf : String → Option Float64) (st : State) (cmd n c : String)
    (f : Flag) (v : Value) (hok : RegistryOk st) (hf : st.flags.get n = some f)
    (hv : tokenValue pf f.ValueType c = some v) :
    parseArgs pf st [cmd, "--" ++ n, c] = .ret (st.setVal n v) none := by
  have hne : n ≠ "" := hok.name_ne_empty hf
  have hname : f.Name = n := (hok.flag hf).1
  have hnb : f.ValueType ≠ "bool" := by
    intro hb
    simp [tokenValue, hb] at hv
  simp [parseArgs, parseArgsLoop, argStep_long, hf, hnb, argStep_pending, hne,
    setStringValue_token_some pf st n c f v hf hv, hname]

theorem parseArgs_long_bool (pf : String → Option Float64) (st : State) (cmd n : String)
    (f : Flag) (hf : st.flags.get n = some f) (hb : f.ValueType = "bool") :
    parseArgs pf st [cmd, "--" ++ n] = .ret (st.setVal n (.bool true)) none := by
  simp [parseArgs, parseArgsLoop, argStep_long, hf, hb]

theorem parseArgs_single (pf : String → Option Float64) (st : State) (cmd : String) :
    parseArgs pf st [cmd] = .ret st none := by
  simp [parseArgs]

theorem configPhase_no_error (pf : String → Option Float64) (w : World) :
    ∀ (files : List String) (st st' : State) (e : Err),
      configPhase pf w st files ≠ .ret st' (some e) := by
  intro files
  induction files with
  | nil => intro st st' e h; simp [configPhase] at h
  | cons file rest ih =>
    intro st st' e h
    simp only [configPhase] at h
    cases hw : w.files file with
    | none =>
      simp only [hw] at h
      exact ih _ _ _ h
    | some data =>
      simp only [hw] at h
      rcases hp : parseJson pf st data with ⟨s1, _ | e1⟩ | x | _
      · simp only [hp] at h
        exact ih _ _ _ h
      all_goals simp [hp] at h

theorem envPhase_no_error (pf : String → Option Float64) (w : World) :
    ∀ (order : List Flag) (st st' : State) (e : Err),
      envPhase pf w st order ≠ .ret st' (some e) := by
  intro order
  induction order with
  | nil => intro st st' e h; simp [envPhase] at h
  | cons g rest ih =>
    intro st st' e h
    simp only [envPhase] at h
    split at h
    · exact ih _ _ _ h
    · split at h
      · exact ih _ _ _ h
      · split at h
        · exact ih _ _ _ h
        · rcases hp : setStringValue pf st g.Name ‹String› with ⟨s1, _ | e1⟩ | x | _
          · simp only [hp] at h
            exact ih _ _ _ h
          all_goals simp [hp] at h

/-- The phases of a `load` that returned. -/
theorem load_phases (pf : String → Option Float64) (w : World) (order : List Flag)
    (st st3 : State) (args : List String) (e : Option Err)
    (h : load pf w order st args = .ret st3 e) :
    e = none ∧ ∃ st1 st2, configPhase pf w st st.configFiles = .ret st1 none ∧
      envPhase pf w st1 order = .ret st2 none ∧ parseArgs pf st2 args = .ret st3 none := by
  unfold load at h
  rcases h1 : configPhase pf w st st.configFiles with ⟨st1, _ | e1⟩ | x | _
  · simp only [h1] at h
    rcases h2 : envPhase pf w st1 order with ⟨st2, _ | e2⟩ | x | _
    · simp only [h2] at h
      rcases h3 : parseArgs pf st2 args with ⟨s3, _ | e3⟩ | x | _
      · simp only [h3] at h
        cases h
        exact ⟨rfl, st1, st2, rfl, h2, h3⟩
      all_goals simp [h3] at h
    · exact absurd h2 (envPhase_no_error pf w order st1 st2 e2)
    all_goals simp [h2] at h
  · exact absurd h1 (configPhase_no_error pf w _ st st1 e1)
  all_goals simp [h1] at h

theorem envPhase_congr (pf : String → Option Float64) (w w' : World) :
    ∀ (order : List Flag) (st : State),
      (∀ g ∈ order, w.env (toEnvVar g.Name) = w'.env (toEnvVar g.Name)) →
      envPhase pf w st order = envPhase pf w' st order := by
  intro order
  induction order with
  | nil => intro st _; rfl
  | cons g rest ih =>
    intro st h
    have hg := h g (List.mem_cons_self _ _)
    have hrest : ∀ x ∈ rest, w.env (toEnvVar x.Name) = w'.env (toEnvVar x.Name) :=
      fun x hx => h x (List.mem_cons_of_mem _ hx)
    simp only [envPhase, ← hg]
    split
    · exact ih _ hrest
    · split
      · exact ih _ hrest
      · split
        · exact ih _ hrest
        · generalize setStringValue pf st g.Name _ = r
          rcases r with ⟨s1, _ | e1⟩ | x | _
          · exact ih _ hrest
          all_goals rfl

theorem envParses_cons (pf : String → Option Float64) (w : World) (g : Flag)
    (rest : List Flag) (h : envParses pf w (g :: rest) = true) :
    (isListType g.ValueType = true ∨ g.ValueType = "bool" ∨
      w.env (toEnvVar g.Name) = none ∨
      ∃ e v, w.env (toEnvVar g.Name) = some e ∧ tokenValue pf g.ValueType e = some v) ∧
    envParses pf w rest = true := by
  simp only [envParses, List.all_cons, Bool.and_eq_true, Bool.or_eq_true,
    decide_eq_true_eq] at h
  refine ⟨?_, by simpa [envParses] using h.2⟩
  rcases h.1 with (h1 | h1) | h1
  · exact Or.inl h1
  · exact Or.inr (Or.inl h1)
  · cases he : w.env (toEnvVar g.Name) with
    | none => exact Or.inr (Or.inr (Or.inl rfl))
    | some e =>
      simp only [he] at h1
      cases hv : tokenValue pf g.ValueType e with
      | none => simp [hv] at h1
      | some v => exact Or.inr (Or.inr (Or.inr ⟨e, v, rfl, hv⟩))

theorem envPhase_total (pf : String → Option Float64) (w : World) (st0 : State) :
    ∀ (order : List Flag) (st : State), st.flags = st0.flags →
      (∀ g ∈ order, st0.flags.get g.Name = some g) → envParses pf w order = true →
      ∃ st2, envPhase pf w st order = .ret st2 none := by
  intro order
  induction order with
  | nil => intro st _ _ _; exact ⟨st, rfl⟩
  | cons g rest ih =>
    intro st hfl hord hp
    obtain ⟨hg, hrest⟩ := envParses_cons pf w g rest hp
    have hord' : ∀ x ∈ rest, st0.flags.get x.Name = some x :=
      fun x hx => hord x (List.mem_cons_of_mem _ hx)
    simp only [envPhase]
    by_cases hl : g.ValueType = "floats" ∨ g.ValueType = "ints" ∨ g.ValueType = "strings"
    · rw [if_pos hl]
      exact ih st hfl hord' hrest
    · rw [if_neg hl]
      have hl2 : isListType g.ValueType = false := by
        simpa [isListType, not_or, and_assoc] using hl
      cases he : w.env (toEnvVar g.Name) with
      | none => exact ih st hfl hord' hrest
      | some e =>
        simp only
        by_cases hb : g.ValueType = "bool"
        · rw [if_pos hb]
          exact ih _ hfl hord' hrest
        · rw [if_neg hb]
          rcases hg with h | h | h | ⟨e', v, he', hv⟩
          · rw [hl2] at h
            cases h
          · exact absurd h hb
          · rw [he] at h
            cases h
          · rw [he] at he'
            cases he'
            have hg' : st.flags.get g.Name = some g := by
              rw [hfl]
              exact hord g (List.mem_cons_self _ _)
            rw [setStringValue_token_some pf st g.Name e g v hg' hv]
            exact ih _ hfl hord' hrest

theorem parseJsonLoop_total (pf : String → Option Float64) (st0 : State) :
    ∀ (config : List (String × Json)) (st : State), st.flags = st0.flags →
      (∀ p ∈ config, memberOk pf st0 p = true) →
      ∃ st', parseJsonLoop pf st config = .ret st' none := by
  intro config
  induction config with
  | nil => intro st _ _; exact ⟨st, rfl⟩
  | cons p rest ih =>
    intro st hfl hall
    obtain ⟨name, raw⟩ := p
    have hp := hall (name, raw) (List.mem_cons_self _ _)
    simp only [memberOk] at hp
    cases hf : st0.flags.get name with
    | none => simp [hf] at hp
    | some flag =>
      simp only [hf] at hp
      cases hv : jsonValue pf flag.ValueType raw with
      | none => simp [hv] at hp
      | some v =>
        obtain ⟨st', h⟩ := ih (st.setVal flag.Name v) hfl
          (fun q hq => hall q (List.mem_cons_of_mem _ hq))
        exact ⟨st', by
          simp only [parseJsonLoop, hfl, hf, setJsonValue_some pf st flag raw v hv]
          exact h⟩

/-! ## Lemmas: registration -/

theorem GoMap.not_mem_keys_of_get_none {V : Type} (m : GoMap V) (k : String)
    (h : m.get k = none) : k ∉ m.map Prod.fst := by
  induction m with
  | nil => simp
  | cons p m ih =>
    obtain ⟨k₀, v₀⟩ := p
    by_cases h₀ : k₀ = k
    · simp [GoMap.get, h₀] at h
    · simp only [GoMap.get, h₀, if_false] at h
      simp only [List.map_cons, List.mem_cons, not_or]
      exact ⟨Ne.symm h₀, ih h⟩

theorem GoMap.keys_set_of_get_none {V : Type} (m : GoMap V) (k : String) (v : V)
    (h : m.get k = none) : (m.set k v).map Prod.fst = m.map Prod.fst ++ [k] := by
  induction m with
  | nil => rfl
  | cons p m ih =>
    obtain ⟨k₀, v₀⟩ := p
    by_cases h₀ : k₀ = k
    · simp [GoMap.get, h₀] at h
    · simp only [GoMap.get, h₀, if_false] at h
      simp [GoMap.set, h₀, ih h]

theorem setValue_ret (st : State) (flag : Flag) (anyValue : Value) :
    ∃ st' e, setValue st flag anyValue = .ret st' e ∧
      ((e ≠ none ∧ st' = st) ∨ (e = none ∧ (st' = st ∨ ∃ v, st' = st.setVal flag.Name v))) := by
  unfold setValue
  repeat' split
  all_goals first
    | exact ⟨_, _, rfl, Or.inl ⟨Option.some_ne_none _, rfl⟩⟩
    | exact ⟨_, _, rfl, Or.inr ⟨rfl, Or.inl rfl⟩⟩
    | exact ⟨_, _, rfl, Or.inr ⟨rfl, Or.inr ⟨_, rfl⟩⟩⟩

theorem setValue_frame {st st' : State} {flag : Flag} {anyValue : Value} {e : Option Err}
    (h : setValue st flag anyValue = .ret st' e) :
    st'.flags = st.flags ∧ st'.shorthandNames = st.shorthandNames ∧
      st'.positionals = st.positionals ∧ st'.configFiles = st.configFiles := by
  obtain ⟨s1, e1, h1, hcase⟩ := setValue_ret st flag anyValue
  rw [h1] at h
  cases h
  rcases hcase with ⟨_, rfl⟩ | ⟨_, rfl | ⟨v, rfl⟩⟩ <;> exact ⟨rfl, rfl, rfl, rfl⟩

theorem assertValid_none {flag : Flag} (h : assertValid flag = none) :
    matchName flag.Name = true ∧ matchShorthand flag.Shorthand = true ∧
      validType flag.ValueType = true := by
  unfold assertValid at h
  split at h
  · cases h
  · rename_i h1
    split at h
    · cases h
    · rename_i h2
      split at h
      · cases h
      · rename_i h3
        refine ⟨by simpa using h1, by simpa using h2, ?_⟩
        simp only [validType, Bool.or_eq_true, decide_eq_true_eq]
        by_contra hc
        apply h3
        simp only [not_or] at hc
        tauto

theorem registryOk_empty : RegistryOk State.empty := by decide

/-- The invariant `RegistryOk` is kept by `Add`, whether it succeeds or
returns an error, and `Add` always returns. -/
theorem registryOk_Add {st : State} (hok : RegistryOk st) (flag : Flag) :
    ∃ st' e, Gears.Add st flag = .ret st' e ∧ RegistryOk st' := by
  unfold Gears.Add
  cases hv : assertValid flag with
  | some err => exact ⟨st, some err, rfl, hok⟩
  | none =>
    obtain ⟨hn, hs, ht⟩ := assertValid_none hv
    simp only
    by_cases h1 : (st.flags.get flag.Name).isSome = true
    · rw [if_pos h1]
      exact ⟨st, _, rfl, hok⟩
    · rw [if_neg h1]
      by_cases h2 : flag.Shorthand ≠ "" ∧ (st.shorthandNames.get flag.Shorthand).isSome = true
      · rw [if_pos h2]
        exact ⟨st, _, rfl, hok⟩
      · rw [if_neg h2]
        have hnone : st.flags.get flag.Name = none := by
          cases hg : st.flags.get flag.Name with
          | none => rfl
          | some f => simp [hg] at h1
        -- the state after the two map writes
        have hflags : ∀ p ∈ st.flags.set flag.Name flag,
            p.2.Name = p.1 ∧ matchName p.1 = true ∧ validType p.2.ValueType = true := by
          intro p hp
          rcases GoMap.mem_set _ _ _ _ hp with hp | rfl
          · exact hok.1 p hp
          · exact ⟨rfl, hn, ht⟩
        have hnd : ((st.flags.set flag.Name flag).map Prod.fst).Nodup := by
          rw [GoMap.keys_set_of_get_none _ _ _ hnone]
          exact List.Nodup.append hok.2.2 (List.nodup_singleton _)
            (by
              intro a ha hb
              simp at hb
              subst hb
              exact GoMap.not_mem_keys_of_get_none _ _ hnone ha)
        have hold : ∀ p ∈ st.shorthandNames, p.1 ≠ "" ∧ matchShorthand p.1 = true ∧
            ((st.flags.set flag.Name flag).get p.2).isSome = true := by
          intro p hp
          obtain ⟨a, b, c⟩ := hok.2.1 p hp
          exact ⟨a, b, GoMap.isSome_get_set _ _ _ _ c⟩
        have hst2 : RegistryOk
            (if flag.Shorthand ≠ "" then
              { st with
                flags := st.flags.set flag.Name flag,
                shorthandNames := st.shorthandNames.set flag.Shorthand flag.Name }
            else { st with flags := st.flags.set flag.Name flag }) := by
          by_cases hsh : flag.Shorthand ≠ ""
          · rw [if_pos hsh]
            refine ⟨hflags, ?_, hnd⟩
            intro p hp
            rcases GoMap.mem_set _ _ _ _ hp with hp | rfl
            · exact hold p hp
            · exact ⟨hsh, hs, by simp [GoMap.get_set_self]⟩
          · rw [if_neg hsh]
            exact ⟨hflags, hold, hnd⟩
        by_cases hb : flag.ValueType = "bool"
        · rw [if_pos hb]
          obtain ⟨st', e, h, _⟩ := setValue_ret _ flag (.bool false)
          have hfr := setValue_frame h
          exact ⟨st', e, h, hst2.of_same hfr.1 hfr.2.1⟩
        · rw [if_neg hb]
          obtain ⟨st', e, h, _⟩ := setValue_ret _ flag flag.DefaultValue
          have hfr := setValue_frame h
          exact ⟨st', e, h, hst2.of_same hfr.1 hfr.2.1⟩

/-- The sample registry is what `TestParseArgs` builds from nothing with its
eight calls of `Add`. -/
theorem demoState_registered :
    registerAll State.empty
      [⟨"mybool-a", "a", "bool", .nil⟩, ⟨"mybool-b", "b", "bool", .nil⟩,
        ⟨"mystring", "s", "string", .string ""⟩, ⟨"myint", "i", "int", .int 0⟩,
        ⟨"myfloat", "f", "float", .float ⟨0⟩⟩, ⟨"mystrings", "S", "strings", .strings []⟩,
        ⟨"myints", "I", "ints", .ints []⟩, ⟨"myfloats", "F", "floats", .floats []⟩] =
      .ret demoState none := rfl

theorem isLower_iff (c : Char) : c.isLower = true ↔ 97 ≤ c.toNat ∧ c.toNat ≤ 122 := by
  simp [Char.isLower, Char.toNat, UInt32.le_def, BitVec.le_def, UInt32.toNat]

theorem isUpper_iff (c : Char) : c.isUpper = true ↔ 65 ≤ c.toNat ∧ c.toNat ≤ 90 := by
  simp [Char.isUpper, Char.toNat, UInt32.le_def, BitVec.le_def, UInt32.toNat]

theorem isDigit_iff (c : Char) : c.isDigit = true ↔ 48 ≤ c.toNat ∧ c.toNat ≤ 57 := by
  simp [Char.isDigit, Char.toNat, UInt32.le_def, BitVec.le_def, UInt32.toNat]

theorem matchName_iff (s : String) :
    matchName s = true ↔ s.data ≠ [] ∧ ∀ c ∈ s.data,
      (97 ≤ c.toNat ∧ c.toNat ≤ 122) ∨ (48 ≤ c.toNat ∧ c.toNat ≤ 57) ∨ c = '-' := by
  simp only [matchName, Bool.and_eq_true, Bool.not_eq_true', List.isEmpty_eq_false,
    List.all_eq_true, Bool.or_eq_true, beq_iff_eq, isLower_iff, isDigit_iff, or_assoc]

theorem matchShorthand_iff (s : String) :
    matchShorthand s = true ↔ s.data = [] ∨ ∃ c, s.data = [c] ∧
      ((97 ≤ c.toNat ∧ c.toNat ≤ 122) ∨ (65 ≤ c.toNat ∧ c.toNat ≤ 90) ∨
        (48 ≤ c.toNat ∧ c.toNat ≤ 57)) := by
  unfold matchShorthand
  split
  · rename_i h; simp [h]
  · rename_i c h
    simp [h, isLower_iff, isUpper_iff, isDigit_iff, or_assoc]
  · rename_i h1 h2
    constructor
    · intro h; cases h
    · rintro (h | ⟨c, h, _⟩)
      · exact absurd h h1
      · exact absurd h (h2 c)

theorem assertValid_eq_none_iff (flag : Flag) :
    assertValid flag = none ↔ matchName flag.Name = true ∧ matchShorthand flag.Shorthand = true ∧
      validType flag.ValueType = true ∧ (flag.ValueType ≠ "bool" → flag.DefaultValue ≠ .nil) := by
  constructor
  · intro h
    obtain ⟨h1, h2, h3⟩ := assertValid_none h
    refine ⟨h1, h2, h3, ?_⟩
    intro hb hd
    simp [assertValid, h1, h2, hb, hd] at h
    rcases validType_cases h3 with hk | hk | hk | hk | hk | hk | hk <;> simp [hk] at h hb
  · rintro ⟨h1, h2, h3, h4⟩
    unfold assertValid
    rw [if_neg (by simp [h1]), if_neg (by simp [h2])]
    rw [if_neg, if_neg]
    · rintro ⟨hb, hd⟩
      exact h4 hb hd
    · intro hc
      rcases validType_cases h3 with hk | hk | hk | hk | hk | hk | hk <;> simp [hk] at hc

theorem setValue_typed (st : State) (flag : Flag) (v : Value)
    (h : hasType flag.ValueType v = true) :
    setValue st flag v = .ret (st.setVal flag.Name v) none := by
  unfold setValue
  cases v <;> simp [hasType] at h <;> simp [h]

theorem setValue_untyped (st : State) (flag : Flag) (v : Value)
    (hv : validType flag.ValueType = true) (h : hasType flag.ValueType v = false) :
    ∃ e, setValue st flag v = .ret st (some e) := by
  unfold setValue
  rcases validType_cases hv with hk | hk | hk | hk | hk | hk | hk <;>
    cases v <;> simp [hasType, hk] at h <;> simp [hk]

theorem Add_eq_of_valid (st : State) (flag : Flag) (hv : assertValid flag = none)
    (hn : st.flags.get flag.Name = none)
    (hs : flag.Shorthand = "" ∨ st.shorthandNames.get flag.Shorthand = none) :
    Gears.Add st flag = setValue (withEntries st flag) flag (initialValue flag) := by
  have h2 : ¬(flag.Shorthand ≠ "" ∧ (st.shorthandNames.get flag.Shorthand).isSome = true) := by
    rintro ⟨h1, h2⟩
    rcases hs with hs | hs
    · exact h1 hs
    · simp [hs] at h2
  unfold Gears.Add
  simp only [hv, hn, Option.isSome_none, Bool.false_eq_true, if_false, h2]
  unfold withEntries initialValue
  by_cases hsh : flag.Shorthand ≠ "" <;> by_cases hb : flag.ValueType = "bool" <;>
    simp [hsh, hb]

theorem Add_eq_of_invalid (st : State) (flag : Flag) (e : Err) (hv : assertValid flag = some e) :
    Gears.Add st flag = .ret st (some e) := by
  simp [Gears.Add, hv]

theorem Add_eq_of_duplicate (st : State) (flag : Flag) (hv : assertValid flag = none)
    (h : (st.flags.get flag.Name).isSome = true ∨
      (flag.Shorthand ≠ "" ∧ (st.shorthandNames.get flag.Shorthand).isSome = true)) :
    ∃ e, Gears.Add st flag = .ret st (some e) := by
  unfold Gears.Add
  simp only [hv]
  by_cases h1 : (st.flags.get flag.Name).isSome = true
  · exact ⟨_, by rw [if_pos h1]⟩
  · rcases h with h | h
    · exact absurd h h1
    · exact ⟨_, by rw [if_neg h1, if_pos h]⟩

theorem hasType_initialValue_bool (flag : Flag) (hb : flag.ValueType = "bool") :
    hasType flag.ValueType (initialValue flag) = true := by
  simp [initialValue, hb, hasType]

theorem withEntries_get_name (st : State) (flag : Flag) :
    (withEntries st flag).flags.get flag.Name = some flag :=
  GoMap.get_set_self _ _ _

theorem withEntries_get_shorthand (st : State) (flag : Flag) (h : flag.Shorthand ≠ "") :
    (withEntries st flag).shorthandNames.get flag.Shorthand = some flag.Name := by
  simp [withEntries, h, GoMap.get_set_self]

/-! ## Theorems: the tokenizer -/

theorem demoState_ok : RegistryOk demoState := by decide

theorem flags_get_empty {st : State} (hok : RegistryOk st) : st.flags.get "" = none := by
  cases h : st.flags.get "" with
  | none => rfl
  | some f => exact absurd rfl (hok.name_ne_empty h)

/-- C2: for a registered flag `n` of kind string and any token `v` (one that
looks like a flag included), `parseArgs` on `[cmd, --n, v]` succeeds, stores
exactly `v` for `n`, leaves every other value and the positional list as they
were. -/
theorem parseArgs_long_string_flag_verbatim (pf : String → Option Float64) (st : State)
    (cmd n v : String) (f : Flag) (hok : RegistryOk st) (hf : st.flags.get n = some f)
    (hk : f.ValueType = "string") :
    parseArgs pf st [cmd, "--" ++ n, v] = .ret (st.setVal n (.string v)) none ∧
      (st.setVal n (.string v)).values.get n = some (.string v) ∧
      (∀ m, m ≠ n → (st.setVal n (.string v)).values.get m = st.values.get m) ∧
      (st.setVal n (.string v)).positionals = st.positionals := by
  refine ⟨?_, State.setVal_get_self _ _ _, fun m hm => State.setVal_get_other _ _ _ _ hm, rfl⟩
  have hne : n ≠ "" := hok.name_ne_empty hf
  have hname : f.Name = n := (hok.flag hf).1
  have hnb : f.ValueType ≠ "bool" := by rw [hk]; decide
  simp [parseArgs, parseArgsLoop, argStep_long, hf, hnb, argStep_pending, hne,
    setStringValue_string pf st n v f hf hk, hname]

theorem parseArgs_long_string_flag_verbatim_witness :
    parseArgs demoParseFloat demoState ["cmd", "--" ++ "mystring", "--mybool-a"] =
      .ret (demoState.setVal "mystring" (.string "--mybool-a")) none :=
  (parseArgs_long_string_flag_verbatim demoParseFloat demoState "cmd" "mystring" "--mybool-a"
    ⟨"mystring", "s", "string", .string ""⟩ (by decide) (by decide) (by decide)).1

/-- C3: a cluster `-b1...bk` of bool shorthands, read while no value is
pending, sets each of those flags to `true` and leaves no value pending (the
loop goes on with the next token); followed by the shorthand `c` of a
non-bool flag `n` in last position, the bools are set and the next token is
handed to `setStringValue` as the value of `n`. -/
theorem parseArgs_shorthand_cluster (pf : String → Option Float64) (st : State)
    (cmd : String) (bs : List Char) (hok : RegistryOk st)
    (hb : ∀ b ∈ bs, isBoolShorthand st b) :
    (∀ rest, parseArgsLoop pf st "" (("-" ++ String.mk bs) :: rest) =
        parseArgsLoop pf (setAllTrue st (clusterNames st bs)) "" rest) ∧
      parseArgs pf st [cmd, "-" ++ String.mk bs] =
        .ret (setAllTrue st (clusterNames st bs)) none ∧
      (∀ b ∈ bs, ∀ n, st.shorthandNames.get (String.singleton b) = some n →
        (setAllTrue st (clusterNames st bs)).values.get n = some (.bool true)) ∧
      (∀ m, m ∉ clusterNames st bs →
        (setAllTrue st (clusterNames st bs)).values.get m = st.values.get m) ∧
      (∀ c n f, st.shorthandNames.get (String.singleton c) = some n →
        st.flags.get n = some f → f.ValueType ≠ "bool" →
        (∀ v rest, parseArgsLoop pf st "" (("-" ++ String.mk (bs ++ [c])) :: v :: rest) =
          match setStringValue pf (setAllTrue st (clusterNames st bs)) n v with
          | .ret st' none => parseArgsLoop pf st' "" rest
          | r => r) ∧
        (f.ValueType = "string" → ∀ v, parseArgs pf st [cmd, "-" ++ String.mk (bs ++ [c]), v] =
          .ret ((setAllTrue st (clusterNames st bs)).setVal n (.string v)) none)) := by
  have hstep := argStep_bool_cluster pf st bs hok hb
  refine ⟨?_, ?_, ?_, ?_, ?_⟩
  · intro rest
    simp [parseArgsLoop, hstep]
  · simp [parseArgs, parseArgsLoop, hstep]
  · intro b hbm n hn
    rw [setAllTrue_get]
    have : n ∈ clusterNames st bs := by
      simp only [clusterNames, List.mem_filterMap]
      exact ⟨b, hbm, hn⟩
    simp [this]
  · intro m hm
    rw [setAllTrue_get]
    simp [hm]
  · intro c n f hc hf hk
    have hstep2 := argStep_value_cluster pf st bs c n f hok hb hc hf hk
    have hne : n ≠ "" := hok.name_ne_empty hf
    have hfr := setAllTrue_frame (clusterNames st bs) st
    refine ⟨?_, ?_⟩
    · intro v rest
      simp only [parseArgsLoop, hstep2, argStep_pending _ _ _ _ hne]
      rcases setStringValue pf (setAllTrue st (clusterNames st bs)) n v with ⟨s1, _ | e⟩ | x | _ <;>
        rfl
    · intro hs v
      have hf2 : (setAllTrue st (clusterNames st bs)).flags.get n = some f := by
        rw [hfr.1]; exact hf
      simp [parseArgs, parseArgsLoop, hstep2, argStep_pending _ _ _ _ hne,
        setStringValue_string pf _ n v f hf2 hs, (hok.flag hf).1]

theorem parseArgs_shorthand_cluster_witness :
    parseArgs demoParseFloat demoState ["cmd", "-" ++ String.mk ['b', 'a']] =
        .ret (setAllTrue demoState ["mybool-b", "mybool-a"]) none ∧
      parseArgs demoParseFloat demoState ["cmd", "-" ++ String.mk (['b', 'a'] ++ ['s']), "a"] =
        .ret ((setAllTrue demoState ["mybool-b", "mybool-a"]).setVal "mystring" (.string "a"))
          none :=
  have hb : ∀ b ∈ ['b', 'a'], isBoolShorthand demoState b := by
    intro b hb
    simp at hb
    rcases hb with rfl | rfl
    · exact ⟨"mybool-b", ⟨"mybool-b", "b", "bool", .nil⟩, rfl, rfl, rfl⟩
    · exact ⟨"mybool-a", ⟨"mybool-a", "a", "bool", .nil⟩, rfl, rfl, rfl⟩
  have h := parseArgs_shorthand_cluster demoParseFloat demoState "cmd" ['b', 'a'] (by decide) hb
  ⟨h.2.1, (h.2.2.2.2 's' "mystring" ⟨"mystring", "s", "string", .string ""⟩ rfl rfl
    (by decide)).2 rfl "a"⟩


theorem parseArgs_cons_cons (pf : String → Option Float64) (st : State) (cmd tok : String)
    (rest : List String) :
    parseArgs pf st (cmd :: tok :: rest) = parseArgsLoop pf st "" (tok :: rest) := by
  simp [parseArgs]

/-- C4: when the shorthand `c` of a non-bool flag `n` stands in a cluster at a
position other than the last, after registered shorthands only, `parseArgs`
returns an error; the value of `n`, as of every non-bool flag, is what it was,
so the rest of the cluster is not taken as a value. -/
theorem parseArgs_value_shorthand_not_last (pf : String → Option Float64) (st : State)
    (cmd : String) (pre : List Char) (c : Char) (post : List Char) (n : String) (f : Flag)
    (rest : List String) (hok : RegistryOk st) (hpre : ∀ b ∈ pre, isShorthand st b)
    (hc : st.shorthandNames.get (String.singleton c) = some n)
    (hf : st.flags.get n = some f) (hk : f.ValueType ≠ "bool") (hpost : post ≠ []) :
    ∃ st' e,
      parseArgsLoop pf st "" (("-" ++ String.mk (pre ++ c :: post)) :: rest) =
        .ret st' (some e) ∧
      parseArgs pf st (cmd :: ("-" ++ String.mk (pre ++ c :: post)) :: rest) =
        .ret st' (some e) ∧
      st'.values.get n = st.values.get n ∧
      (∀ m g, st.flags.get m = some g → g.ValueType ≠ "bool" →
        st'.values.get m = st.values.get m) ∧
      st'.positionals = st.positionals := by
  have hhead : (pre ++ c :: post).head? ≠ some '-' := by
    cases pre with
    | nil =>
      have := alnum_ne_dash c (isBoolShorthand_alnum hok ⟨n, f, hc, hf⟩)
      simpa using this
    | cons b pre =>
      have := alnum_ne_dash b (isBoolShorthand_alnum hok (hpre b (List.mem_cons_self _ _)))
      simpa using this
  obtain ⟨st', e, h1, _, _, h4, h5⟩ :=
    clusterLoop_reject (String.mk (pre ++ c :: post)) st c post n f "" hpost hc hf hk pre st 0
      rfl rfl hpre (by rw [utf8ByteSize_mk]; omega)
  have hloop : parseArgsLoop pf st "" (("-" ++ String.mk (pre ++ c :: post)) :: rest) =
      .ret st' (some e) := by
    simp [parseArgsLoop, argStep_short pf st _ hhead, h1]
  exact ⟨st', e, hloop, by rw [parseArgs_cons_cons, hloop], h5 n f hf hk, h5, h4⟩

theorem parseArgs_value_shorthand_not_last_witness :
    ∃ st' e, parseArgs demoParseFloat demoState
        ["cmd", "-" ++ String.mk (['a'] ++ 's' :: ['b']), "a"] = .ret st' (some e) ∧
      st'.values.get "mystring" = some (.string "") := by
  obtain ⟨st', e, _, h2, h3, _⟩ :=
    parseArgs_value_shorthand_not_last demoParseFloat demoState "cmd" ['a'] 's' ['b'] "mystring"
      ⟨"mystring", "s", "string", .string ""⟩ ["a"] (by decide)
      (by
        intro b hb
        simp at hb
        subst hb
        exact ⟨"mybool-a", ⟨"mybool-a", "a", "bool", .nil⟩, rfl, rfl⟩)
      rfl rfl (by decide) (by decide)
  exact ⟨st', e, h2, h3⟩

/-- C5: with no value pending, `parseArgs` returns an error for a token `--x`
whose `x` is no registered name (the bare `--` included) and for a cluster
that holds a character that is no registered shorthand; after bool shorthands
the error is raised at that character, the rest of the cluster unread. -/
theorem parseArgs_unknown_flag (pf : String → Option Float64) (st : State) (cmd : String)
    (rest : List String) (hok : RegistryOk st) :
    (∀ x, st.flags.get x = none →
      parseArgsLoop pf st "" (("--" ++ x) :: rest) = .ret st (some (.unknownFlag x)) ∧
      parseArgs pf st (cmd :: ("--" ++ x) :: rest) = .ret st (some (.unknownFlag x))) ∧
    parseArgs pf st (cmd :: "--" :: rest) = .ret st (some (.unknownFlag "")) ∧
    (∀ cs, cs.head? ≠ some '-' →
      (∃ u ∈ cs, st.shorthandNames.get (String.singleton u) = none) →
      ∃ st' e, parseArgsLoop pf st "" (("-" ++ String.mk cs) :: rest) = .ret st' (some e) ∧
        parseArgs pf st (cmd :: ("-" ++ String.mk cs) :: rest) = .ret st' (some e)) ∧
    (∀ bs u post, (bs ++ u :: post).head? ≠ some '-' → (∀ b ∈ bs, isBoolShorthand st b) →
      st.shorthandNames.get (String.singleton u) = none →
      parseArgs pf st (cmd :: ("-" ++ String.mk (bs ++ u :: post)) :: rest) =
        .ret (setAllTrue st (clusterNames st bs))
          (some (.unknownShorthand (String.singleton u)))) := by
  have hlong : ∀ x, st.flags.get x = none →
      parseArgsLoop pf st "" (("--" ++ x) :: rest) = .ret st (some (.unknownFlag x)) := by
    intro x hx
    simp [parseArgsLoop, argStep_long, hx]
  refine ⟨fun x hx => ⟨hlong x hx, by rw [parseArgs_cons_cons, hlong x hx]⟩, ?_, ?_, ?_⟩
  · have := hlong "" (flags_get_empty hok)
    rw [parseArgs_cons_cons]
    exact this
  · intro cs hhead hu
    obtain ⟨st', e, h1⟩ := clusterLoop_unknown (String.mk cs) st hok cs st "" 0 rfl rfl hu
    have hloop : parseArgsLoop pf st "" (("-" ++ String.mk cs) :: rest) = .ret st' (some e) := by
      simp [parseArgsLoop, argStep_short pf st _ hhead, h1]
    exact ⟨st', e, hloop, by rw [parseArgs_cons_cons, hloop]⟩
  · intro bs u post hhead hbs hu
    rw [parseArgs_cons_cons]
    have h1 := clusterLoop_bools (String.mk (bs ++ u :: post)) st (u :: post) "" bs st 0 rfl rfl hbs
    have hfr := setAllTrue_frame (clusterNames st bs) st
    simp [parseArgsLoop, argStep_short pf st _ hhead, h1, clusterLoop, hfr.2.1, hu]

theorem parseArgs_unknown_flag_witness :
    parseArgs demoParseFloat demoState ["cmd", "--" ++ "unknown"] =
        .ret demoState (some (.unknownFlag "unknown")) ∧
      parseArgs demoParseFloat demoState ["cmd", "--"] =
        .ret demoState (some (.unknownFlag "")) :=
  have h := parseArgs_unknown_flag demoParseFloat demoState "cmd" [] (by decide)
  ⟨(h.1 "unknown" (by decide)).2, h.2.1⟩

/-- C6: after a successful `parseArgs(args)` the positional list is the list
before the call followed, in order, by exactly the tokens of `args[1:]` that
do not start with `-` and are not the value of a value-taking flag; `args[0]`
is left out, a bool flag takes no value, and nothing is reset. -/
theorem parseArgs_positionals (pf : String → Option Float64) (st st' : State)
    (args : List String) (hok : RegistryOk st) (h : parseArgs pf st args = .ret st' none) :
    st'.positionals = st.positionals ++ expectedPositionals st false args.tail := by
  unfold parseArgs at h
  split at h
  · rename_i hlen
    cases h
    have : args.tail = [] := by
      cases args with
      | nil => rfl
      | cons a as =>
        cases as with
        | nil => rfl
        | cons b bs => simp at hlen
    simp [this, expectedPositionals]
  · exact parseArgsLoop_positionals pf st hok args.tail st "" st' rfl rfl h

theorem parseArgs_positionals_witness :
    (setAllTrue
      { demoState with
        values := [("mybool-a", .bool false), ("mybool-b", .bool false),
          ("mystring", .string "a"), ("myint", .int 0), ("myfloat", .float ⟨0⟩),
          ("mystrings", .strings ["x"]), ("myints", .ints []), ("myfloats", .floats [])],
        positionals := ["old", "pos0", "pos1", "pos2"] } ["mybool-a"]).positionals =
      ({ demoState with positionals := ["old"] } : State).positionals ++
        expectedPositionals { demoState with positionals := ["old"] } false
          ["cmd", "pos0", "--mystring", "a", "pos1", "-S", "x", "-a", "pos2"].tail :=
  parseArgs_positionals demoParseFloat { demoState with positionals := ["old"] } _
    ["cmd", "pos0", "--mystring", "a", "pos1", "-S", "x", "-a", "pos2"] (by decide) rfl

theorem parseArgsLoop_repeat {α : Type} (pf : String → Option Float64) (st0 : State)
    (n : String) (f : Flag) (wrap : List α → Value) (parse : String → Option α)
    (hok : RegistryOk st0) (hf : st0.flags.get n = some f) (hk : f.ValueType ≠ "bool")
    (hset : ∀ (st : State) (L : List α) (x : String) (e : α), st.flags = st0.flags →
      st.values.get n = some (wrap L) → parse x = some e →
      setStringValue pf st n x = .ret (st.setVal n (wrap (L ++ [e]))) none) :
    ∀ (xs : List String) (es : List α) (st : State) (L : List α),
      List.Forall₂ (fun x e => parse x = some e) xs es → st.flags = st0.flags →
      st.values.get n = some (wrap L) →
      ∃ st', parseArgsLoop pf st "" (xs.flatMap (fun x => ["--" ++ n, x])) = .ret st' none ∧
        st'.values.get n = some (wrap (L ++ es)) ∧
        (∀ m, m ≠ n → st'.values.get m = st.values.get m) ∧
        st'.positionals = st.positionals ∧ st'.flags = st.flags ∧
        st'.shorthandNames = st.shorthandNames := by
  intro xs es st L hall
  induction hall generalizing st L with
  | nil =>
    intro _ hv
    exact ⟨st, by simp [parseArgsLoop], by simpa using hv, fun _ _ => rfl, rfl, rfl, rfl⟩
  | @cons x e xs es hx _ ih =>
    intro hfl hv
    have hne : n ≠ "" := hok.name_ne_empty hf
    obtain ⟨st', h1, h2, h3, h4, h5, h6⟩ :=
      ih (st.setVal n (wrap (L ++ [e]))) (L ++ [e]) hfl (State.setVal_get_self _ _ _)
    refine ⟨st', ?_, by simpa using h2, ?_, h4, h5, h6⟩
    · simp only [List.flatMap_cons, List.cons_append, List.nil_append, parseArgsLoop, argStep_long,
        hfl, hf, hk, if_false, argStep_pending _ _ _ _ hne, hset st L x e hfl hv hx]
      exact h1
    · intro m hm
      rw [h3 m hm, State.setVal_get_other _ _ _ _ hm]

theorem setStringValue_strings (pf : String → Option Float64) (st : State) (n tok : String)
    (f : Flag) (L : List String) (hf : st.flags.get n = some f) (hk : f.ValueType = "strings")
    (hv : st.values.get f.Name = some (.strings L)) :
    setStringValue pf st n tok = .ret (st.setVal f.Name (.strings (L ++ [tok]))) none := by
  simp [setStringValue, hf, hk, hv]

theorem setStringValue_ints (pf : String → Option Float64) (st : State) (n tok : String)
    (f : Flag) (L : List Int) (e : Int) (hf : st.flags.get n = some f)
    (hk : f.ValueType = "ints") (hv : st.values.get f.Name = some (.ints L))
    (he : parseInt tok 32 = some e) :
    setStringValue pf st n tok = .ret (st.setVal f.Name (.ints (L ++ [e]))) none := by
  simp [setStringValue, hf, hk, hv, he]

theorem setStringValue_floats (pf : String → Option Float64) (st : State) (n tok : String)
    (f : Flag) (L : List Float64) (e : Float64) (hf : st.flags.get n = some f)
    (hk : f.ValueType = "floats") (hv : st.values.get f.Name = some (.floats L))
    (he : pf tok = some e) :
    setStringValue pf st n tok = .ret (st.setVal f.Name (.floats (L ++ [e]))) none := by
  simp [setStringValue, hf, hk, hv, he]

/-- C7: for a list flag holding the list `L`, `setStringValue` with a token
that parses as the element `e` stores `L ++ [e]`; so the occurrences
`--n x1 ... --n xk` on the command line leave `L` followed by the parsed
`x1..xk`, in order. -/
theorem setStringValue_list_appends (pf : String → Option Float64) (st : State)
    (cmd n : String) (f : Flag) (hok : RegistryOk st) (hf : st.flags.get n = some f) :
    (∀ L, f.ValueType = "strings" → st.values.get n = some (.strings L) →
      (∀ tok, setStringValue pf st n tok = .ret (st.setVal n (.strings (L ++ [tok]))) none) ∧
      (∀ xs, ∃ st', parseArgs pf st (cmd :: xs.flatMap (fun x => ["--" ++ n, x])) =
          .ret st' none ∧ st'.values.get n = some (.strings (L ++ xs)))) ∧
    (∀ L, f.ValueType = "ints" → st.values.get n = some (.ints L) →
      (∀ tok e, parseInt tok 32 = some e →
        setStringValue pf st n tok = .ret (st.setVal n (.ints (L ++ [e]))) none) ∧
      (∀ xs es, List.Forall₂ (fun x e => parseInt x 32 = some e) xs es →
        ∃ st', parseArgs pf st (cmd :: xs.flatMap (fun x => ["--" ++ n, x])) =
          .ret st' none ∧ st'.values.get n = some (.ints (L ++ es)))) ∧
    (∀ L, f.ValueType = "floats" → st.values.get n = some (.floats L) →
      (∀ tok e, pf tok = some e →
        setStringValue pf st n tok = .ret (st.setVal n (.floats (L ++ [e]))) none) ∧
      (∀ xs es, List.Forall₂ (fun x e => pf x = some e) xs es →
        ∃ st', parseArgs pf st (cmd :: xs.flatMap (fun x => ["--" ++ n, x])) =
          .ret st' none ∧ st'.values.get n = some (.floats (L ++ es)))) := by
  have hname : f.Name = n := (hok.flag hf).1
  have hargs : ∀ xs : List String,
      parseArgs pf st (cmd :: xs.flatMap (fun x => ["--" ++ n, x])) =
        parseArgsLoop pf st "" (xs.flatMap (fun x => ["--" ++ n, x])) := by
    intro xs
    cases xs with
    | nil => simp [parseArgs, parseArgsLoop]
    | cons x xs => simp [parseArgs]
  refine ⟨?_, ?_, ?_⟩
  · intro L hk hv
    have hnb : f.ValueType ≠ "bool" := by rw [hk]; decide
    have hset : ∀ (s : State) (L : List String) (x e : String), s.flags = st.flags →
        s.values.get n = some (.strings L) → some x = some e →
        setStringValue pf s n x = .ret (s.setVal n (.strings (L ++ [e]))) none := by
      intro s L x e hfl hsv hx
      cases hx
      have := setStringValue_strings pf s n x f L (by rw [hfl]; exact hf) hk
        (by rw [hname]; exact hsv)
      rw [hname] at this
      exact this
    refine ⟨fun tok => hset st L tok tok rfl hv rfl, fun xs => ?_⟩
    have hall : List.Forall₂ (fun x e => some x = some e) xs xs := by
      induction xs with
      | nil => exact List.Forall₂.nil
      | cons x xs ih => exact List.Forall₂.cons rfl ih
    obtain ⟨st', h1, h2, _⟩ :=
      parseArgsLoop_repeat pf st n f Value.strings some hok hf hnb hset xs xs st L hall rfl hv
    exact ⟨st', by rw [hargs, h1], h2⟩
  · intro L hk hv
    have hnb : f.ValueType ≠ "bool" := by rw [hk]; decide
    have hset : ∀ (s : State) (L : List Int) (x : String) (e : Int), s.flags = st.flags →
        s.values.get n = some (.ints L) → parseInt x 32 = some e →
        setStringValue pf s n x = .ret (s.setVal n (.ints (L ++ [e]))) none := by
      intro s L x e hfl hsv hx
      have := setStringValue_ints pf s n x f L e (by rw [hfl]; exact hf) hk
        (by rw [hname]; exact hsv) hx
      rw [hname] at this
      exact this
    refine ⟨fun tok e he => hset st L tok e rfl hv he, fun xs es hall => ?_⟩
    obtain ⟨st', h1, h2, _⟩ :=
      parseArgsLoop_repeat pf st n f Value.ints (parseInt · 32) hok hf hnb hset xs es st L hall
        rfl hv
    exact ⟨st', by rw [hargs, h1], h2⟩
  · intro L hk hv
    have hnb : f.ValueType ≠ "bool" := by rw [hk]; decide
    have hset : ∀ (s : State) (L : List Float64) (x : String) (e : Float64),
        s.flags = st.flags → s.values.get n = some (.floats L) → pf x = some e →
        setStringValue pf s n x = .ret (s.setVal n (.floats (L ++ [e]))) none := by
      intro s L x e hfl hsv hx
      have := setStringValue_floats pf s n x f L e (by rw [hfl]; exact hf) hk
        (by rw [hname]; exact hsv) hx
      rw [hname] at this
      exact this
    refine ⟨fun tok e he => hset st L tok e rfl hv he, fun xs es hall => ?_⟩
    obtain ⟨st', h1, h2, _⟩ :=
      parseArgsLoop_repeat pf st n f Value.floats pf hok hf hnb hset xs es st L hall rfl hv
    exact ⟨st', by rw [hargs, h1], h2⟩

theorem setStringValue_list_appends_witness :
    ∃ st', parseArgs demoParseFloat demoState
        ("cmd" :: ["x", "y"].flatMap (fun x => ["--" ++ "mystrings", x])) = .ret st' none ∧
      st'.values.get "mystrings" = some (.strings ([] ++ ["x", "y"])) :=
  ((setStringValue_list_appends demoParseFloat demoState "cmd" "mystrings"
    ⟨"mystrings", "S", "strings", .strings []⟩ (by decide) rfl).1 [] rfl rfl).2 ["x", "y"]

/-! ## Theorems: JSON values -/

theorem unmarshalElems_strings (ss : List String) :
    unmarshalElems unmarshalString (ss.map Json.string) = some ss := by
  induction ss with
  | nil => rfl
  | cons s ss ih => simp [unmarshalElems, unmarshalString, ih]

theorem unmarshalElems_numbers {α : Type} (dec : Json → Option α) (conv : String → Option α)
    (hdec : ∀ lit, dec (.number lit) = conv lit) (lits : List String) (vs : List α)
    (h : List.Forall₂ (fun l v => conv l = some v) lits vs) :
    unmarshalElems dec (lits.map Json.number) = some vs := by
  induction h with
  | nil => rfl
  | cons hl _ ih => simp [unmarshalElems, hdec, hl, ih]

theorem jsonValue_arrayOf (pf : String → Option Float64) (vt : String) (elems : List Json)
    (v : Value) (h : arrayOf pf vt elems v) : jsonValue pf vt (.array elems) = some v := by
  rcases h with ⟨rfl, ss, rfl, rfl⟩ | ⟨rfl, lits, is, rfl, hall, rfl⟩ |
    ⟨rfl, lits, fs, rfl, hall, rfl⟩
  · simp [jsonValue, unmarshalSlice, unmarshalElems_strings]
  · simp [jsonValue, unmarshalSlice,
      unmarshalElems_numbers unmarshalInt (parseInt · 64) (fun _ => rfl) lits is hall]
  · simp [jsonValue, unmarshalSlice,
      unmarshalElems_numbers (unmarshalFloat pf) pf (fun _ => rfl) lits fs hall]

theorem unmarshalElems_none {α : Type} (dec : Json → Option α) :
    ∀ (elems : List Json) (e : Json), e ∈ elems → dec e = none →
      unmarshalElems dec elems = none := by
  intro elems
  induction elems with
  | nil => intro e he; cases he
  | cons j js ih =>
    intro e he hd
    rcases List.mem_cons.1 he with rfl | he
    · simp [unmarshalElems, hd]
    · have := ih e he hd
      simp only [unmarshalElems, this]
      cases dec j <;> rfl

theorem all_strings_shape :
    ∀ elems : List Json, elems.all (scalarShape "string") = true →
      ∃ ss : List String, elems = ss.map Json.string := by
  intro elems
  induction elems with
  | nil => intro _; exact ⟨[], rfl⟩
  | cons j js ih =>
    intro h
    simp only [List.all_cons, Bool.and_eq_true] at h
    obtain ⟨ss, rfl⟩ := ih h.2
    cases j <;> simp [scalarShape] at h
    rename_i s
    exact ⟨s :: ss, rfl⟩

theorem all_numbers_shape (vt : String) (hvt : vt = "int" ∨ vt = "float") :
    ∀ elems : List Json, elems.all (scalarShape vt) = true →
      ∃ lits : List String, elems = lits.map Json.number := by
  intro elems
  induction elems with
  | nil => intro _; exact ⟨[], rfl⟩
  | cons j js ih =>
    intro h
    simp only [List.all_cons, Bool.and_eq_true] at h
    obtain ⟨lits, rfl⟩ := ih h.2
    have h1 := h.1
    rcases hvt with rfl | rfl <;> cases j <;> simp [scalarShape] at h1
    all_goals
      rename_i lit
      exact ⟨lit :: lits, rfl⟩

theorem forall₂_of_all_some {α : Type} (conv : String → Option α) :
    ∀ lits : List String, (∀ l ∈ lits, conv l ≠ none) →
      ∃ vs, List.Forall₂ (fun l x => conv l = some x) lits vs := by
  intro lits
  induction lits with
  | nil => intro _; exact ⟨[], List.Forall₂.nil⟩
  | cons l ls ih =>
    intro h
    obtain ⟨vs, hvs⟩ := ih (fun x hx => h x (List.mem_cons_of_mem _ hx))
    cases hc : conv l with
    | none => exact absurd hc (h l (List.mem_cons_self _ _))
    | some x => exact ⟨x :: vs, List.Forall₂.cons hc hvs⟩

/-- An array of the scalar shape of a list kind either lists values that all
convert, or holds a number whose literal does not convert. -/
theorem arrayOf_or_bad (pf : String → Option Float64) (vt : String) (elems : List Json)
    (hs : hasShape vt (.array elems) = true) :
    (∃ v, arrayOf pf vt elems v) ∨
      ∃ lit, Json.number lit ∈ elems ∧
        ((vt = "ints" ∧ parseInt lit 64 = none) ∨ (vt = "floats" ∧ pf lit = none)) := by
  unfold hasShape at hs
  by_cases hl : isListType vt = true
  · rw [if_pos hl] at hs
    simp only at hs
    have hcases : vt = "floats" ∨ vt = "ints" ∨ vt = "strings" := by
      simpa [isListType, or_assoc] using hl
    rcases hcases with rfl | rfl | rfl
    · obtain ⟨lits, rfl⟩ := all_numbers_shape "float" (Or.inr rfl) elems
        (by simpa [elemType] using hs)
      by_cases hbad : ∃ l ∈ lits, pf l = none
      · obtain ⟨l, hl1, hl2⟩ := hbad
        exact Or.inr ⟨l, List.mem_map_of_mem _ hl1, Or.inr ⟨rfl, hl2⟩⟩
      · obtain ⟨vs, hvs⟩ := forall₂_of_all_some pf lits
          (fun l hl1 hl2 => hbad ⟨l, hl1, hl2⟩)
        exact Or.inl ⟨.floats vs, Or.inr (Or.inr ⟨rfl, lits, vs, rfl, hvs, rfl⟩)⟩
    · obtain ⟨lits, rfl⟩ := all_numbers_shape "int" (Or.inl rfl) elems
        (by simpa [elemType] using hs)
      by_cases hbad : ∃ l ∈ lits, parseInt l 64 = none
      · obtain ⟨l, hl1, hl2⟩ := hbad
        exact Or.inr ⟨l, List.mem_map_of_mem _ hl1, Or.inl ⟨rfl, hl2⟩⟩
      · obtain ⟨vs, hvs⟩ := forall₂_of_all_some (parseInt · 64) lits
          (fun l hl1 hl2 => hbad ⟨l, hl1, hl2⟩)
        exact Or.inl ⟨.ints vs, Or.inr (Or.inl ⟨rfl, lits, vs, rfl, hvs, rfl⟩)⟩
    · obtain ⟨ss, rfl⟩ := all_strings_shape elems (by simpa [elemType] using hs)
      exact Or.inl ⟨.strings ss, Or.inl ⟨rfl, ss, rfl, rfl⟩⟩
  · rw [if_neg hl] at hs
    simp [scalarShape] at hs

/-- A member whose value `setJsonValue` rejects makes the loop of `parseJson`
return an error, and the value stored under its name is what it was. -/
theorem parseJsonLoop_bad (pf : String → Option Float64) (st0 : State) (hok : RegistryOk st0)
    (n : String) (f : Flag) (raw : Json) (hf : st0.flags.get n = some f)
    (hbad : jsonValue pf f.ValueType raw = none) :
    ∀ (config : List (String × Json)) (st : State), st.flags = st0.flags →
      (config.map Prod.fst).Nodup → (n, raw) ∈ config →
      ∃ st' e, parseJsonLoop pf st config = .ret st' (some e) ∧
        st'.values.get n = st.values.get n := by
  intro config
  induction config with
  | nil => intro st _ _ h; cases h
  | cons p rest ih =>
    intro st hfl hnd hmem
    obtain ⟨k, j⟩ := p
    simp only [List.map_cons, List.nodup_cons] at hnd
    unfold parseJsonLoop
    by_cases hk : k = n
    · subst hk
      have hj : j = raw := by
        rcases List.mem_cons.1 hmem with h | h
        · exact (Prod.mk.inj h).2.symm
        · exact absurd (List.mem_map_of_mem Prod.fst h) hnd.1
      subst hj
      have hfs : st.flags.get k = some f := by rw [hfl]; exact hf
      obtain ⟨e, he⟩ := setJsonValue_none pf st f j (hok.flag hf).2.2 hbad
      simp only [hfs, he]
      exact ⟨st, e, rfl, rfl⟩
    · have hmem2 : (n, raw) ∈ rest := by
        rcases List.mem_cons.1 hmem with h | h
        · exact absurd (Prod.mk.inj h).1.symm hk
        · exact h
      cases hg : st.flags.get k with
      | none => exact ⟨st, _, rfl, rfl⟩
      | some g =>
        simp only
        have hg0 : st0.flags.get k = some g := by rw [← hfl]; exact hg
        obtain ⟨s2, e2, hr, hcase⟩ := setJsonValue_ret pf st g j
        rw [hr]
        have hval : s2.values.get n = st.values.get n ∧ s2.flags = st.flags := by
          rcases hcase with ⟨_, rfl⟩ | ⟨_, rfl | ⟨v, rfl⟩⟩
          · exact ⟨rfl, rfl⟩
          · exact ⟨rfl, rfl⟩
          · rw [(hok.flag hg0).1]
            exact ⟨State.setVal_get_other _ _ _ _ (fun h => hk h.symm), rfl⟩
        cases e2 with
        | none =>
          obtain ⟨st', e, h1, h2⟩ := ih s2 (hval.2.trans hfl) hnd.2 hmem2
          exact ⟨st', e, h1, h2.trans hval.1⟩
        | some e2 => exact ⟨s2, e2, rfl, hval.1⟩

/-- C8 (as amended): for a list flag `n`, whatever it held before, `parseJson`
of an object that maps `n` to an array of the matching scalar shape whose
numbers all convert stores exactly the array's elements, in order: the stored
list is replaced, not extended. An array that holds a number whose literal
does not convert to the element kind makes `parseJson` return an error and
leaves the stored list as it was (the whole state, when the object has that
one member); an array of the matching scalar shape is of one of these two
sorts. -/
theorem parseJson_list_replaces (pf : String → Option Float64) (st : State) (n : String)
    (f : Flag) (elems : List Json) (hok : RegistryOk st)
    (hf : st.flags.get n = some f) :
    (∀ v, arrayOf pf f.ValueType elems v →
      parseJson pf st (some [(n, .array elems)]) = .ret (st.setVal n v) none ∧
      (st.setVal n v).values.get n = some v ∧
      (∀ config st', (config.map Prod.fst).Nodup → (n, Json.array elems) ∈ config →
        parseJson pf st (some config) = .ret st' none → st'.values.get n = some v)) ∧
    ((∃ lit, Json.number lit ∈ elems ∧
        ((f.ValueType = "ints" ∧ parseInt lit 64 = none) ∨
          (f.ValueType = "floats" ∧ pf lit = none))) →
      (∃ e, parseJson pf st (some [(n, .array elems)]) = .ret st (some e)) ∧
      (∀ config, (config.map Prod.fst).Nodup → (n, Json.array elems) ∈ config →
        ∃ st' e, parseJson pf st (some config) = .ret st' (some e) ∧
          st'.values.get n = st.values.get n)) ∧
    (hasShape f.ValueType (.array elems) = true →
      (∃ v, arrayOf pf f.ValueType elems v) ∨
        ∃ lit, Json.number lit ∈ elems ∧
          ((f.ValueType = "ints" ∧ parseInt lit 64 = none) ∨
            (f.ValueType = "floats" ∧ pf lit = none))) := by
  have hname : f.Name = n := (hok.flag hf).1
  refine ⟨?_, ?_, arrayOf_or_bad pf f.ValueType elems⟩
  · intro v hv
    have hjv := jsonValue_arrayOf pf f.ValueType elems v hv
    refine ⟨?_, State.setVal_get_self _ _ _, ?_⟩
    · simp [parseJson, parseJsonLoop, hf, setJsonValue_some pf st f _ v hjv, hname]
    · intro config st' hnd hmem h
      obtain ⟨_, _, _, _, _, h6⟩ := parseJsonLoop_ok pf st hok config st st' rfl h
      obtain ⟨f', v', hf', hv', hget⟩ := h6 hnd n _ hmem
      rw [hf] at hf'
      cases hf'
      rw [hjv] at hv'
      cases hv'
      exact hget
  · rintro ⟨lit, hmem, hbad⟩
    have hjv : jsonValue pf f.ValueType (.array elems) = none := by
      rcases hbad with ⟨hk, hp⟩ | ⟨hk, hp⟩
      · simp [jsonValue, hk, unmarshalSlice,
          unmarshalElems_none unmarshalInt elems (.number lit) hmem hp]
      · simp [jsonValue, hk, unmarshalSlice,
          unmarshalElems_none (unmarshalFloat pf) elems (.number lit) hmem hp]
    obtain ⟨e, he⟩ := setJsonValue_none pf st f (.array elems) (hok.flag hf).2.2 hjv
    refine ⟨⟨e, by simp [parseJson, parseJsonLoop, hf, he]⟩, ?_⟩
    intro config hnd hcfg
    exact parseJsonLoop_bad pf st hok n f (.array elems) hf hjv config st rfl hnd hcfg

theorem parseJson_list_replaces_witness :
    parseJson demoParseFloat (demoState.setVal "mystrings" (.strings ["a"]))
        (some [("mystrings", .array (["x", "y"].map Json.string))]) =
      .ret ((demoState.setVal "mystrings" (.strings ["a"])).setVal "mystrings"
        (.strings ["x", "y"])) none :=
  ((parseJson_list_replaces demoParseFloat (demoState.setVal "mystrings" (.strings ["a"]))
    "mystrings" ⟨"mystrings", "S", "strings", .strings []⟩ (["x", "y"].map Json.string)
    (by decide) rfl).1 (.strings ["x", "y"]) (Or.inl ⟨rfl, ["x", "y"], rfl, rfl⟩)).1

/-- C8 (as stated) fails: `[1.5]` is an array of the number shape, the shape
of an ints flag, yet `parseJson` of `{"myints": [1.5]}` returns an error and
the stored list `[1]` survives. -/
theorem parseJson_list_shape_counterexample :
    hasShape "ints" (.array [.number "1.5"]) = true ∧
    parseJson demoParseFloat (demoState.setVal "myints" (.ints [1]))
        (some [("myints", .array [.number "1.5"])]) =
      .ret (demoState.setVal "myints" (.ints [1]))
        (some (.jsonNotOfType (.array [.number "1.5"]) "[]int")) ∧
    (demoState.setVal "myints" (.ints [1])).values.get "myints" = some (.ints [1]) :=
  ⟨rfl, rfl, rfl⟩

/-- C10: `parseJson` returns an error whenever the object has a key that is no
registered name, whatever the other members are and in whatever order the
members are visited. -/
theorem parseJson_unknown_key (pf : String → Option Float64) (st : State)
    (config : List (String × Json)) (h : ∃ p ∈ config, st.flags.get p.1 = none) :
    ∀ visit : List (String × Json), visit.Perm config →
      ∃ st' e, parseJson pf st (some visit) = .ret st' (some e) := by
  intro visit hperm
  obtain ⟨p, hp, hnone⟩ := h
  exact parseJsonLoop_unknown pf visit st ⟨p, hperm.mem_iff.2 hp, hnone⟩

theorem parseJson_unknown_key_witness :
    ∃ st' e, parseJson demoParseFloat demoState
      (some [("nope", .null), ("mystring", .string "x")]) = .ret st' (some e) :=
  parseJson_unknown_key demoParseFloat demoState [("mystring", .string "x"), ("nope", .null)]
    ⟨("nope", .null), by simp, rfl⟩ _ (List.Perm.swap _ _ _)

theorem jsonValue_null (pf : String → Option Float64) (vt : String)
    (hv : validType vt = true) : jsonValue pf vt .null = some (zeroValue vt) := by
  rcases validType_cases hv with hk | hk | hk | hk | hk | hk | hk <;>
    simp [jsonValue, zeroValue, hk, unmarshalBool, unmarshalFloat, unmarshalInt, unmarshalString,
      unmarshalSlice]

/-- C9 (as amended): for a registered flag, `setJsonValue` succeeds exactly
when the JSON value fits the flag's kind, that is when it is `null` or has the
kind's shape with every number convertible (an array may hold `null`
elements); any other value yields an error and leaves the state as it was.
On `null` it stores the zero value of the kind; on a boolean, a string, a
number that converts, and an array of such values it stores that value. -/
theorem setJsonValue_succeeds_iff_fits (pf : String → Option Float64) (st : State)
    (n : String) (f : Flag) (raw : Json) (hok : RegistryOk st)
    (hf : st.flags.get n = some f) :
    ((∃ st', setJsonValue pf st f raw = .ret st' none) ↔ jsonFits pf f.ValueType raw = true) ∧
      (jsonFits pf f.ValueType raw = false →
        ∃ e, setJsonValue pf st f raw = .ret st (some e)) ∧
      (raw = .null →
        setJsonValue pf st f raw = .ret (st.setVal n (zeroValue f.ValueType)) none) ∧
      (∀ b, f.ValueType = "bool" → raw = .bool b →
        setJsonValue pf st f raw = .ret (st.setVal n (.bool b)) none) ∧
      (∀ s, f.ValueType = "string" → raw = .string s →
        setJsonValue pf st f raw = .ret (st.setVal n (.string s)) none) ∧
      (∀ lit x, f.ValueType = "float" → raw = .number lit → pf lit = some x →
        setJsonValue pf st f raw = .ret (st.setVal n (.float x)) none) ∧
      (∀ lit i, f.ValueType = "int" → raw = .number lit → parseInt lit 64 = some i →
        setJsonValue pf st f raw = .ret (st.setVal n (.int i)) none) ∧
      (∀ elems v, raw = .array elems → arrayOf pf f.ValueType elems v →
        setJsonValue pf st f raw = .ret (st.setVal n v) none) := by
  have hvt := (hok.flag hf).2.2
  have hname : f.Name = n := (hok.flag hf).1
  refine ⟨?_, ?_, ?_, ?_, ?_, ?_, ?_, ?_⟩
  · rw [jsonFits_iff pf f.ValueType raw hvt]
    cases hv : jsonValue pf f.ValueType raw with
    | none =>
      obtain ⟨e, he⟩ := setJsonValue_none pf st f raw hvt hv
      simp [he]
    | some v => simp [setJsonValue_some pf st f raw v hv]
  · rw [jsonFits_iff pf f.ValueType raw hvt]
    cases hv : jsonValue pf f.ValueType raw with
    | none =>
      intro _
      exact setJsonValue_none pf st f raw hvt hv
    | some v => simp
  · rintro rfl
    rw [setJsonValue_some pf st f .null _ (jsonValue_null pf f.ValueType hvt), hname]
  · rintro b hk rfl
    rw [setJsonValue_some pf st f (.bool b) (.bool b) (by simp [jsonValue, hk, unmarshalBool]),
      hname]
  · rintro s hk rfl
    rw [setJsonValue_some pf st f (.string s) (.string s)
      (by simp [jsonValue, hk, unmarshalString]), hname]
  · rintro lit x hk rfl hx
    rw [setJsonValue_some pf st f (.number lit) (.float x)
      (by simp [jsonValue, hk, unmarshalFloat, hx]), hname]
  · rintro lit i hk rfl hi
    rw [setJsonValue_some pf st f (.number lit) (.int i)
      (by simp [jsonValue, hk, unmarshalInt, hi]), hname]
  · rintro elems v rfl hv
    rw [setJsonValue_some pf st f (.array elems) v (jsonValue_arrayOf pf f.ValueType elems v hv),
      hname]

theorem setJsonValue_succeeds_iff_fits_witness :
    ((∃ st', setJsonValue demoParseFloat demoState ⟨"myint", "i", "int", .int 0⟩
        (.number "12") = .ret st' none) ↔
      jsonFits demoParseFloat "int" (.number "12") = true) ∧
    setJsonValue demoParseFloat (demoState.setVal "myint" (.int 5)) ⟨"myint", "i", "int", .int 0⟩
        .null = .ret ((demoState.setVal "myint" (.int 5)).setVal "myint" (.int 0)) none :=
  ⟨(setJsonValue_succeeds_iff_fits demoParseFloat demoState "myint"
      ⟨"myint", "i", "int", .int 0⟩ (.number "12") (by decide) rfl).1,
    (setJsonValue_succeeds_iff_fits demoParseFloat (demoState.setVal "myint" (.int 5)) "myint"
      ⟨"myint", "i", "int", .int 0⟩ .null (by decide) rfl).2.2.1 rfl⟩

/-- C9 (as stated) fails: `null` has no kind's shape, yet `setJsonValue`
takes it for a bool flag and stores `false`; `1.5` has the number shape, yet
`setJsonValue` rejects it for an int flag. -/
theorem setJsonValue_shape_counterexample :
    (hasShape "bool" .null = false ∧
      setJsonValue demoParseFloat demoState ⟨"mybool-a", "a", "bool", .nil⟩ .null =
        .ret (demoState.setVal "mybool-a" (.bool false)) none) ∧
    (hasShape "int" (.number "1.5") = true ∧
      setJsonValue demoParseFloat demoState ⟨"myint", "i", "int", .int 0⟩ (.number "1.5") =
        .ret demoState (some (.jsonNotOfType (.number "1.5") "int"))) :=
  ⟨⟨rfl, rfl⟩, ⟨rfl, rfl⟩⟩

/-! ## Theorems: resolution -/

theorem configPhase_total (pf : String → Option Float64) (w : World) (st0 : State) :
    ∀ (files : List String) (st : State), st.flags = st0.flags →
      files.all (fileOk pf w st0) = true →
      ∃ st1, configPhase pf w st files = .ret st1 none := by
  intro files
  induction files with
  | nil => intro st _ _; exact ⟨st, rfl⟩
  | cons path rest ih =>
    intro st hfl hall
    simp only [List.all_cons, Bool.and_eq_true] at hall
    obtain ⟨h1, h2⟩ := hall
    unfold configPhase
    unfold fileOk at h1
    cases hw : w.files path with
    | none => exact ih st hfl h2
    | some data =>
      rw [hw] at h1
      cases data with
      | none => simp at h1
      | some config =>
        simp only at h1
        obtain ⟨st', hp⟩ := parseJsonLoop_total pf st0 config st hfl
          (fun p hp => (List.all_eq_true.1 h1) p hp)
        have hfr := parseJsonLoop_frame pf config st st' none hp
        simp only [parseJson, hp]
        exact ih st' (hfr.1.trans hfl) h2

theorem parseArgs_short_scalar (pf : String → Option Float64) (st : State) (cmd n c : String)
    (f : Flag) (v : Value) (bs : List Char) (sh : Char) (hok : RegistryOk st)
    (hf : st.flags.get n = some f) (hv : tokenValue pf f.ValueType c = some v)
    (hbs : ∀ b ∈ bs, isBoolShorthand st b)
    (hsh : st.shorthandNames.get (String.singleton sh) = some n) :
    parseArgs pf st [cmd, "-" ++ String.mk (bs ++ [sh]), c] =
      .ret ((setAllTrue st (clusterNames st bs)).setVal n v) none := by
  have hk : f.ValueType ≠ "bool" := by
    intro hb
    simp [tokenValue, hb] at hv
  have hne : n ≠ "" := hok.name_ne_empty hf
  have hf2 : (setAllTrue st (clusterNames st bs)).flags.get n = some f := by
    rw [(setAllTrue_frame _ st).1]
    exact hf
  rw [parseArgs_cons_cons]
  simp only [parseArgsLoop, argStep_value_cluster pf st bs sh n f hok hbs hsh hf hk,
    argStep_pending pf _ n c hne,
    setStringValue_token_some pf _ n c f v hf2 hv, (hok.flag hf).1]

theorem parseArgs_short_bool (pf : String → Option Float64) (st : State) (cmd n : String)
    (bs : List Char) (hok : RegistryOk st) (hbs : ∀ b ∈ bs, isBoolShorthand st b)
    (hn : ∃ b ∈ bs, st.shorthandNames.get (String.singleton b) = some n) :
    parseArgs pf st [cmd, "-" ++ String.mk bs] =
        .ret (setAllTrue st (clusterNames st bs)) none ∧
      (setAllTrue st (clusterNames st bs)).values.get n = some (.bool true) := by
  refine ⟨?_, ?_⟩
  · rw [parseArgs_cons_cons]
    simp only [parseArgsLoop, argStep_bool_cluster pf st bs hok hbs]
  · rw [setAllTrue_get]
    obtain ⟨b, hb, hget⟩ := hn
    have : n ∈ clusterNames st bs := List.mem_filterMap.2 ⟨b, hb, hget⟩
    rw [if_pos this]

/-- C1 (as amended): provided phases 1 and 2 of `load` meet no value that does
not convert (every config file that exists is an object whose keys are
registered names with values `setJsonValue` accepts, and every set
environment variable of a float, int or string option is a token
`setStringValue` accepts; otherwise `load` ends in `log.Fatal`), `load`
returns and: for a registered option of scalar kind (bool, float, int,
string) given on the command line, as `--n` or by its shorthand closing a
cluster of bool shorthands, the resolved value is the command-line value,
whatever values the config files and the environment supply; with no
command-line argument a value given by the option's environment variable is
the resolved value, whatever the config files supply (for a bool either
source gives `true`); for an option of any kind, a value given only by the
config file is the resolved value. -/
theorem load_precedence (pf : String → Option Float64) (w : World) (order : List Flag)
    (st : State) (cmd n : String) (f : Flag) (hok : RegistryOk st)
    (hf : st.flags.get n = some f) (hord : order.Perm (st.flags.map Prod.snd))
    (hfiles : filesOk pf w st = true) (henv : envParses pf w order = true) :
    (f.ValueType = "bool" →
      (∃ st3, load pf w order st [cmd, "--" ++ n] = .ret st3 none ∧
        st3.values.get n = some (.bool true)) ∧
      (∀ bs, (∀ b ∈ bs, isBoolShorthand st b) →
        (∃ b ∈ bs, st.shorthandNames.get (String.singleton b) = some n) →
        ∃ st3, load pf w order st [cmd, "-" ++ String.mk bs] = .ret st3 none ∧
          st3.values.get n = some (.bool true))) ∧
    (∀ c v, tokenValue pf f.ValueType c = some v →
      (∃ st3, load pf w order st [cmd, "--" ++ n, c] = .ret st3 none ∧
        st3.values.get n = some v) ∧
      (∀ bs sh, (∀ b ∈ bs, isBoolShorthand st b) →
        st.shorthandNames.get (String.singleton sh) = some n →
        ∃ st3, load pf w order st [cmd, "-" ++ String.mk (bs ++ [sh]), c] = .ret st3 none ∧
          st3.values.get n = some v)) ∧
    (∀ e, isListType f.ValueType = false → w.env (toEnvVar n) = some e →
      ∃ st2, load pf w order st [cmd] = .ret st2 none ∧
        ((f.ValueType = "bool" ∧ st2.values.get n = some (.bool true)) ∨
          (f.ValueType ≠ "bool" ∧ ∃ v, tokenValue pf f.ValueType e = some v ∧
            st2.values.get n = some v))) ∧
    (∀ path config j, st.configFiles = [path] → w.files path = some (some config) →
      (config.map Prod.fst).Nodup → (n, j) ∈ config → w.env (toEnvVar n) = none →
      ∃ st3 v, load pf w order st [cmd] = .ret st3 none ∧
        jsonValue pf f.ValueType j = some v ∧ st3.values.get n = some v) := by
  have hmem : f ∈ order := mem_order hord hf
  have hall : ∀ g ∈ order, st.flags.get g.Name = some g := fun g hg =>
    hok.get_of_order hord hg
  obtain ⟨st1, h1⟩ := configPhase_total pf w st st.configFiles st rfl hfiles
  have hfr1 := configPhase_frame pf w _ st st1 h1
  obtain ⟨st2, h2⟩ := envPhase_total pf w st order st1 hfr1.1 hall henv
  have hfr2 := envPhase_ok pf w st hok n f hf order st1 st2 hfr1.1 hall h2
  have hfl2 : st2.flags = st.flags := hfr2.1.trans hfr1.1
  have hsh2 : st2.shorthandNames = st.shorthandNames := hfr2.2.1.trans hfr1.2.1
  have hok2 : RegistryOk st2 := hok.of_same hfl2 hsh2
  have hf2 : st2.flags.get n = some f := by rw [hfl2]; exact hf
  have hbool : ∀ b, isBoolShorthand st b → isBoolShorthand st2 b := by
    rintro b ⟨m, g, k1, k2, k3⟩
    exact ⟨m, g, by rw [hsh2]; exact k1, by rw [hfl2]; exact k2, k3⟩
  refine ⟨fun hb => ⟨⟨st2.setVal n (.bool true), ?_, State.setVal_get_self _ _ _⟩, ?_⟩,
    fun c v hv => ⟨⟨st2.setVal n v, ?_, State.setVal_get_self _ _ _⟩, ?_⟩, ?_, ?_⟩
  · simp [load, h1, h2, parseArgs_long_bool pf st2 cmd n f hf2 hb]
  · intro bs hbs hn
    obtain ⟨hp, hget⟩ := parseArgs_short_bool pf st2 cmd n bs hok2
      (fun b hb' => hbool b (hbs b hb'))
      (by obtain ⟨b, k1, k2⟩ := hn; exact ⟨b, k1, by rw [hsh2]; exact k2⟩)
    exact ⟨_, by simp [load, h1, h2, hp], hget⟩
  · simp [load, h1, h2, parseArgs_long_scalar pf st2 cmd n c f v hok2 hf2 hv]
  · intro bs sh hbs hsh
    have hp := parseArgs_short_scalar pf st2 cmd n c f v bs sh hok2 hf2 hv
      (fun b hb' => hbool b (hbs b hb')) (by rw [hsh2]; exact hsh)
    exact ⟨(setAllTrue st2 (clusterNames st2 bs)).setVal n v, by simp [load, h1, h2, hp],
      State.setVal_get_self _ _ _⟩
  · intro e hl he
    exact ⟨st2, by simp [load, h1, h2, parseArgs_single], hfr2.2.2.2.2.2 e hmem hl he⟩
  · intro path config j hcf hw hnd hj he
    have h1' := h1
    rw [hcf] at h1'
    rcases configPhase_cons pf w st st1 path [] h1' with
      ⟨hnone, _⟩ | ⟨config', st', hw', hp, hrest⟩
    · rw [hw] at hnone
      cases hnone
    · rw [hw] at hw'
      cases hw'
      simp only [configPhase] at hrest
      cases hrest
      obtain ⟨_, _, _, _, _, k6⟩ := parseJsonLoop_ok pf st hok config st st1 rfl hp
      obtain ⟨f', v, hf', hv, hget⟩ := k6 hnd n j hj
      rw [hf] at hf'
      cases hf'
      refine ⟨st2, v, by simp [load, h1, h2, parseArgs_single], hv, ?_⟩
      rw [hfr2.2.2.2.2.1 (Or.inr (Or.inr he))]
      exact hget

theorem load_precedence_witness :
    demoWorld.files "test.json" =
      some (some [("mystring", .string "json"), ("mystrings", .array [.string "f"])]) ∧
    demoWorld.env (toEnvVar "mystring") = some "env" ∧
    (∃ st3, load demoParseFloat demoWorld (demoLoadState.flags.map Prod.snd) demoLoadState
        ["cmd", "--mystring", "arg"] = .ret st3 none ∧
      st3.values.get "mystring" = some (.string "arg")) ∧
    (∃ st3, load demoParseFloat demoWorld (demoLoadState.flags.map Prod.snd) demoLoadState
        ["cmd", "-s", "arg"] = .ret st3 none ∧
      st3.values.get "mystring" = some (.string "arg")) ∧
    (∃ st2, load demoParseFloat demoWorld (demoLoadState.flags.map Prod.snd) demoLoadState
        ["cmd"] = .ret st2 none ∧
      st2.values.get "mystring" = some (.string "env")) :=
  ⟨rfl, rfl,
    ((load_precedence demoParseFloat demoWorld (demoLoadState.flags.map Prod.snd)
      demoLoadState "cmd" "mystring" ⟨"mystring", "s", "string", .string ""⟩ (by decide) rfl
      (List.Perm.refl _) rfl rfl).2.1 "arg" (.string "arg") rfl).1,
    ((load_precedence demoParseFloat demoWorld (demoLoadState.flags.map Prod.snd)
      demoLoadState "cmd" "mystring" ⟨"mystring", "s", "string", .string ""⟩ (by decide) rfl
      (List.Perm.refl _) rfl rfl).2.1 "arg" (.string "arg") rfl).2 [] 's'
      (fun b hb => nomatch hb) rfl,
    ⟨_, rfl, rfl⟩⟩

/-- C1 (as stated) fails for a list kind: with the file giving `["f"]`, the
variable `MYSTRINGS` set and `--mystrings c` on the command line, the resolved
value is `["f", "c"]`, not the command-line value `["c"]`; with file and
variable only it is the file's `["f"]`, the variable is not read. It also
fails for a scalar kind when a source holds a value that does not convert:
with the file giving `7`, the variable `MYINT` set to `abc` and `--myint 5` on
the command line, `load` ends in `log.Fatal` in phase 2, before the arguments
are read. -/
theorem load_list_precedence_counterexample :
    (∃ st', load demoParseFloat demoWorld (demoLoadState.flags.map Prod.snd) demoLoadState
        ["cmd", "--mystrings", "c"] = .ret st' none ∧
      st'.values.get "mystrings" = some (.strings ["f", "c"]) ∧
      st'.values.get "mystrings" ≠ some (.strings ["c"])) ∧
    (demoWorld.env (toEnvVar "mystrings") = some "e" ∧
      ∃ st', load demoParseFloat demoWorld (demoLoadState.flags.map Prod.snd) demoLoadState
        ["cmd"] = .ret st' none ∧
      st'.values.get "mystrings" = some (.strings ["f"]) ∧
      st'.values.get "mystrings" ≠ some (.strings ["e"])) ∧
    load demoParseFloat
        ⟨fun p => if p = "test.json" then some (some [("myint", .number "7")]) else none,
          fun k => if k = "MYINT" then some "abc" else none⟩
        (demoLoadState.flags.map Prod.snd) demoLoadState ["cmd", "--myint", "5"] =
      .fatal (.loadError (.mustBeInt "myint")) :=
  ⟨⟨_, rfl, rfl, by decide⟩, ⟨rfl, _, rfl, rfl, by decide⟩, rfl⟩

/-! ## Theorems: registration -/

/-- C15: for a flag whose other fields are valid, `assertValid` accepts it
exactly when its name is non-empty and made of lowercase letters `a-z`, digits
`0-9` and dashes only, and so does `Add` when nothing else stands in the way;
with any other name both return the invalid-name error and `Add` leaves the
state as it was. -/
theorem assertValid_name_iff (flag : Flag) (hs : matchShorthand flag.Shorthand = true)
    (ht : validType flag.ValueType = true)
    (hd : flag.ValueType ≠ "bool" → flag.DefaultValue ≠ .nil) :
    (assertValid flag = none ↔ flag.Name.data ≠ [] ∧ ∀ c ∈ flag.Name.data,
      (97 ≤ c.toNat ∧ c.toNat ≤ 122) ∨ (48 ≤ c.toNat ∧ c.toNat ≤ 57) ∨ c = '-') ∧
    (assertValid flag ≠ none →
      assertValid flag = some (.invalidName flag.Name) ∧
      ∀ st, Gears.Add st flag = .ret st (some (.invalidName flag.Name))) ∧
    (∀ st, st.flags.get flag.Name = none →
      (flag.Shorthand = "" ∨ st.shorthandNames.get flag.Shorthand = none) →
      hasType flag.ValueType (initialValue flag) = true →
      ((∃ st', Gears.Add st flag = .ret st' none) ↔ assertValid flag = none)) ∧
    (∀ name ∈ ["v", "1", "valid", "valid-name-1"],
      assertValid { flag with Name := name } = none) ∧
    (∀ name ∈ ["", "Invalid-name-1", "invalid name 1", "invalid_name"],
      assertValid { flag with Name := name } = some (.invalidName name)) := by
  have hiff : ∀ g : Flag, g.Shorthand = flag.Shorthand → g.ValueType = flag.ValueType →
      g.DefaultValue = flag.DefaultValue → (assertValid g = none ↔ matchName g.Name = true) := by
    intro g h1 h2 h3
    rw [assertValid_eq_none_iff, h1, h2, h3]
    exact ⟨fun h => h.1, fun h => ⟨h, hs, ht, hd⟩⟩
  have hbad : ∀ g : Flag, matchName g.Name = false →
      assertValid g = some (.invalidName g.Name) := by
    intro g h
    simp [assertValid, h]
  refine ⟨?_, ?_, ?_, ?_, ?_⟩
  · rw [hiff flag rfl rfl rfl, matchName_iff]
  · intro h
    have hm : matchName flag.Name = false := by
      cases hc : matchName flag.Name with
      | false => rfl
      | true => exact absurd ((hiff flag rfl rfl rfl).2 hc) h
    exact ⟨hbad flag hm, fun st => Add_eq_of_invalid st flag _ (hbad flag hm)⟩
  · intro st hn hsh hty
    constructor
    · rintro ⟨st', h⟩
      cases hv : assertValid flag with
      | none => rfl
      | some e =>
        rw [Add_eq_of_invalid st flag e hv] at h
        cases h
    · intro hv
      exact ⟨_, by rw [Add_eq_of_valid st flag hv hn hsh, setValue_typed _ _ _ hty]⟩
  · intro name hname
    apply (hiff { flag with Name := name } rfl rfl rfl).2
    simp only [List.mem_cons, List.mem_singleton, List.not_mem_nil, or_false] at hname
    rcases hname with rfl | rfl | rfl | rfl <;> rfl
  · intro name hname
    simp only [List.mem_cons, List.mem_singleton, List.not_mem_nil, or_false] at hname
    rcases hname with rfl | rfl | rfl | rfl <;> exact hbad _ rfl

theorem assertValid_name_iff_witness :
    assertValid ⟨"valid-name-1", "", "bool", .nil⟩ = none ∧
      Gears.Add demoState ⟨"Invalid-name-1", "", "bool", .nil⟩ =
        .ret demoState (some (.invalidName "Invalid-name-1")) :=
  ⟨(assertValid_name_iff ⟨"x", "", "bool", .nil⟩ rfl rfl (fun h => absurd rfl h)).2.2.2.1
      "valid-name-1" (by simp),
    ((assertValid_name_iff ⟨"Invalid-name-1", "", "bool", .nil⟩ rfl rfl
      (fun h => absurd rfl h)).2.1 (fun h => nomatch h)).2 demoState⟩

/-- C16: for a flag whose other fields are valid, `assertValid` accepts it
exactly when its shorthand is empty or one character that is a letter `a-z`,
a letter `A-Z` or a digit `0-9`; any other shorthand gives the
invalid-shorthand error. -/
theorem assertValid_shorthand_iff (flag : Flag) (hn : matchName flag.Name = true)
    (ht : validType flag.ValueType = true)
    (hd : flag.ValueType ≠ "bool" → flag.DefaultValue ≠ .nil) :
    (assertValid flag = none ↔ flag.Shorthand.data = [] ∨ ∃ c, flag.Shorthand.data = [c] ∧
      ((97 ≤ c.toNat ∧ c.toNat ≤ 122) ∨ (65 ≤ c.toNat ∧ c.toNat ≤ 90) ∨
        (48 ≤ c.toNat ∧ c.toNat ≤ 57))) ∧
    (assertValid flag ≠ none → assertValid flag = some (.invalidShorthand flag.Shorthand)) ∧
    (∀ sh ∈ ["", "v", "V", "1"], assertValid { flag with Shorthand := sh } = none) ∧
    (∀ sh ∈ ["vv", " ", "-", "_"],
      assertValid { flag with Shorthand := sh } = some (.invalidShorthand sh)) := by
  have hiff : ∀ g : Flag, g.Name = flag.Name → g.ValueType = flag.ValueType →
      g.DefaultValue = flag.DefaultValue →
      (assertValid g = none ↔ matchShorthand g.Shorthand = true) := by
    intro g h1 h2 h3
    rw [assertValid_eq_none_iff, h1, h2, h3]
    exact ⟨fun h => h.2.1, fun h => ⟨hn, h, ht, hd⟩⟩
  have hbad : ∀ g : Flag, g.Name = flag.Name → matchShorthand g.Shorthand = false →
      assertValid g = some (.invalidShorthand g.Shorthand) := by
    intro g h1 h
    simp [assertValid, h1, hn, h]
  refine ⟨?_, ?_, ?_, ?_⟩
  · rw [hiff flag rfl rfl rfl, matchShorthand_iff]
  · intro h
    have hm : matchShorthand flag.Shorthand = false := by
      cases hc : matchShorthand flag.Shorthand with
      | false => rfl
      | true => exact absurd ((hiff flag rfl rfl rfl).2 hc) h
    exact hbad flag rfl hm
  · intro sh hsh
    apply (hiff { flag with Shorthand := sh } rfl rfl rfl).2
    simp only [List.mem_cons, List.mem_singleton, List.not_mem_nil, or_false] at hsh
    rcases hsh with rfl | rfl | rfl | rfl <;> rfl
  · intro sh hsh
    simp only [List.mem_cons, List.mem_singleton, List.not_mem_nil, or_false] at hsh
    rcases hsh with rfl | rfl | rfl | rfl <;> exact hbad _ rfl rfl

theorem assertValid_shorthand_iff_witness :
    assertValid ⟨"valid-name-1", "V", "bool", .nil⟩ = none ∧
      assertValid ⟨"valid-name-1", "vv", "bool", .nil⟩ = some (.invalidShorthand "vv") :=
  have h := assertValid_shorthand_iff ⟨"valid-name-1", "", "bool", .nil⟩ rfl rfl
    (fun h => absurd rfl h)
  ⟨h.2.2.1 "V" (by simp), h.2.2.2 "vv" (by simp)⟩

theorem initialValue_of_not_bool (flag : Flag) (hb : flag.ValueType ≠ "bool") :
    initialValue flag = flag.DefaultValue := by
  simp [initialValue, hb]

/-- C17: for a non-bool kind and a flag whose valid name and shorthand collide
with nothing registered, `Add` succeeds exactly when the default is non-nil
and has the Go type of the declared kind; with any other default it returns
an error. -/
theorem Add_succeeds_iff_default_typed (st : State) (flag : Flag)
    (hn : matchName flag.Name = true) (hs : matchShorthand flag.Shorthand = true)
    (ht : validType flag.ValueType = true) (hb : flag.ValueType ≠ "bool")
    (hfree : st.flags.get flag.Name = none)
    (hsfree : flag.Shorthand = "" ∨ st.shorthandNames.get flag.Shorthand = none) :
    ((∃ st', Gears.Add st flag = .ret st' none) ↔
        hasType flag.ValueType flag.DefaultValue = true) ∧
      (hasType flag.ValueType flag.DefaultValue = false →
        ∃ st' e, Gears.Add st flag = .ret st' (some e)) ∧
      (flag.DefaultValue = .nil →
        Gears.Add st flag = .ret st (some (.missingDefault flag.Name))) := by
  have hnil : flag.DefaultValue = .nil →
      Gears.Add st flag = .ret st (some (.missingDefault flag.Name)) := by
    intro hd
    apply Add_eq_of_invalid
    have h3 : ¬(flag.ValueType ≠ "bool" ∧ flag.ValueType ≠ "float" ∧ flag.ValueType ≠ "int" ∧
        flag.ValueType ≠ "string" ∧ flag.ValueType ≠ "floats" ∧ flag.ValueType ≠ "ints" ∧
        flag.ValueType ≠ "strings") := by
      intro hc
      rcases validType_cases ht with hk | hk | hk | hk | hk | hk | hk <;> simp [hk] at hc
    unfold assertValid
    rw [if_neg (by simp [hn]), if_neg (by simp [hs]), if_neg h3, if_pos ⟨hb, hd⟩]
  have herr : hasType flag.ValueType flag.DefaultValue = false →
      ∃ st' e, Gears.Add st flag = .ret st' (some e) := by
    intro hty
    by_cases hd : flag.DefaultValue = .nil
    · exact ⟨st, _, hnil hd⟩
    · have hv : assertValid flag = none :=
        (assertValid_eq_none_iff flag).2 ⟨hn, hs, ht, fun _ => hd⟩
      obtain ⟨e, he⟩ := setValue_untyped (withEntries st flag) flag flag.DefaultValue ht hty
      exact ⟨_, e, by
        rw [Add_eq_of_valid st flag hv hfree hsfree, initialValue_of_not_bool flag hb, he]⟩
  refine ⟨⟨?_, ?_⟩, herr, hnil⟩
  · rintro ⟨st', h⟩
    cases hty : hasType flag.ValueType flag.DefaultValue with
    | true => rfl
    | false =>
      obtain ⟨s1, e, he⟩ := herr hty
      rw [he] at h
      cases h
  · intro hty
    have hd : flag.DefaultValue ≠ .nil := by
      intro hd
      rw [hd] at hty
      simp [hasType] at hty
    have hv : assertValid flag = none :=
      (assertValid_eq_none_iff flag).2 ⟨hn, hs, ht, fun _ => hd⟩
    exact ⟨_, by
      rw [Add_eq_of_valid st flag hv hfree hsfree, initialValue_of_not_bool flag hb,
        setValue_typed _ _ _ hty]⟩

theorem Add_succeeds_iff_default_typed_witness :
    (∃ st' e, Gears.Add State.empty ⟨"test", "", "int", .float ⟨4607182418800017408⟩⟩ =
        .ret st' (some e)) ∧
      (∃ st' e, Gears.Add State.empty ⟨"test", "", "float", .int 1⟩ = .ret st' (some e)) ∧
      (∃ st' e, Gears.Add State.empty ⟨"test", "", "string", .int 1⟩ = .ret st' (some e)) ∧
      (∃ st' e, Gears.Add State.empty ⟨"test", "", "strings", .string "value"⟩ =
        .ret st' (some e)) ∧
      (∃ st' e, Gears.Add State.empty ⟨"test", "", "string", .nil⟩ = .ret st' (some e)) ∧
      (∃ st', Gears.Add State.empty ⟨"test", "", "strings", .strings []⟩ = .ret st' none) ∧
      (∃ st', Gears.Add State.empty ⟨"test", "", "ints", .ints []⟩ = .ret st' none) ∧
      (∃ st', Gears.Add State.empty ⟨"test", "", "floats", .floats []⟩ = .ret st' none) :=
  ⟨(Add_succeeds_iff_default_typed State.empty ⟨"test", "", "int", .float ⟨4607182418800017408⟩⟩
      rfl rfl rfl (by decide) rfl (Or.inl rfl)).2.1 rfl,
    (Add_succeeds_iff_default_typed State.empty ⟨"test", "", "float", .int 1⟩
      rfl rfl rfl (by decide) rfl (Or.inl rfl)).2.1 rfl,
    (Add_succeeds_iff_default_typed State.empty ⟨"test", "", "string", .int 1⟩
      rfl rfl rfl (by decide) rfl (Or.inl rfl)).2.1 rfl,
    (Add_succeeds_iff_default_typed State.empty ⟨"test", "", "strings", .string "value"⟩
      rfl rfl rfl (by decide) rfl (Or.inl rfl)).2.1 rfl,
    (Add_succeeds_iff_default_typed State.empty ⟨"test", "", "string", .nil⟩
      rfl rfl rfl (by decide) rfl (Or.inl rfl)).2.1 rfl,
    (Add_succeeds_iff_default_typed State.empty ⟨"test", "", "strings", .strings []⟩
      rfl rfl rfl (by decide) rfl (Or.inl rfl)).1.2 rfl,
    (Add_succeeds_iff_default_typed State.empty ⟨"test", "", "ints", .ints []⟩
      rfl rfl rfl (by decide) rfl (Or.inl rfl)).1.2 rfl,
    (Add_succeeds_iff_default_typed State.empty ⟨"test", "", "floats", .floats []⟩
      rfl rfl rfl (by decide) rfl (Or.inl rfl)).1.2 rfl⟩

/-- The calls of `Add` that return without an error. -/
theorem Add_success (st st' : State) (flag : Flag) (h : Gears.Add st flag = .ret st' none) :
    assertValid flag = none ∧ st.flags.get flag.Name = none ∧
      (flag.Shorthand = "" ∨ st.shorthandNames.get flag.Shorthand = none) ∧
      hasType flag.ValueType (initialValue flag) = true ∧
      st' = (withEntries st flag).setVal flag.Name (initialValue flag) := by
  cases hv : assertValid flag with
  | some e =>
    rw [Add_eq_of_invalid st flag e hv] at h
    cases h
  | none =>
    have hn : st.flags.get flag.Name = none := by
      cases hg : st.flags.get flag.Name with
      | none => rfl
      | some f =>
        obtain ⟨e, he⟩ := Add_eq_of_duplicate st flag hv (Or.inl (by simp [hg]))
        rw [he] at h
        cases h
    have hs : flag.Shorthand = "" ∨ st.shorthandNames.get flag.Shorthand = none := by
      by_cases hsh : flag.Shorthand = ""
      · exact Or.inl hsh
      · cases hg : st.shorthandNames.get flag.Shorthand with
        | none => exact Or.inr rfl
        | some x =>
          obtain ⟨e, he⟩ := Add_eq_of_duplicate st flag hv (Or.inr ⟨hsh, by simp [hg]⟩)
          rw [he] at h
          cases h
    rw [Add_eq_of_valid st flag hv hn hs] at h
    have hvt := (assertValid_none hv).2.2
    cases hty : hasType flag.ValueType (initialValue flag) with
    | false =>
      obtain ⟨e, he⟩ := setValue_untyped (withEntries st flag) flag _ hvt hty
      rw [he] at h
      cases h
    | true =>
      rw [setValue_typed _ _ _ hty] at h
      cases h
      exact ⟨rfl, hn, hs, rfl, rfl⟩

/-- C18: after a successful `Add(flag)` the map `flags` holds the flag under
its name, `shorthandNames` maps a non-empty shorthand to the name, and
`values` holds `false` for a bool flag, whatever default was given, and the
default itself for every other kind. -/
theorem Add_success_state (st st' : State) (flag : Flag)
    (h : Gears.Add st flag = .ret st' none) :
    st'.flags.get flag.Name = some flag ∧
      (flag.Shorthand ≠ "" → st'.shorthandNames.get flag.Shorthand = some flag.Name) ∧
      (flag.ValueType = "bool" → st'.values.get flag.Name = some (.bool false)) ∧
      (flag.ValueType ≠ "bool" → st'.values.get flag.Name = some flag.DefaultValue) := by
  obtain ⟨_, _, _, _, rfl⟩ := Add_success st st' flag h
  refine ⟨withEntries_get_name st flag, fun hsh => withEntries_get_shorthand st flag hsh, ?_, ?_⟩
  · intro hb
    rw [State.setVal_get_self]
    simp [initialValue, hb]
  · intro hb
    rw [State.setVal_get_self, initialValue_of_not_bool flag hb]

theorem Add_success_state_witness :
    ∃ st', Gears.Add demoState ⟨"mybool", "", "bool", .bool true⟩ = .ret st' none ∧
      st'.flags.get "mybool" = some ⟨"mybool", "", "bool", .bool true⟩ ∧
      st'.values.get "mybool" = some (.bool false) :=
  ⟨_, rfl,
    (Add_success_state demoState _ ⟨"mybool", "", "bool", .bool true⟩ rfl).1,
    (Add_success_state demoState _ ⟨"mybool", "", "bool", .bool true⟩ rfl).2.2.1 rfl⟩

/-- C19: `Add` of a flag that passes `assertValid` returns an error when its
name is already registered, and when its non-empty shorthand is already
mapped; in both cases the state it leaves is the state before the call. -/
theorem Add_duplicate_rejected (st : State) (flag : Flag) (hv : assertValid flag = none) :
    ((st.flags.get flag.Name).isSome = true →
      Gears.Add st flag = .ret st (some (.nameExists flag.Name))) ∧
    (st.flags.get flag.Name = none → flag.Shorthand ≠ "" →
      (st.shorthandNames.get flag.Shorthand).isSome = true →
      Gears.Add st flag = .ret st (some (.shorthandExists flag.Shorthand))) := by
  refine ⟨fun h => ?_, fun hn hsh h => ?_⟩
  · simp [Gears.Add, hv, h]
  · simp [Gears.Add, hv, hn, hsh, h]

theorem Add_duplicate_rejected_witness :
    Gears.Add demoState ⟨"mystring", "", "string", .string ""⟩ =
        .ret demoState (some (.nameExists "mystring")) ∧
      Gears.Add demoState ⟨"def", "a", "string", .string ""⟩ =
        .ret demoState (some (.shorthandExists "a")) :=
  ⟨(Add_duplicate_rejected demoState ⟨"mystring", "", "string", .string ""⟩ rfl).1 rfl,
    (Add_duplicate_rejected demoState ⟨"def", "a", "string", .string ""⟩ rfl).2 rfl
      (by decide) rfl⟩

/-- C20 fails on the code: `Add` of a string flag with the default `1` returns
the type error of `setValue`, yet the flag is by then in `flags` and its
shorthand in `shorthandNames`, with no entry in `values`; a second `Add` with
a well-typed default is then refused as a duplicate. -/
theorem Add_wrong_default_leaves_entries :
    Gears.Add State.empty ⟨"test", "t", "string", .int 1⟩ =
        .ret
          { flags := [("test", ⟨"test", "t", "string", .int 1⟩)],
            shorthandNames := [("t", "test")],
            values := [], positionals := [], configFiles := [] }
          (some (.notOfType (.int 1) "string")) ∧
      Gears.Add
          { flags := [("test", ⟨"test", "t", "string", .int 1⟩)],
            shorthandNames := [("t", "test")],
            values := [], positionals := [], configFiles := [] }
          ⟨"test", "t", "string", .string "ok"⟩ =
        .ret
          { flags := [("test", ⟨"test", "t", "string", .int 1⟩)],
            shorthandNames := [("t", "test")],
            values := [], positionals := [], configFiles := [] }
          (some (.nameExists "test")) :=
  ⟨rfl, rfl⟩

/-! ## Theorems: the environment and the config files -/

/-- The character that `toEnvVar` writes for a character of the name. -/
theorem toEnvVar_data (n : String) :
    (toEnvVar n).data =
      n.data.map (fun c => if Char.toUpper c = '-' then '_' else Char.toUpper c) := by
  simp [toEnvVar, List.map_map, Function.comp]

theorem toUpper_lower (c : Char) (h : 97 ≤ c.toNat ∧ c.toNat ≤ 122) :
    (if Char.toUpper c = '-' then '_' else Char.toUpper c).toNat = c.toNat - 32 := by
  obtain ⟨h1, h2⟩ := h
  have hc : c = Char.ofNat c.toNat := (Char.ofNat_toNat c).symm
  generalize c.toNat = k at *
  subst hc
  interval_cases k <;> rfl

theorem toUpper_digit (c : Char) (h : 48 ≤ c.toNat ∧ c.toNat ≤ 57) :
    (if Char.toUpper c = '-' then '_' else Char.toUpper c) = c := by
  obtain ⟨h1, h2⟩ := h
  have hc : c = Char.ofNat c.toNat := (Char.ofNat_toNat c).symm
  generalize c.toNat = k at *
  subst hc
  interval_cases k <;> rfl

theorem forall₂_map_of_forall {α β : Type} (R : α → β → Prop) (f : α → β) (l : List α)
    (h : ∀ a ∈ l, R a (f a)) : List.Forall₂ R l (l.map f) := by
  induction l with
  | nil => exact List.Forall₂.nil
  | cons a l ih =>
    exact List.Forall₂.cons (h a (List.mem_cons_self _ _))
      (ih (fun b hb => h b (List.mem_cons_of_mem _ hb)))

/-- C12: for a valid name, `toEnvVar` gives a string of the same length in
which each lowercase letter is replaced by its uppercase form, each dash by an
underscore and each digit is kept, so that it holds only `A-Z`, `0-9` and
`_`; phase 2 of `load` reads the environment at the names `toEnvVar` gives and
nowhere else, and takes the value of a scalar flag from the variable of that
name. -/
theorem toEnvVar_upper_snake (n : String) (hn : matchName n = true) :
    List.Forall₂ (fun c d =>
        (97 ≤ c.toNat ∧ c.toNat ≤ 122 → d.toNat = c.toNat - 32) ∧ (c = '-' → d = '_') ∧
        (48 ≤ c.toNat ∧ c.toNat ≤ 57 → d = c)) n.data (toEnvVar n).data ∧
      (toEnvVar n).data.length = n.data.length ∧
      (∀ d ∈ (toEnvVar n).data,
        (65 ≤ d.toNat ∧ d.toNat ≤ 90) ∨ (48 ≤ d.toNat ∧ d.toNat ≤ 57) ∨ d = '_') ∧
      toEnvVar "my-str" = "MY_STR" ∧
      (∀ (pf : String → Option Float64) (w w' : World) (order : List Flag) (st : State),
        (∀ g ∈ order, w.env (toEnvVar g.Name) = w'.env (toEnvVar g.Name)) →
        envPhase pf w st order = envPhase pf w' st order) ∧
      (∀ (pf : String → Option Float64) (w : World) (order : List Flag) (st st2 : State)
        (f : Flag), RegistryOk st → st.flags.get n = some f →
        order.Perm (st.flags.map Prod.snd) → isListType f.ValueType = false →
        envPhase pf w st order = .ret st2 none →
        (w.env (toEnvVar n) = none → st2.values.get n = st.values.get n) ∧
        (∀ e, w.env (toEnvVar n) = some e →
          (f.ValueType = "bool" ∧ st2.values.get n = some (.bool true)) ∨
          (f.ValueType ≠ "bool" ∧ ∃ v, tokenValue pf f.ValueType e = some v ∧
            st2.values.get n = some v))) := by
  have hpt : ∀ c : Char,
      (97 ≤ c.toNat ∧ c.toNat ≤ 122 →
        (if Char.toUpper c = '-' then '_' else Char.toUpper c).toNat = c.toNat - 32) ∧
      (c = '-' → (if Char.toUpper c = '-' then '_' else Char.toUpper c) = '_') ∧
      (48 ≤ c.toNat ∧ c.toNat ≤ 57 →
        (if Char.toUpper c = '-' then '_' else Char.toUpper c) = c) := by
    intro c
    refine ⟨toUpper_lower c, ?_, toUpper_digit c⟩
    rintro rfl
    rfl
  have hchars := ((matchName_iff n).1 hn).2
  refine ⟨?_, ?_, ?_, rfl, ?_, ?_⟩
  · rw [toEnvVar_data]
    exact forall₂_map_of_forall _ _ _ (fun c _ => hpt c)
  · rw [toEnvVar_data, List.length_map]
  · intro d hd
    rw [toEnvVar_data] at hd
    obtain ⟨c, hc, rfl⟩ := List.mem_map.1 hd
    rcases hchars c hc with h | h | h
    · left
      rw [(hpt c).1 h]
      omega
    · right; left
      rw [(hpt c).2.2 h]
      exact h
    · right; right
      exact (hpt c).2.1 h
  · intro pf w w' order st h
    exact envPhase_congr pf w w' order st h
  · intro pf w order st st2 f hok hf hord hl h
    have hall : ∀ g ∈ order, st.flags.get g.Name = some g := fun g hg =>
      hok.get_of_order hord hg
    have hfr := envPhase_ok pf w st hok n f hf order st st2 rfl hall h
    exact ⟨fun he => hfr.2.2.2.2.1 (Or.inr (Or.inr he)),
      fun e he => hfr.2.2.2.2.2 e (mem_order hord hf) hl he⟩

theorem toEnvVar_upper_snake_witness :
    (toEnvVar "valid-name-1").data.length = "valid-name-1".data.length ∧
      toEnvVar "valid-name-1" = "VALID_NAME_1" :=
  ⟨(toEnvVar_upper_snake "valid-name-1" rfl).2.1, rfl⟩

/-- C13: for a registered bool flag, phase 2 of `load` sets the flag to `true`
when its variable is set, whatever string it holds, and leaves the flag's
value as it was when the variable is not set; the phase runs to its end
whenever the variables of the other flags parse. -/
theorem envPhase_bool_presence (pf : String → Option Float64) (w : World)
    (order : List Flag) (st : State) (n : String) (f : Flag) (hok : RegistryOk st)
    (hf : st.flags.get n = some f) (hb : f.ValueType = "bool")
    (hord : order.Perm (st.flags.map Prod.snd)) :
    (envParses pf w order = true → ∃ st2, envPhase pf w st order = .ret st2 none) ∧
      (∀ st2, envPhase pf w st order = .ret st2 none →
        (∀ e, w.env (toEnvVar n) = some e → st2.values.get n = some (.bool true)) ∧
        (w.env (toEnvVar n) = none → st2.values.get n = st.values.get n)) := by
  have hall : ∀ g ∈ order, st.flags.get g.Name = some g := fun g hg =>
    hok.get_of_order hord hg
  refine ⟨fun hp => envPhase_total pf w st order st rfl hall hp, ?_⟩
  intro st2 h
  have hfr := envPhase_ok pf w st hok n f hf order st st2 rfl hall h
  have hl : isListType f.ValueType = false := by rw [hb]; rfl
  refine ⟨fun e he => ?_, fun he => hfr.2.2.2.2.1 (Or.inr (Or.inr he))⟩
  rcases hfr.2.2.2.2.2 e (mem_order hord hf) hl he with ⟨_, hv⟩ | ⟨hnb, _⟩
  · exact hv
  · exact absurd hb hnb

theorem envPhase_bool_presence_witness :
    ∃ st2, envPhase demoParseFloat demoTwoFiles demoState (demoState.flags.map Prod.snd) =
        .ret st2 none ∧
      st2.values.get "mybool-a" = some (.bool true) ∧
      st2.values.get "mybool-b" = demoState.values.get "mybool-b" :=
  ⟨_, rfl,
    ((envPhase_bool_presence demoParseFloat demoTwoFiles (demoState.flags.map Prod.snd)
      demoState "mybool-a" ⟨"mybool-a", "a", "bool", .nil⟩ (by decide) rfl rfl
      (List.Perm.refl _)).2 _ rfl).1 "false" rfl,
    ((envPhase_bool_presence demoParseFloat demoTwoFiles (demoState.flags.map Prod.snd)
      demoState "mybool-b" ⟨"mybool-b", "b", "bool", .nil⟩ (by decide) rfl rfl
      (List.Perm.refl _)).2 _ rfl).2 rfl⟩

/-- C14: for a registered flag of a list kind, phase 2 of `load` leaves the
flag's value as it was in every environment, also when the variable that
`toEnvVar` gives for the flag is set. -/
theorem envPhase_list_unchanged (pf : String → Option Float64) (w : World)
    (order : List Flag) (st : State) (n : String) (f : Flag) (hok : RegistryOk st)
    (hf : st.flags.get n = some f) (hl : isListType f.ValueType = true)
    (hord : order.Perm (st.flags.map Prod.snd)) :
    (envParses pf w order = true → ∃ st2, envPhase pf w st order = .ret st2 none) ∧
      (∀ st2, envPhase pf w st order = .ret st2 none →
        st2.values.get n = st.values.get n) := by
  have hall : ∀ g ∈ order, st.flags.get g.Name = some g := fun g hg =>
    hok.get_of_order hord hg
  refine ⟨fun hp => envPhase_total pf w st order st rfl hall hp, ?_⟩
  intro st2 h
  exact (envPhase_ok pf w st hok n f hf order st st2 rfl hall h).2.2.2.2.1 (Or.inr (Or.inl hl))

theorem envPhase_list_unchanged_witness :
    demoTwoFiles.env (toEnvVar "mystrings") = some "e" ∧
      ∃ st2, envPhase demoParseFloat demoTwoFiles demoState (demoState.flags.map Prod.snd) =
        .ret st2 none ∧
      st2.values.get "mystrings" = demoState.values.get "mystrings" :=
  ⟨rfl, _, rfl,
    (envPhase_list_unchanged demoParseFloat demoTwoFiles (demoState.flags.map Prod.snd)
      demoState "mystrings" ⟨"mystrings", "S", "strings", .strings []⟩ (by decide) rfl rfl
      (List.Perm.refl _)).2 _ rfl⟩

/-- C11: the config files are read in the order in which `AddConfigFile`
registered them: after phase 1 of `load` over two files an option that the
later file gives holds the later file's value, and an option that only the
earlier file gives holds the earlier file's value; the phase runs to its end
when every member of both files is a registered option with a well-shaped
value. -/
theorem configPhase_later_file_wins (pf : String → Option Float64) (w : World) (st : State)
    (p1 p2 : String) (c1 c2 : List (String × Json)) (hok : RegistryOk st)
    (hcf : st.configFiles = []) (h1 : w.files p1 = some (some c1))
    (h2 : w.files p2 = some (some c2)) (hnd1 : (c1.map Prod.fst).Nodup)
    (hnd2 : (c2.map Prod.fst).Nodup) :
    (AddConfigFile (AddConfigFile st p1) p2).configFiles = [p1, p2] ∧
      ((∀ p ∈ c1, memberOk pf st p = true) → (∀ p ∈ c2, memberOk pf st p = true) →
        ∃ st', configPhase pf w (AddConfigFile (AddConfigFile st p1) p2) [p1, p2] =
          .ret st' none) ∧
      (∀ st', configPhase pf w (AddConfigFile (AddConfigFile st p1) p2) [p1, p2] =
          .ret st' none →
        (∀ n j, (n, j) ∈ c2 → ∃ f v, st.flags.get n = some f ∧
          jsonValue pf f.ValueType j = some v ∧ st'.values.get n = some v) ∧
        (∀ m j, (m, j) ∈ c1 → m ∉ c2.map Prod.fst → ∃ f v, st.flags.get m = some f ∧
          jsonValue pf f.ValueType j = some v ∧ st'.values.get m = some v)) := by
  refine ⟨by simp [AddConfigFile, hcf], ?_, ?_⟩
  · intro hm1 hm2
    obtain ⟨s1, hs1⟩ := parseJsonLoop_total pf st c1
      (AddConfigFile (AddConfigFile st p1) p2) rfl hm1
    have hfl1 := (parseJsonLoop_frame pf c1 _ s1 none hs1).1
    obtain ⟨s2, hs2⟩ := parseJsonLoop_total pf st c2 s1 hfl1 hm2
    exact ⟨s2, by simp [configPhase, h1, h2, parseJson, hs1, hs2]⟩
  · intro st' h
    rcases configPhase_cons pf w _ st' p1 [p2] h with ⟨hnone, _⟩ | ⟨c1', s1, hw1, hp1, hrest⟩
    · rw [h1] at hnone
      cases hnone
    · rw [h1] at hw1
      cases hw1
      rcases configPhase_cons pf w s1 st' p2 [] hrest with ⟨hnone, _⟩ |
        ⟨c2', s2, hw2, hp2, hend⟩
      · rw [h2] at hnone
        cases hnone
      · rw [h2] at hw2
        cases hw2
        simp only [configPhase] at hend
        cases hend
        obtain ⟨k1, _, _, _, _, k6⟩ := parseJsonLoop_ok pf st hok c1
          (AddConfigFile (AddConfigFile st p1) p2) s1 rfl hp1
        obtain ⟨_, _, _, _, l5, l6⟩ := parseJsonLoop_ok pf st hok c2 s1 _ k1 hp2
        refine ⟨fun n j hj => l6 hnd2 n j hj, fun m j hj hm => ?_⟩
        obtain ⟨f, v, hf, hv, hget⟩ := k6 hnd1 m j hj
        exact ⟨f, v, hf, hv, by rw [l5 m hm]; exact hget⟩

theorem configPhase_later_file_wins_witness :
    ∃ st', configPhase demoParseFloat demoTwoFiles
        (AddConfigFile (AddConfigFile demoState "test.json") "test2.json")
        ["test.json", "test2.json"] = .ret st' none ∧
      st'.values.get "mystring" = some (.string "json2") ∧
      st'.values.get "myint" = some (.int 7) := by
  have h := configPhase_later_file_wins demoParseFloat demoTwoFiles demoState "test.json"
    "test2.json" [("mystring", .string "json"), ("myint", .number "7")]
    [("mystring", .string "json2")] (by decide) rfl rfl rfl (by decide) (by decide)
  obtain ⟨st', hst'⟩ := h.2.1 (by decide) (by decide)
  obtain ⟨f, v, hf, hv, hget⟩ := (h.2.2 st' hst').1 "mystring" (.string "json2") (by simp)
  obtain ⟨g, u, hg, hu, hget2⟩ := (h.2.2 st' hst').2 "myint" (.number "7") (by simp) (by simp)
  cases hf
  cases hv
  cases hg
  cases hu
  exact ⟨st', hst', hget, hget2⟩

/-! ## Theorems: failed coercions, the bare dash -/

/-- The three ways a call of `Add` ends: an error with nothing written, an
error after the two map writes, or success with the value seeded. -/
theorem Add_cases (st : State) (flag : Flag) :
    (∃ e, Gears.Add st flag = .ret st (some e)) ∨
    (assertValid flag = none ∧ st.flags.get flag.Name = none ∧
      (flag.Shorthand = "" ∨ st.shorthandNames.get flag.Shorthand = none) ∧
      ((hasType flag.ValueType (initialValue flag) = false ∧
          ∃ e, Gears.Add st flag = .ret (withEntries st flag) (some e)) ∨
        (hasType flag.ValueType (initialValue flag) = true ∧
          Gears.Add st flag =
            .ret ((withEntries st flag).setVal flag.Name (initialValue flag)) none))) := by
  cases hv : assertValid flag with
  | some e => exact Or.inl ⟨e, Add_eq_of_invalid st flag e hv⟩
  | none =>
    by_cases h1 : (st.flags.get flag.Name).isSome = true
    · exact Or.inl (Add_eq_of_duplicate st flag hv (Or.inl h1))
    · by_cases h2 : flag.Shorthand ≠ "" ∧ (st.shorthandNames.get flag.Shorthand).isSome = true
      · exact Or.inl (Add_eq_of_duplicate st flag hv (Or.inr h2))
      · have hn : st.flags.get flag.Name = none := by
          cases hg : st.flags.get flag.Name with
          | none => rfl
          | some f => simp [hg] at h1
        have hs : flag.Shorthand = "" ∨ st.shorthandNames.get flag.Shorthand = none := by
          by_cases h3 : flag.Shorthand = ""
          · exact Or.inl h3
          · right
            cases hg : st.shorthandNames.get flag.Shorthand with
            | none => rfl
            | some f => exact absurd ⟨h3, by simp [hg]⟩ h2
        refine Or.inr ⟨rfl, hn, hs, ?_⟩
        rw [Add_eq_of_valid st flag hv hn hs]
        cases ht : hasType flag.ValueType (initialValue flag) with
        | true => exact Or.inr ⟨rfl, setValue_typed _ flag _ ht⟩
        | false =>
          exact Or.inl ⟨rfl, setValue_untyped _ flag _ (assertValid_none hv).2.2 ht⟩

/-- C24: when `setStringValue` (a text token) or `setJsonValue` (a JSON value)
returns an error, the state it leaves is the state before the call: the
value of every option, the failing one included, is what it was. -/
theorem coercion_error_keeps_store (pf : String → Option Float64) (st st' : State)
    (n tok : String) (flag : Flag) (raw : Json) (e : Err)
    (h : setStringValue pf st n tok = .ret st' (some e) ∨
      setJsonValue pf st flag raw = .ret st' (some e)) :
    st' = st ∧ ∀ m, st'.values.get m = st.values.get m := by
  have hst : st' = st := by
    rcases h with h | h
    · obtain ⟨_, _, h2⟩ := setStringValue_ret h
      rcases h2 with ⟨_, h2⟩ | ⟨h2, _⟩
      · exact h2
      · cases h2
    · obtain ⟨s2, e2, h1, h2⟩ := setJsonValue_ret pf st flag raw
      rw [h1] at h
      cases h
      rcases h2 with ⟨_, h2⟩ | ⟨h2, _⟩
      · exact h2
      · cases h2
  exact ⟨hst, fun m => by rw [hst]⟩

theorem coercion_error_keeps_store_witness :
    (setStringValue demoParseFloat demoState "myint" "1.5" =
        .ret demoState (some (.mustBeInt "myint")) ∧
      ∀ m, demoState.values.get m = demoState.values.get m) ∧
    (setJsonValue demoParseFloat demoState ⟨"myint", "i", "int", .int 1⟩ (.string "1") =
        .ret demoState (some (.jsonNotOfType (.string "1") "int")) ∧
      ∀ m, demoState.values.get m = demoState.values.get m) :=
  ⟨⟨rfl, (coercion_error_keeps_store demoParseFloat demoState demoState "myint" "1.5"
      ⟨"myint", "i", "int", .int 1⟩ .null (.mustBeInt "myint") (Or.inl rfl)).2⟩,
    ⟨rfl, (coercion_error_keeps_store demoParseFloat demoState demoState "" ""
      ⟨"myint", "i", "int", .int 1⟩ (.string "1") (.jsonNotOfType (.string "1") "int")
      (Or.inr rfl)).2⟩⟩

/-- C26: a bare `-` read when no value is pending has the prefix `-`, so
`parseArgs` takes the cluster branch with an empty cluster: the call on
`cmd -` returns `nil` and leaves the state, and with it the positional list,
as it was; `-` is not appended. -/
theorem parseArgs_bare_dash_dropped (pf : String → Option Float64) (st : State) :
    parseArgs pf st ["cmd", "-"] = .ret st none ∧
      st.positionals ≠ st.positionals ++ ["-"] := by
  refine ⟨rfl, ?_⟩
  intro h
  have := congrArg List.length h
  simp at this

/-! ## Theorems: integer tokens -/

theorem digitsVal_append (ds : List Char) (c : Char) :
    digitsVal (ds ++ [c]) = digitsVal ds * 10 + digitValue c := by
  simp [digitsVal, digitValue, List.foldl_append]

theorem digitsVal_eq_ofDigits (ds : List Char) :
    digitsVal ds = Nat.ofDigits 10 (ds.reverse.map digitValue) := by
  induction ds using List.reverseRecOn with
  | nil => rfl
  | append_singleton ds c ih =>
    rw [digitsVal_append, ih]
    simp [Nat.ofDigits_cons]
    ring

/-- The checks `ParseInt` makes once the sign is split off. -/
theorem parseInt_body (neg : Bool) (ds : List Char) (z : Int) :
    (if ds = [] then none
      else if ds.all Char.isDigit then
        if !neg && 2 ^ (32 - 1) ≤ digitsVal ds then none
        else if neg && 2 ^ (32 - 1) < digitsVal ds then none
        else some (if neg then -(digitsVal ds : Int) else (digitsVal ds : Int))
      else none) = some z ↔
      ds ≠ [] ∧ (∀ c ∈ ds, c.isDigit = true) ∧
        z = (if neg = true then -(digitsVal ds : Int) else (digitsVal ds : Int)) ∧
        -2147483648 ≤ z ∧ z ≤ 2147483647 := by
  by_cases h0 : ds = []
  · simp [h0]
  · by_cases hd : ds.all Char.isDigit = true
    · have hd2 : ∀ c ∈ ds, c.isDigit = true := by simpa using hd
      simp only [h0, if_false, hd, if_true]
      cases neg
      · simp only [Bool.not_false, Bool.true_and, Bool.false_and, Bool.false_eq_true, if_false,
          decide_eq_true_eq]
        constructor
        · intro h
          split at h
          · cases h
          · rename_i hlt
            cases h
            norm_num at hlt
            refine ⟨fun hh => h0 hh, hd2, rfl, ?_, ?_⟩ <;> omega
        · rintro ⟨_, _, hz, h1, h2⟩
          have : ¬ (2 ^ (32 - 1) ≤ digitsVal ds) := by norm_num; omega
          rw [if_neg this, hz]
      · simp only [Bool.not_true, Bool.false_and, Bool.true_and, Bool.false_eq_true, if_false,
          decide_eq_true_eq, if_true]
        constructor
        · intro h
          split at h
          · cases h
          · rename_i hlt
            cases h
            norm_num at hlt
            refine ⟨fun hh => h0 hh, hd2, rfl, ?_, ?_⟩ <;> omega
        · rintro ⟨_, _, hz, h1, h2⟩
          have : ¬ (2 ^ (32 - 1) < digitsVal ds) := by norm_num; omega
          rw [if_neg this, hz]
    · have : ¬ ∀ c ∈ ds, c.isDigit = true := by simpa using hd
      simp [h0, hd, this]

theorem parseInt_plus (tok : String) (r : List Char) (h : tok.data = '+' :: r) (z : Int) :
    parseInt tok 32 = some z ↔
      r ≠ [] ∧ (∀ c ∈ r, c.isDigit = true) ∧ z = (digitsVal r : Int) ∧
        -2147483648 ≤ z ∧ z ≤ 2147483647 := by
  have := parseInt_body false r z
  simp only [Bool.false_eq_true, if_false] at this
  rw [← this]
  unfold parseInt
  simp only [h]
  rfl

theorem parseInt_minus (tok : String) (r : List Char) (h : tok.data = '-' :: r) (z : Int) :
    parseInt tok 32 = some z ↔
      r ≠ [] ∧ (∀ c ∈ r, c.isDigit = true) ∧ z = -(digitsVal r : Int) ∧
        -2147483648 ≤ z ∧ z ≤ 2147483647 := by
  have := parseInt_body true r z
  simp only [if_true] at this
  rw [← this]
  unfold parseInt
  simp only [h]
  rfl

theorem parseInt_unsigned (tok : String) (hp : ∀ r, tok.data ≠ '+' :: r)
    (hm : ∀ r, tok.data ≠ '-' :: r) (z : Int) :
    parseInt tok 32 = some z ↔
      tok.data ≠ [] ∧ (∀ c ∈ tok.data, c.isDigit = true) ∧ z = (digitsVal tok.data : Int) ∧
        -2147483648 ≤ z ∧ z ≤ 2147483647 := by
  have := parseInt_body false tok.data z
  simp only [Bool.false_eq_true, if_false] at this
  rw [← this]
  unfold parseInt
  rcases h : tok.data with _ | ⟨c, r⟩
  · rfl
  · have hc1 : c ≠ '+' := fun hc => hp r (by rw [h, hc])
    have hc2 : c ≠ '-' := fun hc => hm r (by rw [h, hc])
    simp [hc1, hc2]

/-- The tokens `strconv.ParseInt(_, 10, 32)` accepts are the optionally
signed decimal literals whose value is in the signed 32-bit range. -/
theorem parseInt32_eq_some_iff (tok : String) (z : Int) :
    parseInt tok 32 = some z ↔
      IsIntLiteral tok z ∧ -2147483648 ≤ z ∧ z ≤ 2147483647 := by
  unfold IsIntLiteral
  by_cases hp : ∃ r, tok.data = '+' :: r
  · obtain ⟨r, hr⟩ := hp
    rw [parseInt_plus tok r hr]
    constructor
    · rintro ⟨h1, h2, h3, h4⟩
      exact ⟨⟨r, h1, h2, Or.inl ⟨Or.inr hr, by rw [h3, digitsVal_eq_ofDigits]⟩⟩, h4⟩
    · rintro ⟨⟨ds, h1, h2, h3⟩, h4⟩
      rcases h3 with ⟨h3 | h3, hz⟩ | ⟨h3, hz⟩
      · rw [hr] at h3
        subst h3
        exact absurd (h2 '+' (by simp)) (by decide)
      · rw [hr] at h3
        obtain rfl : r = ds := by simpa using h3
        exact ⟨h1, h2, by rw [hz, digitsVal_eq_ofDigits], h4⟩
      · rw [hr] at h3
        simp at h3
  · by_cases hm : ∃ r, tok.data = '-' :: r
    · obtain ⟨r, hr⟩ := hm
      rw [parseInt_minus tok r hr]
      constructor
      · rintro ⟨h1, h2, h3, h4⟩
        exact ⟨⟨r, h1, h2, Or.inr ⟨hr, by rw [h3, digitsVal_eq_ofDigits]⟩⟩, h4⟩
      · rintro ⟨⟨ds, h1, h2, h3⟩, h4⟩
        rcases h3 with ⟨h3 | h3, hz⟩ | ⟨h3, hz⟩
        · rw [hr] at h3
          subst h3
          exact absurd (h2 '-' (by simp)) (by decide)
        · rw [hr] at h3
          simp at h3
        · rw [hr] at h3
          obtain rfl : r = ds := by simpa using h3
          exact ⟨h1, h2, by rw [hz, digitsVal_eq_ofDigits], h4⟩
    · rw [parseInt_unsigned tok (fun r hr => hp ⟨r, hr⟩) (fun r hr => hm ⟨r, hr⟩)]
      constructor
      · rintro ⟨h1, h2, h3, h4⟩
        exact ⟨⟨tok.data, h1, h2, Or.inl ⟨Or.inl rfl, by rw [h3, digitsVal_eq_ofDigits]⟩⟩, h4⟩
      · rintro ⟨⟨ds, h1, h2, h3⟩, h4⟩
        rcases h3 with ⟨h3 | h3, hz⟩ | ⟨h3, hz⟩
        · rw [h3]
          exact ⟨h1, h2, by rw [hz, digitsVal_eq_ofDigits], h4⟩
        · exact absurd ⟨ds, h3⟩ hp
        · exact absurd ⟨ds, h3⟩ hm

/-- C30: for an int or ints flag `setStringValue` accepts a token exactly when
it is an optionally signed base-10 integer literal whose value is in the
signed 32-bit range: such a token stores that integer (int), or appends it to
the stored list `l` (ints), and returns `nil`; every other token, a
well-formed literal outside the range included, returns the error
`mustBeInt` and leaves the state as it was. -/
theorem setStringValue_int_range (pf : String → Option Float64) (st : State)
    (name tok : String) (flag : Flag) (l : List Int)
    (hf : st.flags.get name = some flag)
    (hk : flag.ValueType = "int" ∨
      (flag.ValueType = "ints" ∧ st.values.get flag.Name = some (.ints l))) :
    (∀ z, IsIntLiteral tok z → -2147483648 ≤ z → z ≤ 2147483647 →
      setStringValue pf st name tok =
        .ret (st.setVal flag.Name
          (if flag.ValueType = "int" then .int z else .ints (l ++ [z]))) none) ∧
    ((¬ ∃ z, IsIntLiteral tok z ∧ -2147483648 ≤ z ∧ z ≤ 2147483647) →
      setStringValue pf st name tok = .ret st (some (.mustBeInt flag.Name))) := by
  constructor
  · intro z hz h1 h2
    have hp : parseInt tok 32 = some z := (parseInt32_eq_some_iff tok z).2 ⟨hz, h1, h2⟩
    rcases hk with hk | ⟨hk, hl⟩
    · simp [setStringValue, hf, hk, hp]
    · simp [setStringValue, hf, hk, hp, hl]
  · intro hno
    have hp : parseInt tok 32 = none := by
      cases h : parseInt tok 32 with
      | none => rfl
      | some z => exact absurd ⟨z, (parseInt32_eq_some_iff tok z).1 h⟩ hno
    rcases hk with hk | ⟨hk, hl⟩
    · simp [setStringValue, hf, hk, hp]
    · simp [setStringValue, hf, hk, hp]

theorem setStringValue_int_range_witness :
    (IsIntLiteral "-42" (-42) ∧
      setStringValue demoParseFloat demoState "myint" "-42" =
        .ret (demoState.setVal "myint" (.int (-42))) none) ∧
    (IsIntLiteral "2147483648" 2147483648 ∧
      setStringValue demoParseFloat demoState "myints" "2147483648" =
        .ret demoState (some (.mustBeInt "myints"))) :=
  ⟨⟨⟨['4', '2'], by decide, by decide, Or.inr ⟨rfl, by decide⟩⟩,
      (setStringValue_int_range demoParseFloat demoState "myint" "-42"
        ⟨"myint", "i", "int", .int 0⟩ [] rfl (Or.inl rfl)).1 (-42)
        ⟨['4', '2'], by decide, by decide, Or.inr ⟨rfl, by decide⟩⟩ (by decide) (by decide)⟩,
    ⟨⟨"2147483648".data, by decide, by decide, Or.inl ⟨Or.inl rfl, by decide⟩⟩,
      (setStringValue_int_range demoParseFloat demoState "myints" "2147483648"
        ⟨"myints", "I", "ints", .ints []⟩ [] rfl (Or.inr ⟨rfl, rfl⟩)).2
        (fun ⟨z, hz, h1, h2⟩ => by
          have h := (parseInt32_eq_some_iff "2147483648" z).2 ⟨hz, h1, h2⟩
          rw [show parseInt "2147483648" 32 = none by decide] at h
          cases h)⟩⟩

/-! ## Theorems: the typed accessors -/

theorem ValuesTyped.get {st : State} (h : ValuesTyped st) {n : String} {v : Value}
    (hv : st.values.get n = some v) :
    ∃ f, st.flags.get n = some f ∧ hasType f.ValueType v = true :=
  h (n, v) (GoMap.mem_of_get _ _ _ hv)

/-- The accessor on a store entry of the right type. -/
theorem getValue_of_stored {α : Type} (cast : Value → Option α) (inj : α → Value)
    (kind : String) (hinj : ∀ a, cast (inj a) = some a) (hnil : ∀ a, inj a ≠ .nil)
    (st : State) (name : String) (f : Flag) (a : α)
    (hf : st.flags.get name = some f) (hk : f.ValueType = kind)
    (hv : st.values.get name = some (inj a)) :
    getValue cast st name kind = .value a := by
  unfold getValue
  simp only [hf, hk, ne_eq, not_true_eq_false, if_false, hv]
  have h1 := hinj a
  have h2 := hnil a
  cases hi : inj a <;> simp_all

/-- The four cases of `getValue` on a typed store. -/
theorem getValue_spec {α : Type} (cast : Value → Option α) (inj : α → Value) (kind : String)
    (hcast : ∀ v, hasType kind v = true → ∃ a, inj a = v)
    (hinj : ∀ a, cast (inj a) = some a) (hnil : ∀ a, inj a ≠ .nil)
    (st : State) (hty : ValuesTyped st) (name : String) :
    AccessorSpec (fun s n => getValue cast s n kind) kind inj st name := by
  refine ⟨fun a => ⟨fun h => ?_, fun h => ?_⟩, fun h => ?_, fun f hf hk => ?_,
    fun f hf hk hv => ?_⟩
  · cases hf : st.flags.get name with
    | none => simp [getValue, hf] at h
    | some f =>
      by_cases hk : f.ValueType = kind
      · cases hv : st.values.get name with
        | none => simp [getValue, hf, hk, hv] at h
        | some v =>
          obtain ⟨f', hf', ht⟩ := hty.get hv
          rw [hf] at hf'
          cases hf'
          rw [hk] at ht
          obtain ⟨a', rfl⟩ := hcast v ht
          have := getValue_of_stored cast inj kind hinj hnil st name f a' hf hk hv
          simp only [this] at h
          cases h
          exact ⟨⟨f, rfl, hk⟩, rfl⟩
      · simp [getValue, hf, hk] at h
  · obtain ⟨⟨f, hf, hk⟩, hv⟩ := h
    exact getValue_of_stored cast inj kind hinj hnil st name f a hf hk hv
  · simp [getValue, h]
  · simp [getValue, hf, hk]
  · simp [getValue, hf, hk, hv]

/-- The accessor of the flag's kind after a successful `Add`. -/
theorem getValue_after_Add {α : Type} (cast : Value → Option α) (inj : α → Value)
    (kind : String) (hcast : ∀ v, hasType kind v = true → ∃ a, inj a = v)
    (hinj : ∀ a, cast (inj a) = some a) (hnil : ∀ a, inj a ≠ .nil)
    (st0 st : State) (flag : Flag) (h : Gears.Add st0 flag = .ret st none) :
    ReturnsDefault (fun s n => getValue cast s n kind) kind inj st flag := by
  intro hk
  obtain ⟨_, _, _, ht, rfl⟩ := Add_success st0 st flag h
  rw [hk] at ht
  obtain ⟨a, ha⟩ := hcast _ ht
  refine ⟨a, ha.symm, ?_⟩
  refine getValue_of_stored cast inj kind hinj hnil _ flag.Name flag a ?_ hk ?_
  · rw [State.setVal_flags]
    exact withEntries_get_name st0 flag
  · rw [State.setVal_get_self, ha]

/-- C23: on a store whose entries have the type of their flag, each typed
accessor (`BoolValue`, `FloatValue`, `IntValue`, `StringValue`, `FloatValues`,
`IntValues`, `StringValues`) returns `a` if and only if the name is
registered, the flag's kind is the accessor's and the store holds `a` for the
name; for an unregistered name, for a flag of another kind, and for a missing
value it ends in `log.Fatalf`. When the state is the one a successful `Add`
of `flag` left, the accessor of the flag's kind returns the seeded default. -/
theorem accessors_return_iff (st : State) (hty : ValuesTyped st) (name : String) :
    AllAccessors (fun _ get kind inj => AccessorSpec get kind inj st name) ∧
    ∀ st0 flag, Gears.Add st0 flag = .ret st none →
      AllAccessors (fun _ get kind inj => ReturnsDefault get kind inj st flag) := by
  have c1 : ∀ v, hasType "bool" v = true → ∃ a, Value.bool a = v := by
    intro v; cases v <;> simp [hasType]
  have c2 : ∀ v, hasType "float" v = true → ∃ a, Value.float a = v := by
    intro v; cases v <;> simp [hasType]
  have c3 : ∀ v, hasType "int" v = true → ∃ a, Value.int a = v := by
    intro v; cases v <;> simp [hasType]
  have c4 : ∀ v, hasType "string" v = true → ∃ a, Value.string a = v := by
    intro v; cases v <;> simp [hasType]
  have c5 : ∀ v, hasType "floats" v = true → ∃ a, Value.floats a = v := by
    intro v; cases v <;> simp [hasType]
  have c6 : ∀ v, hasType "ints" v = true → ∃ a, Value.ints a = v := by
    intro v; cases v <;> simp [hasType]
  have c7 : ∀ v, hasType "strings" v = true → ∃ a, Value.strings a = v := by
    intro v; cases v <;> simp [hasType]
  refine ⟨⟨?_, ?_, ?_, ?_, ?_, ?_, ?_⟩, fun st0 flag h => ⟨?_, ?_, ?_, ?_, ?_, ?_, ?_⟩⟩
  · exact getValue_spec _ Value.bool "bool" c1 (fun _ => rfl) (fun _ h => nomatch h) st hty name
  · exact getValue_spec _ Value.float "float" c2 (fun _ => rfl) (fun _ h => nomatch h) st hty name
  · exact getValue_spec _ Value.int "int" c3 (fun _ => rfl) (fun _ h => nomatch h) st hty name
  · exact getValue_spec _ Value.string "string" c4 (fun _ => rfl) (fun _ h => nomatch h) st hty
      name
  · exact getValue_spec _ Value.floats "floats" c5 (fun _ => rfl) (fun _ h => nomatch h) st hty
      name
  · exact getValue_spec _ Value.ints "ints" c6 (fun _ => rfl) (fun _ h => nomatch h) st hty name
  · exact getValue_spec _ Value.strings "strings" c7 (fun _ => rfl) (fun _ h => nomatch h) st hty
      name
  · exact getValue_after_Add _ Value.bool "bool" c1 (fun _ => rfl) (fun _ h => nomatch h) st0 st
      flag h
  · exact getValue_after_Add _ Value.float "float" c2 (fun _ => rfl) (fun _ h => nomatch h) st0
      st flag h
  · exact getValue_after_Add _ Value.int "int" c3 (fun _ => rfl) (fun _ h => nomatch h) st0 st
      flag h
  · exact getValue_after_Add _ Value.string "string" c4 (fun _ => rfl) (fun _ h => nomatch h)
      st0 st flag h
  · exact getValue_after_Add _ Value.floats "floats" c5 (fun _ => rfl) (fun _ h => nomatch h)
      st0 st flag h
  · exact getValue_after_Add _ Value.ints "ints" c6 (fun _ => rfl) (fun _ h => nomatch h) st0 st
      flag h
  · exact getValue_after_Add _ Value.strings "strings" c7 (fun _ => rfl) (fun _ h => nomatch h)
      st0 st flag h

theorem accessors_return_iff_witness :
    ValuesTyped demoState ∧ IntValue demoState "myint" = .value 0 ∧
      StringValue demoState "myint" = .fatal (.wrongType "myint" "string") ∧
      BoolValue demoState "nope" = .fatal (.flagDoesNotExist "nope") :=
  ⟨by decide,
    ((accessors_return_iff demoState (by decide) "myint").1.2.2.1.1 0).2
      ⟨⟨_, rfl, rfl⟩, rfl⟩,
    (accessors_return_iff demoState (by decide) "myint").1.2.2.2.1.2.2.1 _ rfl (by decide),
    (accessors_return_iff demoState (by decide) "nope").1.1.2.1 rfl⟩

/-! ## Theorems: states reached by registration -/

theorem ValuesTyped.setVal {st : State} (h : ValuesTyped st) {n : String} {f : Flag} {v : Value}
    (hf : st.flags.get n = some f) (ht : hasType f.ValueType v = true) :
    ValuesTyped (st.setVal n v) := by
  intro p hp
  rcases GoMap.mem_set _ _ _ _ hp with hp | rfl
  · exact h p hp
  · exact ⟨f, hf, ht⟩

theorem ValuesTyped.add_entries {st : State} (h : ValuesTyped st) (flag : Flag)
    (hn : st.flags.get flag.Name = none) : ValuesTyped (withEntries st flag) := by
  intro p hp
  obtain ⟨f, hf, ht⟩ := h p hp
  refine ⟨f, ?_, ht⟩
  have hne : p.1 ≠ flag.Name := by
    intro heq
    rw [heq, hn] at hf
    cases hf
  show (st.flags.set flag.Name flag).get p.1 = some f
  rw [GoMap.get_set_other _ _ _ _ hne]
  exact hf

theorem ValuesTyped.same_store {st st' : State} (h : ValuesTyped st) (hf : st'.flags = st.flags)
    (hv : st'.values = st.values) : ValuesTyped st' := by
  intro p hp
  rw [hv] at hp
  rw [hf]
  exact h p hp

theorem ShorthandsOk.add_shorthand {st : State} (h : ShorthandsOk st) (flag : Flag)
    (hn : st.flags.get flag.Name = none) : ShorthandsOk (withEntries st flag) := by
  have hold : ∀ p ∈ st.shorthandNames,
      p.1 ≠ "" ∧ ∃ f, (st.flags.set flag.Name flag).get p.2 = some f ∧ f.Shorthand = p.1 := by
    intro p hp
    obtain ⟨h1, f, hf, hs⟩ := h p hp
    refine ⟨h1, f, ?_, hs⟩
    have hne : p.2 ≠ flag.Name := by
      intro heq
      rw [heq, hn] at hf
      cases hf
    rw [GoMap.get_set_other _ _ _ _ hne]
    exact hf
  intro p hp
  by_cases hsh : flag.Shorthand = ""
  · have hp2 : p ∈ st.shorthandNames := by
      simpa [Gears.withEntries, hsh] using hp
    exact hold p hp2
  · have hp2 : p ∈ st.shorthandNames.set flag.Shorthand flag.Name := by
      simpa [Gears.withEntries, hsh] using hp
    rcases GoMap.mem_set _ _ _ _ hp2 with hp3 | rfl
    · exact hold p hp3
    · exact ⟨hsh, flag, GoMap.get_set_self _ _ _, rfl⟩

theorem ShorthandsOk.same_maps {st st' : State} (h : ShorthandsOk st) (hf : st'.flags = st.flags)
    (hs : st'.shorthandNames = st.shorthandNames) : ShorthandsOk st' := by
  intro p hp
  rw [hs] at hp
  rw [hf]
  exact h p hp

theorem ShorthandsOk.no_empty_key {st : State} (h : ShorthandsOk st) :
    st.shorthandNames.get "" = none := by
  cases hg : st.shorthandNames.get "" with
  | none => rfl
  | some n => exact absurd rfl (h ("", n) (GoMap.mem_of_get _ _ _ hg)).1

theorem ValuesTyped.no_empty_key_stored {st : State} (hok : RegistryOk st) (h : ValuesTyped st) :
    st.values.get "" = none := by
  cases hg : st.values.get "" with
  | none => rfl
  | some v =>
    obtain ⟨f, hf, _⟩ := h.get hg
    rw [flags_get_empty hok] at hf
    cases hf

/-- A call of `Add` keeps the three invariants, whatever it returns. -/
theorem Add_invariants {st st' : State} {flag : Flag} {e : Option Err}
    (hok : RegistryOk st) (hsh : ShorthandsOk st) (hty : ValuesTyped st)
    (h : Gears.Add st flag = .ret st' e) :
    RegistryOk st' ∧ ShorthandsOk st' ∧ ValuesTyped st' := by
  have hreg : RegistryOk st' := by
    obtain ⟨s2, e2, h1, h2⟩ := registryOk_Add hok flag
    rw [h1] at h
    cases h
    exact h2
  refine ⟨hreg, ?_⟩
  rcases Add_cases st flag with ⟨e1, h1⟩ | ⟨_, hn, _, ⟨_, e1, h1⟩ | ⟨ht, h1⟩⟩
  · rw [h1] at h
    cases h
    exact ⟨hsh, hty⟩
  · rw [h1] at h
    cases h
    exact ⟨hsh.add_shorthand flag hn, hty.add_entries flag hn⟩
  · rw [h1] at h
    cases h
    exact ⟨(hsh.add_shorthand flag hn).same_maps rfl rfl,
      (hty.add_entries flag hn).setVal (withEntries_get_name st flag) ht⟩

theorem addReachable_invariants {st : State} (h : AddReachable st) :
    RegistryOk st ∧ ShorthandsOk st ∧ ValuesTyped st := by
  induction h with
  | empty =>
    refine ⟨registryOk_empty, ?_, ?_⟩
    · intro p hp
      cases hp
    · intro p hp
      cases hp
  | add flag e _ hadd ih => exact Add_invariants ih.1 ih.2.1 ih.2.2 hadd

theorem setValue_error {st st' : State} {flag : Flag} {v : Value} {e : Err}
    (h : setValue st flag v = .ret st' (some e)) : ∃ t, e = .notOfType v t := by
  unfold setValue at h
  repeat' split at h
  all_goals first
    | (cases h; exact ⟨_, rfl⟩)
    | cases h

/-- The duplicate-shorthand error comes from a non-empty shorthand only. -/
theorem Add_shorthandExists {st st' : State} {flag : Flag} {sh : String}
    (h : Gears.Add st flag = .ret st' (some (.shorthandExists sh))) : flag.Shorthand ≠ "" := by
  unfold Gears.Add at h
  cases hv : assertValid flag with
  | some err =>
    simp only [hv] at h
    cases h
    unfold assertValid at hv
    repeat' split at hv
    all_goals cases hv
  | none =>
    simp only [hv] at h
    split at h
    · cases h
    · split at h
      · rename_i hd
        exact hd.1
      · split at h
        · obtain ⟨t, ht⟩ := setValue_error h
          cases ht
        · obtain ⟨t, ht⟩ := setValue_error h
          cases ht

/-- C21: in every state reached from the empty state by calls of `Add` (with
any results), every key of the shorthand map is a non-empty string that maps
to a registered name whose flag has exactly that shorthand, and the empty
string is a key of neither the shorthand map nor the value store; a further
`Add` of a flag with an empty shorthand writes no key to the shorthand map
and never returns the duplicate-shorthand error. -/
theorem addReachable_shorthand_keys (st : State) (h : AddReachable st) :
    ShorthandsOk st ∧ st.shorthandNames.get "" = none ∧ st.values.get "" = none ∧
    ∀ flag st' e, flag.Shorthand = "" → Gears.Add st flag = .ret st' e →
      st'.shorthandNames = st.shorthandNames ∧ ∀ sh, e ≠ some (.shorthandExists sh) := by
  obtain ⟨hok, hsh, hty⟩ := addReachable_invariants h
  refine ⟨hsh, hsh.no_empty_key, hty.no_empty_key_stored hok, ?_⟩
  intro flag st' e he hadd
  refine ⟨?_, fun sh hh => ?_⟩
  · have hw : (withEntries st flag).shorthandNames = st.shorthandNames := by
      simp [Gears.withEntries, he]
    rcases Add_cases st flag with ⟨e1, h1⟩ | ⟨_, _, _, ⟨_, e1, h1⟩ | ⟨_, h1⟩⟩
    · rw [h1] at hadd
      cases hadd
      rfl
    · rw [h1] at hadd
      cases hadd
      exact hw
    · rw [h1] at hadd
      cases hadd
      exact hw
  · rw [hh] at hadd
    exact Add_shorthandExists hadd he

theorem addReachable_shorthand_keys_witness :
    ∃ s1 s2, Gears.Add State.empty ⟨"one", "", "bool", .nil⟩ = .ret s1 none ∧
      Gears.Add s1 ⟨"two", "", "string", .string "x"⟩ = .ret s2 none ∧
      AddReachable s2 ∧ ShorthandsOk s2 ∧ s2.shorthandNames.get "" = none ∧
      s2.values.get "" = none :=
  ⟨_, _, rfl, rfl,
    AddReachable.add ⟨"two", "", "string", .string "x"⟩ none
      (AddReachable.add ⟨"one", "", "bool", .nil⟩ none AddReachable.empty rfl) rfl,
    (addReachable_shorthand_keys _
      (AddReachable.add ⟨"two", "", "string", .string "x"⟩ none
        (AddReachable.add ⟨"one", "", "bool", .nil⟩ none AddReachable.empty rfl) rfl)).1,
    (addReachable_shorthand_keys _
      (AddReachable.add ⟨"two", "", "string", .string "x"⟩ none
        (AddReachable.add ⟨"one", "", "bool", .nil⟩ none AddReachable.empty rfl) rfl)).2.1,
    (addReachable_shorthand_keys _
      (AddReachable.add ⟨"two", "", "string", .string "x"⟩ none
        (AddReachable.add ⟨"one", "", "bool", .nil⟩ none AddReachable.empty rfl) rfl)).2.2.1⟩

theorem registered_addReachable {st : State} (h : Registered st) : AddReachable st := by
  induction h with
  | empty => exact AddReachable.empty
  | add flag _ hadd ih => exact AddReachable.add flag none ih hadd

/-- Successful calls of `Add` leave every flag with its seeded value and
register no config file. -/
theorem registered_defaults {st : State} (h : Registered st) :
    DefaultsHeld st ∧ st.configFiles = [] := by
  induction h with
  | empty =>
    refine ⟨?_, rfl⟩
    intro p hp
    cases hp
  | @add st st' flag _ hadd ih =>
    obtain ⟨_, hn, _, _, rfl⟩ := Add_success st st' flag hadd
    refine ⟨?_, ?_⟩
    · intro p hp
      have hp2 : p ∈ st.flags.set flag.Name flag := hp
      rcases GoMap.mem_set _ _ _ _ hp2 with hp3 | rfl
      · have hne : p.1 ≠ flag.Name := by
          intro heq
          exact GoMap.not_mem_keys_of_get_none _ _ hn (heq ▸ List.mem_map_of_mem Prod.fst hp3)
        rw [State.setVal_get_other _ _ _ _ hne]
        exact ih.1 p hp3
      · exact State.setVal_get_self _ _ _
    · exact ih.2

/-- Phase 2 of `load` when no variable of a flag of `order` is set. -/
theorem envPhase_unset (pf : String → Option Float64) (w : World) (st : State) :
    ∀ order : List Flag, (∀ f ∈ order, w.env (toEnvVar f.Name) = none) →
      envPhase pf w st order = .ret st none := by
  intro order
  induction order with
  | nil => intro _; rfl
  | cons g rest ih =>
    intro h
    have hg := h g (List.mem_cons_self _ _)
    have hr := ih (fun f hf => h f (List.mem_cons_of_mem _ hf))
    unfold envPhase
    split
    · exact hr
    · simp only [hg]
      exact hr

/-- C22: for flags registered by successful calls of `Add` (and no call of
`AddConfigFile`), `load` with no environment variable set for any registered
option and an argument list that is empty or holds only the program name
returns `nil` and leaves the state as it was: every registered option holds
its declared default (`false` for a bool flag) and the positional list is
unchanged. -/
theorem load_yields_defaults (pf : String → Option Float64) (w : World) (order : List Flag)
    (st : State) (args : List String) (hreg : Registered st)
    (hord : order.Perm (st.flags.map Prod.snd))
    (henv : ∀ p ∈ st.flags, w.env (toEnvVar p.1) = none) (hargs : args.length ≤ 1) :
    load pf w order st args = .ret st none ∧
      ∀ n f, st.flags.get n = some f → st.values.get n = some (initialValue f) := by
  obtain ⟨hdef, hcf⟩ := registered_defaults hreg
  obtain ⟨hok, _, _⟩ := addReachable_invariants (registered_addReachable hreg)
  have hunset : ∀ f ∈ order, w.env (toEnvVar f.Name) = none := by
    intro f hf
    obtain ⟨p, hp, rfl⟩ := List.mem_map.1 (hord.mem_iff.1 hf)
    rw [(hok.1 p hp).1]
    exact henv p hp
  refine ⟨?_, fun n f hf => hdef (n, f) (GoMap.mem_of_get _ _ _ hf)⟩
  unfold load
  rw [hcf]
  simp only [configPhase, envPhase_unset pf w st order hunset, parseArgs, hargs, if_true]

theorem load_yields_defaults_witness :
    Registered ((withEntries State.empty ⟨"port", "p", "int", .int 80⟩).setVal "port"
      (.int 80)) ∧
    load demoParseFloat ⟨fun _ => none, fun _ => none⟩ [⟨"port", "p", "int", .int 80⟩]
        ((withEntries State.empty ⟨"port", "p", "int", .int 80⟩).setVal "port" (.int 80))
        ["cmd"] =
      .ret ((withEntries State.empty ⟨"port", "p", "int", .int 80⟩).setVal "port" (.int 80))
        none :=
  ⟨Registered.add ⟨"port", "p", "int", .int 80⟩ Registered.empty rfl,
    (load_yields_defaults demoParseFloat ⟨fun _ => none, fun _ => none⟩
      [⟨"port", "p", "int", .int 80⟩] _ ["cmd"]
      (Registered.add ⟨"port", "p", "int", .int 80⟩ Registered.empty rfl)
      (List.Perm.refl _) (fun _ _ => rfl) (by decide)).1⟩

/-! ## Theorems: the typing of the value store -/

/-- A write of a typed value under the name a flag is filed under keeps the
registry invariant and the typing of the store. -/
theorem store_step {st st' : State} (hok : RegistryOk st) (hty : ValuesTyped st) {n : String}
    {f : Flag} (hf : st.flags.get n = some f)
    (h : st' = st ∨ ∃ v, st' = st.setVal f.Name v ∧ hasType f.ValueType v = true) :
    RegistryOk st' ∧ ValuesTyped st' := by
  rcases h with rfl | ⟨v, rfl, ht⟩
  · exact ⟨hok, hty⟩
  · rw [(hok.flag hf).1]
    exact ⟨hok.of_same rfl rfl, hty.setVal hf ht⟩

theorem setValue_ret_typed {st st' : State} {flag : Flag} {v : Value} {e : Option Err}
    (h : setValue st flag v = .ret st' e) :
    st' = st ∨ ∃ v, st' = st.setVal flag.Name v ∧ hasType flag.ValueType v = true := by
  unfold setValue at h
  repeat' split at h
  all_goals
    cases h
    first
      | exact Or.inl rfl
      | exact Or.inr ⟨_, rfl, by simp [hasType, *]⟩

theorem setJsonValue_ret_typed {pf : String → Option Float64} {st st' : State} {flag : Flag}
    {raw : Json} {e : Option Err} (h : setJsonValue pf st flag raw = .ret st' e) :
    st' = st ∨ ∃ v, st' = st.setVal flag.Name v ∧ hasType flag.ValueType v = true := by
  unfold setJsonValue at h
  repeat' split at h
  all_goals
    cases h
    first
      | exact Or.inl rfl
      | exact Or.inr ⟨_, rfl, by simp [hasType, *]⟩

theorem setStringValue_ret_typed {pf : String → Option Float64} {st st' : State} {n s : String}
    {e : Option Err} (h : setStringValue pf st n s = .ret st' e) :
    ∃ f, st.flags.get n = some f ∧
      (st' = st ∨ ∃ v, st' = st.setVal f.Name v ∧ hasType f.ValueType v = true) := by
  unfold setStringValue at h
  split at h
  · cases h
  · rename_i flag hf
    refine ⟨flag, hf, ?_⟩
    repeat' split at h
    all_goals
      cases h <;> first
        | exact Or.inl rfl
        | exact Or.inr ⟨_, rfl, by simp [hasType, *]⟩

theorem clusterLoop_invariants (sh : String) :
    ∀ (cs : List Char) (st : State) (need : String) (c : Nat),
      RegistryOk st → ValuesTyped st →
      (∀ st' need', clusterLoop sh st need c cs = .next st' need' →
        RegistryOk st' ∧ ValuesTyped st') ∧
      (∀ st' e, clusterLoop sh st need c cs = .stop (.ret st' e) →
        RegistryOk st' ∧ ValuesTyped st') := by
  intro cs
  induction cs with
  | nil =>
    intro st need c hok hty
    refine ⟨fun st' need' h => ?_, fun st' e h => ?_⟩
    · cases h
      exact ⟨hok, hty⟩
    · cases h
  | cons char cs ih =>
    intro st need c hok hty
    unfold clusterLoop
    simp only
    cases hs : st.shorthandNames.get (String.singleton char) with
    | none =>
      refine ⟨fun st' need' h => ?_, fun st' e h => ?_⟩
      · cases h
      · cases h
        exact ⟨hok, hty⟩
    | some name =>
      simp only
      cases hf : st.flags.get name with
      | none =>
        refine ⟨fun st' need' h => ?_, fun st' e h => ?_⟩
        · cases h
        · cases h
      | some flag =>
        simp only
        by_cases hb : flag.ValueType = "bool"
        · rw [if_pos hb]
          have hstep : RegistryOk (st.setVal name (.bool true)) ∧
              ValuesTyped (st.setVal name (.bool true)) :=
            ⟨hok.of_same rfl rfl, hty.setVal hf (by simp [hasType, hb])⟩
          exact ih _ need _ hstep.1 hstep.2
        · rw [if_neg hb]
          split
          · refine ⟨fun st' need' h => ?_, fun st' e h => ?_⟩
            · cases h
            · cases h
              exact ⟨hok, hty⟩
          · exact ih _ name _ hok hty

theorem argStep_invariants (pf : String → Option Float64) (st : State) (need arg : String)
    (hok : RegistryOk st) (hty : ValuesTyped st) :
    (∀ st' need', argStep pf st need arg = .next st' need' →
      RegistryOk st' ∧ ValuesTyped st') ∧
    (∀ st' e, argStep pf st need arg = .stop (.ret st' e) →
      RegistryOk st' ∧ ValuesTyped st') := by
  unfold argStep
  split
  · cases hr : setStringValue pf st need arg with
    | ret s2 e2 =>
      obtain ⟨f, hf, hst⟩ := setStringValue_ret_typed hr
      have hinv := store_step hok hty hf hst
      cases e2 with
      | none =>
        refine ⟨fun st' need' h => ?_, fun st' e h => ?_⟩
        · cases h
          exact hinv
        · cases h
      | some e2 =>
        refine ⟨fun st' need' h => ?_, fun st' e h => ?_⟩
        · cases h
        · cases h
          exact hinv
    | fatal f =>
      refine ⟨fun st' need' h => ?_, fun st' e h => ?_⟩
      · cases h
      · cases h
    | crash =>
      refine ⟨fun st' need' h => ?_, fun st' e h => ?_⟩
      · cases h
      · cases h
  · split
    · rename_i rest _
      simp only
      cases hf : st.flags.get (String.mk rest) with
      | none =>
        simp only
        refine ⟨fun st' need' h => ?_, fun st' e h => ?_⟩
        · cases h
        · cases h
          exact ⟨hok, hty⟩
      | some flag =>
        simp only
        split
        · rename_i hb
          refine ⟨fun st' need' h => ?_, fun st' e h => ?_⟩
          · cases h
            exact ⟨hok.of_same rfl rfl, hty.setVal hf (by simp [hasType, hb])⟩
          · cases h
        · refine ⟨fun st' need' h => ?_, fun st' e h => ?_⟩
          · cases h
            exact ⟨hok, hty⟩
          · cases h
    · exact clusterLoop_invariants _ _ st need 0 hok hty
    · refine ⟨fun st' need' h => ?_, fun st' e h => ?_⟩
      · cases h
        exact ⟨hok.of_same rfl rfl, hty.same_store rfl rfl⟩
      · cases h

theorem parseArgsLoop_invariants (pf : String → Option Float64) :
    ∀ (args : List String) (st : State) (need : String) (st' : State) (e : Option Err),
      RegistryOk st → ValuesTyped st → parseArgsLoop pf st need args = .ret st' e →
      RegistryOk st' ∧ ValuesTyped st' := by
  intro args
  induction args with
  | nil =>
    intro st need st' e hok hty h
    cases h
    exact ⟨hok, hty⟩
  | cons arg rest ih =>
    intro st need st' e hok hty h
    unfold parseArgsLoop at h
    cases hs : argStep pf st need arg with
    | next s2 need2 =>
      rw [hs] at h
      have h2 := (argStep_invariants pf st need arg hok hty).1 s2 need2 hs
      exact ih s2 need2 st' e h2.1 h2.2 h
    | stop r =>
      rw [hs] at h
      simp only at h
      subst h
      exact (argStep_invariants pf st need arg hok hty).2 st' e hs

theorem parseJsonLoop_invariants (pf : String → Option Float64) :
    ∀ (config : List (String × Json)) (st st' : State) (e : Option Err),
      RegistryOk st → ValuesTyped st → parseJsonLoop pf st config = .ret st' e →
      RegistryOk st' ∧ ValuesTyped st' := by
  intro config
  induction config with
  | nil =>
    intro st st' e hok hty h
    cases h
    exact ⟨hok, hty⟩
  | cons p rest ih =>
    intro st st' e hok hty h
    obtain ⟨name, raw⟩ := p
    unfold parseJsonLoop at h
    cases hf : st.flags.get name with
    | none =>
      rw [hf] at h
      cases h
      exact ⟨hok, hty⟩
    | some flag =>
      rw [hf] at h
      simp only at h
      cases hr : setJsonValue pf st flag raw with
      | ret s2 e2 =>
        have hinv := store_step hok hty hf (setJsonValue_ret_typed hr)
        rw [hr] at h
        cases e2 with
        | none => exact ih s2 st' e hinv.1 hinv.2 h
        | some e2 =>
          cases h
          exact hinv
      | fatal f =>
        rw [hr] at h
        cases h
      | crash =>
        rw [hr] at h
        cases h

theorem Add_valuesTyped {st st' : State} {flag : Flag} {e : Option Err}
    (hty : ValuesTyped st) (h : Gears.Add st flag = .ret st' e) : ValuesTyped st' := by
  rcases Add_cases st flag with ⟨e1, h1⟩ | ⟨_, hn, _, ⟨_, e1, h1⟩ | ⟨ht, h1⟩⟩
  · rw [h1] at h
    cases h
    exact hty
  · rw [h1] at h
    cases h
    exact hty.add_entries flag hn
  · rw [h1] at h
    cases h
    exact (hty.add_entries flag hn).setVal (withEntries_get_name st flag) ht

theorem reachable_invariants {pf : String → Option Float64} {st : State}
    (h : Reachable pf st) : RegistryOk st ∧ ValuesTyped st := by
  induction h with
  | empty =>
    refine ⟨registryOk_empty, ?_⟩
    intro p hp
    cases hp
  | @add st st' flag e _ hadd ih =>
    refine ⟨?_, Add_valuesTyped ih.2 hadd⟩
    obtain ⟨s2, e2, h1, h2⟩ := registryOk_Add ih.1 flag
    rw [h1] at hadd
    cases hadd
    exact h2
  | @setValue st st' name value e _ hset ih =>
    unfold SetValue at hset
    cases hf : st.flags.get name with
    | none =>
      rw [hf] at hset
      cases hset
    | some flag =>
      rw [hf] at hset
      simp only at hset
      cases hr : setValue st flag value with
      | ret s2 e2 =>
        rw [hr] at hset
        cases hset
        exact store_step ih.1 ih.2 hf (setValue_ret_typed hr)
      | fatal f =>
        rw [hr] at hset
        cases hset
      | crash =>
        rw [hr] at hset
        cases hset
  | @parseJson st st' data e _ hp ih =>
    cases data with
    | none => cases hp
    | some config => exact parseJsonLoop_invariants pf config st st' e ih.1 ih.2 hp
  | @parseArgs st st' args e _ hp ih =>
    unfold Gears.parseArgs at hp
    split at hp
    · cases hp
      exact ih
    · exact parseArgsLoop_invariants pf _ st "" st' e ih.1 ih.2 hp

/-- C25: in every state reached from the empty state by calls of `Add`,
`SetValue`, `parseJson` and `parseArgs` (each with any result it returns),
every entry of the value store is filed under a registered name and holds a
value of the Go type of that flag's kind: `bool`, `float64`, `int`, `string`,
`[]float64`, `[]int` or `[]string`. -/
theorem reachable_values_typed (pf : String → Option Float64) (st : State)
    (h : Reachable pf st) :
    ∀ p ∈ st.values, ∃ f, st.flags.get p.1 = some f ∧ hasType f.ValueType p.2 = true :=
  (reachable_invariants h).2

theorem reachable_values_typed_witness :
    ∃ s1 s2 s3, Gears.Add State.empty ⟨"port", "p", "int", .int 80⟩ = .ret s1 none ∧
      parseArgs demoParseFloat s1 ["cmd", "-p", "8080"] = .ret s2 none ∧
      SetValue s2 "port" (.string "x") = .ret s3 none ∧
      s3.values = [("port", .int 8080)] ∧
      ∀ p ∈ s3.values, ∃ f, s3.flags.get p.1 = some f ∧ hasType f.ValueType p.2 = true :=
  ⟨_, _, _, rfl, rfl, rfl, rfl,
    reachable_values_typed demoParseFloat _
      (Reachable.setValue "port" (.string "x") none
        (Reachable.parseArgs ["cmd", "-p", "8080"] none
          (Reachable.add ⟨"port", "p", "int", .int 80⟩ none Reachable.empty rfl) rfl) rfl)⟩

/-! ## Theorems: parseArgs after a failed Add -/

/-- C29: a state reached by a failed `Add` on which `parseArgs` panics. The
call `Add(&Flag{Name: "test", ValueType: "strings", DefaultValue: "value"})`
on the empty state returns the type error of `setValue` after it has written
`flags["test"]`, so the flag is registered with no entry in `values`; the
call of `parseArgs` on `cmd --test x` then reaches
`values["test"].([]string)` in `setStringValue`, a type assertion on a nil
interface, which panics. -/
theorem parseArgs_crash_after_failed_Add (pf : String → Option Float64) :
    ∃ st e, Gears.Add State.empty ⟨"test", "", "strings", .string "value"⟩ = .ret st (some e) ∧
      AddReachable st ∧ st.flags.get "test" = some ⟨"test", "", "strings", .string "value"⟩ ∧
      st.values.get "test" = none ∧
      parseArgs pf st ["cmd", "--test", "x"] = .crash :=
  ⟨_, _, rfl, AddReachable.add ⟨"test", "", "strings", .string "value"⟩ _ AddReachable.empty rfl,
    rfl, rfl, rfl⟩

/-! ## Theorems: the wrapping loop of the usage text -/

theorem lastSpace_le (desc : List Char) (l : Nat) : ∀ w, lastSpace desc l w ≤ w := by
  intro w
  induction w with
  | zero => simp [lastSpace]
  | succ w ih =>
    unfold lastSpace
    split
    · exact le_refl _
    · exact Nat.le_succ_of_le ih

theorem lastSpace_space (desc : List Char) (l : Nat) :
    ∀ w, 0 < lastSpace desc l w → desc[l + lastSpace desc l w - 1]? = some ' ' := by
  intro w
  induction w with
  | zero => simp [lastSpace]
  | succ w ih =>
    unfold lastSpace
    split
    · rename_i h
      intro _
      exact h
    · exact ih

theorem lastSpace_max (desc : List Char) (l : Nat) :
    ∀ w j, 1 ≤ j → j ≤ w → desc[l + j - 1]? = some ' ' → j ≤ lastSpace desc l w := by
  intro w
  induction w with
  | zero => intro j h1 h2; omega
  | succ w ih =>
    intro j h1 h2 hj
    unfold lastSpace
    split
    · exact h2
    · rename_i hne
      rcases Nat.lt_or_ge j (w + 1) with hlt | hge
      · exact ih j h1 (by omega) hj
      · have : j = w + 1 := by omega
        subst this
        exact absurd hj hne

theorem lastSpace_eq_zero (desc : List Char) (l : Nat) :
    ∀ w, (∀ k, k < w → desc[l + k]? ≠ some ' ') → lastSpace desc l w = 0 := by
  intro w
  induction w with
  | zero => intro _; rfl
  | succ w ih =>
    intro h
    unfold lastSpace
    rw [if_neg (h w (Nat.lt_succ_self w))]
    exact ih (fun k hk => h k (Nat.lt_succ_of_lt hk))

theorem byteAt_natCast (desc : List Char) (l w : Nat) :
    byteAt desc ((l : Int) + ((w + 1 : Nat) : Int) - 1) = desc[l + w]? := by
  unfold byteAt
  have h1 : ¬ ((l : Int) + ((w + 1 : Nat) : Int) - 1 < 0) := by omega
  have h2 : ((l : Int) + ((w + 1 : Nat) : Int) - 1).toNat = l + w := by omega
  rw [if_neg h1, h2]

/-- The inner loop when the text that remains fits the line. -/
theorem innerLoop_fits (desc : List Char) (m : Int) (l rem : Nat) (mw ww : Int) (fuel : Nat)
    (h : ¬ ((rem : Int) > m)) :
    innerLoop desc m l rem mw (fuel + 1) ww = .width ww := by
  unfold innerLoop
  rw [if_neg h]

/-- The inner loop from `wrappedWidth = w`: it stops at the last space. -/
theorem innerLoop_scan (desc : List Char) (m : Int) (l rem : Nat) (mw : Int)
    (hrem : (rem : Int) > m) :
    ∀ (w fuel : Nat), l + w ≤ desc.length → 0 < lastSpace desc l w → w < fuel →
      innerLoop desc m l rem mw fuel (w : Int) = .width (lastSpace desc l w : Nat) := by
  intro w
  induction w with
  | zero => intro fuel _ h; simp [lastSpace] at h
  | succ w ih =>
    intro fuel hlen hpos hfuel
    obtain ⟨fuel, rfl⟩ : ∃ f, fuel = f + 1 := ⟨fuel - 1, by omega⟩
    unfold innerLoop
    rw [if_pos hrem, byteAt_natCast]
    have hlt : l + w < desc.length := by omega
    rw [List.getElem?_eq_getElem hlt]
    simp only
    by_cases hb : desc[l + w] = ' '
    · have hls : lastSpace desc l (w + 1) = w + 1 := by
        unfold lastSpace
        rw [List.getElem?_eq_getElem hlt, hb, if_pos rfl]
      rw [hls]
      simp [hb]
    · have hls : lastSpace desc l (w + 1) = lastSpace desc l w := by
        simp only [lastSpace]
        rw [List.getElem?_eq_getElem hlt, if_neg (by simpa using hb)]
      rw [hls] at hpos ⊢
      have hz : ¬ (((w + 1 : Nat) : Int) = 0) := by omega
      have hsub : ((w + 1 : Nat) : Int) - 1 = (w : Int) := by omega
      rw [if_pos (by simpa using hb), if_neg hz, hsub]
      exact ih fuel (by omega) hpos (by omega)

/-- The inner loop at the start of the text when no space is found: the
index `desc[l+wrappedWidth-1]` is read at `wrappedWidth = 0`, that is `desc[-1]`. -/
theorem innerLoop_no_space_start (desc : List Char) (m : Int) (rem : Nat) (mw : Int)
    (hrem : (rem : Int) > m) :
    ∀ (w fuel : Nat), w ≤ desc.length → (∀ k, k < w → desc[k]? ≠ some ' ') → w < fuel →
      innerLoop desc m 0 rem mw fuel (w : Int) = .crash := by
  intro w
  induction w with
  | zero =>
    intro fuel _ _ hfuel
    obtain ⟨fuel, rfl⟩ : ∃ f, fuel = f + 1 := ⟨fuel - 1, by omega⟩
    unfold innerLoop
    rw [if_pos hrem]
    rfl
  | succ w ih =>
    intro fuel hlen hns hfuel
    obtain ⟨fuel, rfl⟩ : ∃ f, fuel = f + 1 := ⟨fuel - 1, by omega⟩
    unfold innerLoop
    have hb := byteAt_natCast desc 0 w
    simp only [Nat.cast_zero, zero_add] at hb
    have hlt : w < desc.length := by omega
    have hne : desc[w] ≠ ' ' := by
      have := hns w (Nat.lt_succ_self w)
      rw [List.getElem?_eq_getElem hlt] at this
      simpa using this
    have hz : ¬ (((w + 1 : Nat) : Int) = 0) := by omega
    have hsub : ((w + 1 : Nat) : Int) - 1 = (w : Int) := by omega
    simp only [Nat.cast_zero, zero_add]
    rw [if_pos hrem, hb, List.getElem?_eq_getElem hlt]
    simp only
    rw [if_pos hne, if_neg hz, hsub]
    exact ih fuel (by omega) (fun k hk => hns k (Nat.lt_succ_of_lt hk)) (by omega)

/-- The inner loop after a line that ended in a space when no space is
found: it is left with `wrappedWidth = 0`. -/
theorem innerLoop_no_space_later (desc : List Char) (m : Int) (l rem : Nat) (mw : Int)
    (hrem : (rem : Int) > m) (hl : 0 < l) (hprev : desc[l - 1]? = some ' ') :
    ∀ (w fuel : Nat), l + w ≤ desc.length → (∀ k, k < w → desc[l + k]? ≠ some ' ') → w < fuel →
      innerLoop desc m l rem mw fuel (w : Int) = .width 0 := by
  intro w
  induction w with
  | zero =>
    intro fuel _ _ hfuel
    obtain ⟨fuel, rfl⟩ : ∃ f, fuel = f + 1 := ⟨fuel - 1, by omega⟩
    unfold innerLoop
    have hb : byteAt desc ((l : Int) + ((0 : Nat) : Int) - 1) = some ' ' := by
      unfold byteAt
      have h1 : ¬ ((l : Int) + ((0 : Nat) : Int) - 1 < 0) := by omega
      have h2 : ((l : Int) + ((0 : Nat) : Int) - 1).toNat = l - 1 := by omega
      rw [if_neg h1, h2]
      exact hprev
    rw [if_pos hrem, hb]
    simp
  | succ w ih =>
    intro fuel hlen hns hfuel
    obtain ⟨fuel, rfl⟩ : ∃ f, fuel = f + 1 := ⟨fuel - 1, by omega⟩
    unfold innerLoop
    have hlt : l + w < desc.length := by omega
    have hne : desc[l + w] ≠ ' ' := by
      have := hns w (Nat.lt_succ_self w)
      rw [List.getElem?_eq_getElem hlt] at this
      simpa using this
    have hz : ¬ (((w + 1 : Nat) : Int) = 0) := by omega
    have hsub : ((w + 1 : Nat) : Int) - 1 = (w : Int) := by omega
    rw [if_pos hrem, byteAt_natCast, List.getElem?_eq_getElem hlt]
    simp only
    rw [if_pos hne, if_neg hz, hsub]
    exact ih fuel (by omega) (fun k hk => hns k (Nat.lt_succ_of_lt hk)) (by omega)

/-- One pass of the wrapping loop when the inner loop leaves a width `k`. -/
theorem wrapLoop_step (desc : List Char) (m : Int) (fuel l : Nat) (out : List (List Char))
    (k : Nat) (hl : l < desc.length)
    (hin : innerLoop desc m l (desc.length - l) (min m ((desc.length - l : Nat) : Int))
      (desc.length + 1) (min m ((desc.length - l : Nat) : Int)) = .width (k : Nat))
    (hk : l + k ≤ desc.length) :
    wrapLoop desc m (fuel + 1) l out =
      wrapLoop desc m fuel (l + k) (out ++ [indent ++ (desc.drop l).take k]) := by
  rw [wrapLoop, if_pos hl, hin]
  simp only
  have h1 : ¬ (((k : Nat) : Int) < 0 ∨ (l : Int) + ((k : Nat) : Int) > desc.length) := by omega
  rw [if_neg h1, Int.toNat_ofNat]

/-- A prefix that ends in a space ends at a space of the text. -/
theorem prefix_getLast_space (desc : List Char) (l : Nat) (p : List Char)
    (hp : p <+: desc.drop l) (hs : p.getLast? = some ' ') :
    1 ≤ p.length ∧ desc[l + p.length - 1]? = some ' ' := by
  have hne : p ≠ [] := by
    rintro rfl
    simp at hs
  have hpos : 1 ≤ p.length := List.length_pos.2 hne
  refine ⟨hpos, ?_⟩
  rw [List.getLast?_eq_getElem?] at hs
  have hlt : p.length - 1 < p.length := by omega
  have h2 := List.IsPrefix.getElem hp hlt
  rw [List.getElem?_eq_getElem hlt] at hs
  have h3 : (desc.drop l)[p.length - 1]? = some ' ' := by
    rw [List.getElem?_eq_getElem (lt_of_lt_of_le hlt hp.length_le), ← h2]
    exact hs
  rw [List.getElem?_drop] at h3
  have : l + p.length - 1 = l + (p.length - 1) := by omega
  rw [this]
  exact h3

/-- The line cut at the last space of the window is the line of the spec. -/
theorem isWrapLine_scan (desc : List Char) (l M : Nat) (hM : M < (desc.drop l).length)
    (hpos : 0 < lastSpace desc l M) :
    IsWrapLine M (desc.drop l) ((desc.drop l).take (lastSpace desc l M)) := by
  have hle := lastSpace_le desc l M
  have hlen : ((desc.drop l).take (lastSpace desc l M)).length = lastSpace desc l M := by
    rw [List.length_take]
    omega
  refine Or.inr ⟨hM, List.take_prefix _ _, by omega, ?_, ?_⟩
  · rw [List.getLast?_eq_getElem?, hlen, List.getElem?_take_of_lt (by omega),
      List.getElem?_drop]
    have : l + (lastSpace desc l M - 1) = l + lastSpace desc l M - 1 := by omega
    rw [this]
    exact lastSpace_space desc l M hpos
  · intro p hp hpl hps
    obtain ⟨h1, h2⟩ := prefix_getLast_space desc l p hp hps
    rw [hlen]
    exact lastSpace_max desc l M p.length h1 hpl h2

/-- The wrapping loop from the position `l`, by induction on what remains. -/
theorem wrapLoop_wraps (desc : List Char) (M : Nat)
    (hwin : SpaceInEveryWindow (M : Int) desc) :
    ∀ (n l : Nat), desc.length - l = n → l ≤ desc.length →
      ∃ chunks, Wraps M (desc.drop l) chunks ∧ chunks.flatten = desc.drop l ∧
        ∀ fuel out, n ≤ fuel →
          wrapLoop desc (M : Int) fuel l out = .done (out ++ chunks.map (fun c => indent ++ c)) := by
  intro n
  induction n using Nat.strong_induction_on with
  | _ n ih =>
    intro l hn hl
    by_cases hlt : l < desc.length
    · -- the width the inner loop leaves
      have hstep : ∃ k, 1 ≤ k ∧ l + k ≤ desc.length ∧
          IsWrapLine M (desc.drop l) ((desc.drop l).take k) ∧
          innerLoop desc (M : Int) l (desc.length - l)
            (min (M : Int) ((desc.length - l : Nat) : Int)) (desc.length + 1)
            (min (M : Int) ((desc.length - l : Nat) : Int)) = .width (k : Nat) := by
        by_cases hrem : ((desc.length - l : Nat) : Int) > (M : Int)
        · have hrem2 : M < desc.length - l := by omega
          obtain ⟨j, hj1, hj2, hj3, hj4⟩ := hwin l (by omega) (by omega)
          have hmax := lastSpace_max desc l M (j - l + 1) (by omega) (by omega)
            (by
              have : l + (j - l + 1) - 1 = j := by omega
              rw [this]
              exact hj4)
          have hpos : 0 < lastSpace desc l M := by omega
          have hle := lastSpace_le desc l M
          refine ⟨lastSpace desc l M, hpos, by omega,
            isWrapLine_scan desc l M (by rw [List.length_drop]; exact hrem2) hpos, ?_⟩
          rw [min_eq_left (le_of_lt hrem)]
          exact innerLoop_scan desc (M : Int) l _ _ hrem M (desc.length + 1) (by omega) hpos
            (by omega)
        · refine ⟨desc.length - l, by omega, by omega, Or.inl ⟨?_, ?_⟩, ?_⟩
          · rw [List.length_drop]
            omega
          · rw [List.take_of_length_le]
            rw [List.length_drop]
          · rw [min_eq_right (by omega)]
            exact innerLoop_fits desc (M : Int) l _ _ _ _ hrem
      obtain ⟨k, hk1, hk2, hline, hin⟩ := hstep
      obtain ⟨chunks, hw, hfl, hrun⟩ :=
        ih (desc.length - (l + k)) (by omega) (l + k) rfl hk2
      have hklen : ((desc.drop l).take k).length = k := by
        rw [List.length_take, List.length_drop]
        omega
      refine ⟨(desc.drop l).take k :: chunks, ?_, ?_, ?_⟩
      · refine Wraps.cons ?_ hline ?_
        · intro h0
          have := congrArg List.length h0
          rw [List.length_drop] at this
          simp at this
          omega
        · rw [hklen, List.drop_drop]
          exact hw
      · rw [List.flatten_cons, hfl]
        have : desc.drop (l + k) = (desc.drop l).drop k := by
          rw [List.drop_drop]
        rw [this, List.take_append_drop]
      · intro fuel out hfuel
        obtain ⟨fuel, rfl⟩ : ∃ f, fuel = f + 1 := ⟨fuel - 1, by omega⟩
        rw [wrapLoop_step desc (M : Int) fuel l out k hlt hin hk2, hrun fuel _ (by omega)]
        simp
    · have hl2 : l = desc.length := by omega
      subst hl2
      refine ⟨[], ?_, ?_, ?_⟩
      · rw [List.drop_length]
        exact Wraps.nil
      · rw [List.drop_length]
        rfl
      · intro fuel out _
        cases fuel with
        | zero => simp [wrapLoop]
        | succ fuel => simp [wrapLoop]

/-- C28: when each window of `width - 4` consecutive characters of the
description (default suffix included) holds a space, the wrapping loop of
`FprintUsageWithWidth` ends on every fuel of at least `len(desc)`; each line
it writes is the 4-space indent followed by the line of `IsWrapLine` for the
text that remains (all of it when it fits, and otherwise its longest prefix
of at most `width - 4` characters that ends in a space); and the line
contents concatenated in order are the description. -/
theorem wrapDescription_wraps (desc : List Char) (width : Int)
    (hwin : SpaceInEveryWindow (width - 4) desc) :
    ∃ chunks, Wraps (width - 4).toNat desc chunks ∧ chunks.flatten = desc ∧
      ∀ fuel, desc.length ≤ fuel →
        wrapDescription desc width fuel = .done (chunks.map (fun c => indent ++ c)) := by
  have hpos : 1 ≤ width - 4 := by
    by_contra hneg
    obtain ⟨j, _, hj2, hj3, _⟩ := hwin 0 (by omega) (by omega)
    omega
  obtain ⟨M, hM⟩ : ∃ M : Nat, width - 4 = (M : Int) := ⟨(width - 4).toNat, by omega⟩
  rw [hM] at hwin
  obtain ⟨chunks, hw, hfl, hrun⟩ :=
    wrapLoop_wraps desc M hwin desc.length 0 rfl (Nat.zero_le _)
  refine ⟨chunks, ?_, hfl, ?_⟩
  · rw [hM, Int.toNat_ofNat]
    exact hw
  · intro fuel hfuel
    have := hrun fuel [] hfuel
    rw [List.nil_append] at this
    rw [← this]
    unfold wrapDescription
    have h4 : ((indent.length : Nat) : Int) = 4 := rfl
    rw [h4, hM]

theorem wrapDescription_wraps_witness :
    SpaceInEveryWindow (8 - 4) "ab cd ef gh ijk lm".data ∧
    wrapDescription "ab cd ef gh ijk lm".data 8 18 =
      .done ["    ab ".data, "    cd ".data, "    ef ".data, "    gh ".data, "    ijk ".data,
        "    lm".data] ∧
    ∃ chunks, Wraps (8 - 4 : Int).toNat "ab cd ef gh ijk lm".data chunks ∧
      chunks.flatten = "ab cd ef gh ijk lm".data ∧
      ∀ fuel, "ab cd ef gh ijk lm".data.length ≤ fuel →
        wrapDescription "ab cd ef gh ijk lm".data 8 fuel =
          .done (chunks.map (fun c => indent ++ c)) :=
  ⟨by decide, by decide, wrapDescription_wraps "ab cd ef gh ijk lm".data 8 (by decide)⟩

/-- The wrapping loop spins on a position it cannot leave. -/
theorem wrapLoop_stuck (desc : List Char) (m : Int) (l : Nat) (hl : l < desc.length)
    (hin : innerLoop desc m l (desc.length - l) (min m ((desc.length - l : Nat) : Int))
      (desc.length + 1) (min m ((desc.length - l : Nat) : Int)) = .width ((0 : Nat) : Int)) :
    ∀ fuel out, wrapLoop desc m fuel l out = .outOfFuel (out ++ List.replicate fuel indent) := by
  intro fuel
  induction fuel with
  | zero =>
    intro out
    simp [wrapLoop, hl]
  | succ fuel ih =>
    intro out
    rw [wrapLoop_step desc m fuel l out 0 hl hin (by omega), Nat.add_zero, ih]
    simp [List.replicate_succ]

/-- C27: a word that does not fit the line is not broken; the branch meant to
break it is not reached. When more than `width - 4` characters remain at the
position `l` and
the next `width - 4` hold no space, the inner loop counts `wrappedWidth` down
to `0` and reads `desc[l+wrappedWidth-1]` before it tests `wrappedWidth == 0`:
at the start of the text this is `desc[-1]` and the call panics with no line
written; after a line that ended in a space the condition is false, the
loop is left with `wrappedWidth = 0`, an empty line is written and `l` does
not advance, so the loop never ends (it runs out of every fuel, writing one
indent for each pass). -/
theorem wrapDescription_long_word (desc : List Char) (width : Int) (l : Nat)
    (hw : 4 < width) (hrem : width - 4 < ((desc.length - l : Nat) : Int))
    (hns : ∀ k : Nat, (k : Int) < width - 4 → desc[l + k]? ≠ some ' ') :
    (l = 0 → ∀ fuel, wrapDescription desc width (fuel + 1) = .crash []) ∧
    (0 < l → desc[l - 1]? = some ' ' → ∀ fuel out,
      wrapLoop desc (width - 4) fuel l out = .outOfFuel (out ++ List.replicate fuel indent)) := by
  obtain ⟨M, hM⟩ : ∃ M : Nat, width - 4 = (M : Int) := ⟨(width - 4).toNat, by omega⟩
  rw [hM] at hrem hns
  have hmin : min (M : Int) ((desc.length - l : Nat) : Int) = (M : Int) :=
    min_eq_left (le_of_lt hrem)
  have hlt : l < desc.length := by omega
  constructor
  · rintro rfl fuel
    have hin := innerLoop_no_space_start desc (M : Int) (desc.length - 0) (M : Int) hrem M
      (desc.length + 1) (by omega)
      (fun k hk => by
        have := hns k (by omega)
        rwa [Nat.zero_add] at this)
      (by omega)
    unfold wrapDescription
    have h4 : ((indent.length : Nat) : Int) = 4 := rfl
    rw [h4, hM, wrapLoop, if_pos hlt, hmin, hin]
  · intro hl hprev fuel out
    rw [hM]
    refine wrapLoop_stuck desc (M : Int) l hlt ?_ fuel out
    rw [hmin]
    exact innerLoop_no_space_later desc (M : Int) l (desc.length - l) (M : Int) hrem hl hprev M
      (desc.length + 1) (by omega) (fun k hk => hns k (by omega)) (by omega)

theorem wrapDescription_long_word_witness :
    wrapDescription "aaaaaaaa".data 8 1 = .crash [] ∧
    wrapDescription "ab cdefghi".data 8 3 =
      .outOfFuel ["    ab ".data, "    ".data, "    ".data] ∧
    wrapLoop "ab cdefghi".data (8 - 4) 2 3 ["    ab ".data] =
      .outOfFuel (["    ab ".data] ++ List.replicate 2 indent) :=
  ⟨(wrapDescription_long_word "aaaaaaaa".data 8 0 (by decide) (by decide)
      (fun k hk => by
        have hk4 : k < 4 := by omega
        interval_cases k <;> decide)).1 rfl 0,
    by decide,
    (wrapDescription_long_word "ab cdefghi".data 8 3 (by decide) (by decide)
      (fun k hk => by
        have hk4 : k < 4 := by omega
        interval_cases k <;> decide)).2 (by decide) (by decide) 2 ["    ab ".data]⟩

/-! ## Theorems: parseArgs after successful registration -/

theorem ValuesPresent.set_typed {st : State} (hok : RegistryOk st) (h : ValuesPresent st)
    {n : String} {f : Flag} {v : Value} (hf : st.flags.get n = some f)
    (ht : hasType f.ValueType v = true) : ValuesPresent (st.setVal n v) := by
  intro p hp
  have hp2 : p ∈ st.flags := hp
  by_cases hn : p.1 = n
  · have hg : st.flags.get p.1 = some p.2 := GoMap.get_of_mem_nodup _ _ _ hok.2.2 hp2
    rw [hn, hf] at hg
    cases hg
    exact ⟨v, by rw [hn]; exact State.setVal_get_self _ _ _, ht⟩
  · obtain ⟨v0, h1, h2⟩ := h p hp2
    exact ⟨v0, by rw [State.setVal_get_other _ _ _ _ hn]; exact h1, h2⟩

theorem ValuesPresent.store_kept {st st' : State} (hok : RegistryOk st) (h : ValuesPresent st)
    {n : String} {f : Flag} (hf : st.flags.get n = some f)
    (hst : st' = st ∨ ∃ v, st' = st.setVal f.Name v ∧ hasType f.ValueType v = true) :
    ValuesPresent st' := by
  rcases hst with rfl | ⟨v, rfl, ht⟩
  · exact h
  · rw [(hok.flag hf).1]
    exact h.set_typed hok hf ht

theorem registered_valuesPresent {st : State} (h : Registered st) : ValuesPresent st := by
  have hok := (addReachable_invariants (registered_addReachable h)).1
  induction h with
  | empty =>
    intro p hp
    cases hp
  | @add st st' flag hreg hadd ih =>
    have hok0 := (addReachable_invariants (registered_addReachable hreg)).1
    obtain ⟨_, hn, _, ht, rfl⟩ := Add_success st st' flag hadd
    intro p hp
    have hp2 : p ∈ st.flags.set flag.Name flag := hp
    rcases GoMap.mem_set _ _ _ _ hp2 with hp3 | rfl
    · have hne : p.1 ≠ flag.Name := by
        intro heq
        exact GoMap.not_mem_keys_of_get_none _ _ hn (heq ▸ List.mem_map_of_mem Prod.fst hp3)
      obtain ⟨v0, h1, h2⟩ := ih hok0 p hp3
      exact ⟨v0, by rw [State.setVal_get_other _ _ _ _ hne]; exact h1, h2⟩
    · exact ⟨_, State.setVal_get_self _ _ _, ht⟩

/-- On a store that holds a typed value for every flag, `setStringValue` for
a registered flag that is not a bool returns. -/
theorem setStringValue_returns (pf : String → Option Float64) (st : State) (n s : String)
    (f : Flag) (hok : RegistryOk st) (hpres : ValuesPresent st)
    (hf : st.flags.get n = some f) (hb : f.ValueType ≠ "bool") :
    ∃ st' e, setStringValue pf st n s = .ret st' e := by
  obtain ⟨hname, _, hvt⟩ := hok.flag hf
  obtain ⟨v, hv, ht⟩ := hpres (n, f) (GoMap.mem_of_get _ _ _ hf)
  simp only at hv ht
  rw [← hname] at hv
  unfold setStringValue
  rw [hf]
  simp only
  rcases validType_cases hvt with hk | hk | hk | hk | hk | hk | hk
  · exact absurd hk hb
  · simp only [hk]
    cases pf s <;> exact ⟨_, _, rfl⟩
  · simp only [hk]
    cases parseInt s 32 <;> exact ⟨_, _, rfl⟩
  · simp only [hk]
    exact ⟨_, _, rfl⟩
  · simp only [hk]
    rw [hk] at ht
    cases v <;> simp [hasType] at ht
    cases pf s
    · exact ⟨_, _, rfl⟩
    · simp only [hv]
      exact ⟨_, _, rfl⟩
  · simp only [hk]
    rw [hk] at ht
    cases v <;> simp [hasType] at ht
    cases parseInt s 32
    · exact ⟨_, _, rfl⟩
    · simp only [hv]
      exact ⟨_, _, rfl⟩
  · simp only [hk]
    rw [hk] at ht
    cases v <;> simp [hasType] at ht
    simp only [hv]
    exact ⟨_, _, rfl⟩

theorem clusterLoop_returns (sh : String) :
    ∀ (cs : List Char) (st : State) (need : String) (c : Nat),
      RegistryOk st → ValuesPresent st → PendingOk st need →
      (∃ st' need', clusterLoop sh st need c cs = .next st' need' ∧
        RegistryOk st' ∧ ValuesPresent st' ∧ PendingOk st' need') ∨
      (∃ st' e, clusterLoop sh st need c cs = .stop (.ret st' e)) := by
  intro cs
  induction cs with
  | nil =>
    intro st need c hok hpres hpend
    exact Or.inl ⟨st, need, rfl, hok, hpres, hpend⟩
  | cons char cs ih =>
    intro st need c hok hpres hpend
    unfold clusterLoop
    simp only
    cases hs : st.shorthandNames.get (String.singleton char) with
    | none => exact Or.inr ⟨_, _, rfl⟩
    | some name =>
      obtain ⟨_, _, flag, hf⟩ := hok.shorthand hs
      simp only [hf]
      by_cases hb : flag.ValueType = "bool"
      · rw [if_pos hb]
        exact ih _ need _ (hok.of_same rfl rfl)
          (hpres.set_typed hok hf (by simp [hasType, hb])) hpend
      · rw [if_neg hb]
        split
        · exact Or.inr ⟨_, _, rfl⟩
        · exact ih _ name _ hok hpres (Or.inr ⟨flag, hf, hb⟩)

theorem argStep_returns (pf : String → Option Float64) (st : State) (need arg : String)
    (hok : RegistryOk st) (hpres : ValuesPresent st) (hpend : PendingOk st need) :
    (∃ st' need', argStep pf st need arg = .next st' need' ∧
      RegistryOk st' ∧ ValuesPresent st' ∧ PendingOk st' need') ∨
    (∃ st' e, argStep pf st need arg = .stop (.ret st' e)) := by
  unfold argStep
  split
  · rename_i hne
    rcases hpend with h0 | ⟨f, hf, hb⟩
    · exact absurd h0 hne
    · obtain ⟨s2, e2, hr⟩ := setStringValue_returns pf st need arg f hok hpres hf hb
      obtain ⟨f2, hf2, hst⟩ := setStringValue_ret_typed hr
      rw [hr]
      cases e2 with
      | none =>
        have hok2 : RegistryOk s2 := by
          rcases hst with rfl | ⟨v, rfl, _⟩
          · exact hok
          · exact hok.of_same rfl rfl
        exact Or.inl ⟨s2, "", rfl, hok2, hpres.store_kept hok hf2 hst, Or.inl rfl⟩
      | some e2 => exact Or.inr ⟨_, _, rfl⟩
  · split
    · rename_i rest _
      simp only
      cases hf : st.flags.get (String.mk rest) with
      | none => exact Or.inr ⟨_, _, rfl⟩
      | some flag =>
        simp only
        split
        · rename_i hb
          exact Or.inl ⟨_, _, rfl, hok.of_same rfl rfl,
            hpres.set_typed hok hf (by simp [hasType, hb]), Or.inl rfl⟩
        · rename_i hb
          exact Or.inl ⟨_, _, rfl, hok, hpres, Or.inr ⟨flag, hf, hb⟩⟩
    · exact clusterLoop_returns _ _ st need 0 hok hpres hpend
    · exact Or.inl ⟨_, _, rfl, hok.of_same rfl rfl, fun p hp => hpres p hp, Or.inl rfl⟩

theorem parseArgsLoop_returns (pf : String → Option Float64) :
    ∀ (args : List String) (st : State) (need : String),
      RegistryOk st → ValuesPresent st → PendingOk st need →
      ∃ st' e, parseArgsLoop pf st need args = .ret st' e := by
  intro args
  induction args with
  | nil =>
    intro st need _ _ _
    exact ⟨st, none, rfl⟩
  | cons arg rest ih =>
    intro st need hok hpres hpend
    unfold parseArgsLoop
    rcases argStep_returns pf st need arg hok hpres hpend with
      ⟨s2, need2, hs, h1, h2, h3⟩ | ⟨s2, e2, hs⟩
    · rw [hs]
      exact ih s2 need2 h1 h2 h3
    · rw [hs]
      exact ⟨s2, e2, rfl⟩

/-- After successful calls of `Add` only, `parseArgs` returns on every
argument list: it reaches no `log.Fatal` and no failed type assertion. -/
theorem parseArgs_returns_of_registered (pf : String → Option Float64) (st : State)
    (h : Registered st) (args : List String) :
    ∃ st' e, parseArgs pf st args = .ret st' e := by
  unfold parseArgs
  split
  · exact ⟨st, none, rfl⟩
  · exact parseArgsLoop_returns pf _ st ""
      (addReachable_invariants (registered_addReachable h)).1 (registered_valuesPresent h)
      (Or.inl rfl)

/-! ## Theorems: a value-taking flag at the end of the arguments -/

/-- The loop on `pre ++ post` goes on with `post` from where `pre` leaves it. -/
theorem parseArgsLoop_append (pf : String → Option Float64) (post : List String) :
    ∀ (pre : List String) (st : State) (need : String) (st1 : State) (need1 : String),
      argsRun pf st need pre = some (st1, need1) →
      parseArgsLoop pf st need (pre ++ post) = parseArgsLoop pf st1 need1 post := by
  intro pre
  induction pre with
  | nil =>
    intro st need st1 need1 h
    simp only [argsRun, Option.some.injEq, Prod.mk.injEq] at h
    obtain ⟨rfl, rfl⟩ := h
    rfl
  | cons arg rest ih =>
    intro st need st1 need1 h
    simp only [argsRun] at h
    simp only [List.cons_append, parseArgsLoop]
    cases hs : argStep pf st need arg with
    | next s2 need2 =>
      rw [hs] at h
      exact ih s2 need2 st1 need1 h
    | stop r =>
      rw [hs] at h
      cases h

/-- A pass of the loop body that goes on leaves the registry as it was. -/
theorem argStep_next_frame (pf : String → Option Float64) (st : State) (need arg : String)
    (st' : State) (need' : String) (h : argStep pf st need arg = .next st' need') :
    st'.flags = st.flags ∧ st'.shorthandNames = st.shorthandNames := by
  unfold argStep at h
  split at h
  · cases hr : setStringValue pf st need arg with
    | ret s2 e2 =>
      rw [hr] at h
      obtain ⟨_, _, hst⟩ := setStringValue_ret hr
      cases e2 with
      | none =>
        cases h
        rcases hst with ⟨hne, _⟩ | ⟨_, rfl | ⟨v, rfl⟩⟩
        · exact absurd rfl hne
        · exact ⟨rfl, rfl⟩
        · exact ⟨rfl, rfl⟩
      | some e2 => cases h
    | fatal f =>
      rw [hr] at h
      cases h
    | crash =>
      rw [hr] at h
      cases h
  · split at h
    · rename_i rest _
      simp only at h
      cases hf : st.flags.get (String.mk rest) with
      | none =>
        rw [hf] at h
        cases h
      | some flag =>
        rw [hf] at h
        simp only at h
        split at h
        · cases h
          exact ⟨rfl, rfl⟩
        · cases h
          exact ⟨rfl, rfl⟩
    · rename_i rest _ _
      obtain ⟨h1, h2, _⟩ := clusterLoop_next (String.mk rest) st rest st need 0 st' need' rfl rfl
        (by rw [utf8ByteSize_mk, Nat.zero_add]) h
      exact ⟨h1, h2⟩
    · cases h
      exact ⟨rfl, rfl⟩

theorem argsRun_frame (pf : String → Option Float64) :
    ∀ (pre : List String) (st : State) (need : String) (st1 : State) (need1 : String),
      argsRun pf st need pre = some (st1, need1) →
      st1.flags = st.flags ∧ st1.shorthandNames = st.shorthandNames := by
  intro pre
  induction pre with
  | nil =>
    intro st need st1 need1 h
    simp only [argsRun, Option.some.injEq, Prod.mk.injEq] at h
    obtain ⟨rfl, rfl⟩ := h
    exact ⟨rfl, rfl⟩
  | cons arg rest ih =>
    intro st need st1 need1 h
    simp only [argsRun] at h
    cases hs : argStep pf st need arg with
    | next s2 need2 =>
      rw [hs] at h
      obtain ⟨h1, h2⟩ := argStep_next_frame pf st need arg s2 need2 hs
      obtain ⟨h3, h4⟩ := ih s2 need2 st1 need1 h
      exact ⟨h3.trans h1, h4.trans h2⟩
    | stop r =>
      rw [hs] at h
      cases h

/-- C31: when the tokens `pre` are read with nothing pending at their end and
the argument list then ends with a value-taking flag (`--n`, or a cluster of
bool shorthands closed by the shorthand of the non-bool flag `n`),
`parseArgs` returns `nil`: after `--n` the state is the one the call without
that last token leaves, and after the cluster it is that state with the bool
flags of the cluster set, so the stored value of `n` is what it was; the
missing value is not reported. -/
theorem parseArgs_trailing_value_flag (pf : String → Option Float64) (st st1 : State)
    (cmd : String) (pre : List String) (n : String) (f : Flag) (hok : RegistryOk st)
    (hrun : argsRun pf st "" pre = some (st1, ""))
    (hf : st.flags.get n = some f) (hk : f.ValueType ≠ "bool") :
    parseArgs pf st (cmd :: pre) = .ret st1 none ∧
    parseArgs pf st (cmd :: (pre ++ ["--" ++ n])) = .ret st1 none ∧
    ∀ (bs : List Char) (c : Char), (∀ b ∈ bs, isBoolShorthand st b) →
      st.shorthandNames.get (String.singleton c) = some n →
      parseArgs pf st (cmd :: (pre ++ ["-" ++ String.mk (bs ++ [c])])) =
          .ret (setAllTrue st1 (clusterNames st1 bs)) none ∧
        (setAllTrue st1 (clusterNames st1 bs)).values.get n = st1.values.get n := by
  obtain ⟨hfl, hsh⟩ := argsRun_frame pf pre st "" st1 "" hrun
  have hok1 : RegistryOk st1 := hok.of_same hfl hsh
  have hf1 : st1.flags.get n = some f := by rw [hfl]; exact hf
  have hlast : ∀ tok : String, parseArgs pf st (cmd :: (pre ++ [tok])) =
      parseArgsLoop pf st1 "" [tok] := by
    intro tok
    have hlen : ¬ (cmd :: (pre ++ [tok])).length ≤ 1 := by simp
    unfold parseArgs
    rw [if_neg hlen]
    exact parseArgsLoop_append pf [tok] pre st "" st1 "" hrun
  refine ⟨?_, ?_, ?_⟩
  · cases pre with
    | nil =>
      simp only [argsRun, Option.some.injEq, Prod.mk.injEq] at hrun
      rw [← hrun.1]
      rfl
    | cons tok rest =>
      rw [parseArgs_cons_cons]
      have := parseArgsLoop_append pf [] (tok :: rest) st "" st1 "" hrun
      rw [List.append_nil] at this
      rw [this]
      rfl
  · rw [hlast]
    simp only [parseArgsLoop, argStep_long, hf1, hk, if_false]
  · intro bs c hbs hc
    have hbs1 : ∀ b ∈ bs, isBoolShorthand st1 b := by
      intro b hb
      obtain ⟨m, g, h1, h2, h3⟩ := hbs b hb
      exact ⟨m, g, by rw [hsh]; exact h1, by rw [hfl]; exact h2, h3⟩
    have hc1 : st1.shorthandNames.get (String.singleton c) = some n := by rw [hsh]; exact hc
    refine ⟨?_, ?_⟩
    · rw [hlast]
      simp only [parseArgsLoop, argStep_value_cluster pf st1 bs c n f hok1 hbs1 hc1 hf1 hk]
    · rw [setAllTrue_get]
      have hnot : n ∉ clusterNames st1 bs := by
        intro hmem
        unfold clusterNames at hmem
        obtain ⟨b, hb, hget⟩ := List.mem_filterMap.1 hmem
        obtain ⟨m, g, h1, h2, h3⟩ := hbs1 b hb
        rw [hget] at h1
        cases h1
        rw [hf1] at h2
        cases h2
        exact hk h3
      rw [if_neg hnot]

theorem parseArgs_trailing_value_flag_witness :
    parseArgs demoParseFloat demoState ["cmd", "-a", "--myint", "7", "pos"] =
      .ret { (demoState.setVal "mybool-a" (.bool true)).setVal "myint" (.int 7) with
        positionals := ["pos"] } none ∧
    parseArgs demoParseFloat demoState ["cmd", "-a", "--myint", "7", "pos", "--mystring"] =
      .ret { (demoState.setVal "mybool-a" (.bool true)).setVal "myint" (.int 7) with
        positionals := ["pos"] } none ∧
    parseArgs demoParseFloat demoState ["cmd", "-a", "--myint", "7", "pos", "-bs"] =
      .ret (State.setVal { (demoState.setVal "mybool-a" (.bool true)).setVal "myint" (.int 7) with
        positionals := ["pos"] } "mybool-b" (.bool true)) none :=
  ⟨(parseArgs_trailing_value_flag demoParseFloat demoState
      { (demoState.setVal "mybool-a" (.bool true)).setVal "myint" (.int 7) with
        positionals := ["pos"] }
      "cmd" ["-a", "--myint", "7", "pos"] "mystring" ⟨"mystring", "s", "string", .string ""⟩
      (by decide) rfl rfl (by decide)).1,
    (parseArgs_trailing_value_flag demoParseFloat demoState
      { (demoState.setVal "mybool-a" (.bool true)).setVal "myint" (.int 7) with
        positionals := ["pos"] }
      "cmd" ["-a", "--myint", "7", "pos"] "mystring" ⟨"mystring", "s", "string", .string ""⟩
      (by decide) rfl rfl (by decide)).2.1,
    ((parseArgs_trailing_value_flag demoParseFloat demoState
      { (demoState.setVal "mybool-a" (.bool true)).setVal "myint" (.int 7) with
        positionals := ["pos"] }
      "cmd" ["-a", "--myint", "7", "pos"] "mystring" ⟨"mystring", "s", "string", .string ""⟩
      (by decide) rfl rfl (by decide)).2.2 ['b'] 's'
      (fun b hb => by
        obtain rfl : b = 'b' := by simpa using hb
        exact ⟨"mybool-b", ⟨"mybool-b", "b", "bool", .nil⟩, rfl, rfl, rfl⟩)
      rfl).1⟩

/-! ## Theorems: distinct names, distinct variables -/

/-- On the characters a valid name can hold, the character `toEnvVar` writes
determines the character it was written for. -/
theorem toEnvVar_char_inj (c d : Char)
    (hc : (97 ≤ c.toNat ∧ c.toNat ≤ 122) ∨ (48 ≤ c.toNat ∧ c.toNat ≤ 57) ∨ c = '-')
    (hd : (97 ≤ d.toNat ∧ d.toNat ≤ 122) ∨ (48 ≤ d.toNat ∧ d.toNat ≤ 57) ∨ d = '-')
    (h : (if Char.toUpper c = '-' then '_' else Char.toUpper c) =
      (if Char.toUpper d = '-' then '_' else Char.toUpper d)) : c = d := by
  have hdash : (if Char.toUpper '-' = '-' then '_' else Char.toUpper '-') = '_' := by decide
  have hu : ('_' : Char).toNat = 95 := by decide
  have hn := congrArg Char.toNat h
  rcases hc with hc | hc | rfl <;> rcases hd with hd | hd | rfl
  · rw [toUpper_lower c hc, toUpper_lower d hd] at hn
    have : c.toNat = d.toNat := by omega
    rw [← Char.ofNat_toNat c, ← Char.ofNat_toNat d, this]
  · rw [toUpper_lower c hc, toUpper_digit d hd] at hn
    omega
  · rw [toUpper_lower c hc, hdash, hu] at hn
    omega
  · rw [toUpper_digit c hc, toUpper_lower d hd] at hn
    omega
  · rw [toUpper_digit c hc, toUpper_digit d hd] at h
    exact h
  · rw [toUpper_digit c hc, hdash, hu] at hn
    omega
  · rw [hdash, hu, toUpper_lower d hd] at hn
    omega
  · rw [hdash, hu, toUpper_digit d hd] at hn
    omega
  · rfl

theorem toEnvVar_chars_inj :
    ∀ l1 l2 : List Char,
      (∀ c ∈ l1, (97 ≤ c.toNat ∧ c.toNat ≤ 122) ∨ (48 ≤ c.toNat ∧ c.toNat ≤ 57) ∨ c = '-') →
      (∀ c ∈ l2, (97 ≤ c.toNat ∧ c.toNat ≤ 122) ∨ (48 ≤ c.toNat ∧ c.toNat ≤ 57) ∨ c = '-') →
      l1.map (fun c => if Char.toUpper c = '-' then '_' else Char.toUpper c) =
        l2.map (fun c => if Char.toUpper c = '-' then '_' else Char.toUpper c) →
      l1 = l2 := by
  intro l1
  induction l1 with
  | nil =>
    intro l2 _ _ h
    cases l2 with
    | nil => rfl
    | cons d l2 => simp at h
  | cons c l1 ih =>
    intro l2 h1 h2 h
    cases l2 with
    | nil => simp at h
    | cons d l2 =>
      simp only [List.map_cons, List.cons.injEq] at h
      have hcd := toEnvVar_char_inj c d (h1 c (List.mem_cons_self _ _))
        (h2 d (List.mem_cons_self _ _)) h.1
      have hl := ih l2 (fun x hx => h1 x (List.mem_cons_of_mem _ hx))
        (fun x hx => h2 x (List.mem_cons_of_mem _ hx)) h.2
      rw [hcd, hl]

/-- C32: two distinct names that pass the name check of `assertValid` have
distinct images under `toEnvVar`; hence in a registry that `Add` built, the
flags filed under two distinct names are read by phase 2 of `load` from two
distinct environment variables. -/
theorem toEnvVar_injective_on_valid (n1 n2 : String) (h1 : matchName n1 = true)
    (h2 : matchName n2 = true) (hne : n1 ≠ n2) :
    toEnvVar n1 ≠ toEnvVar n2 ∧
    ∀ (st : State) (f1 f2 : Flag), RegistryOk st → st.flags.get n1 = some f1 →
      st.flags.get n2 = some f2 → toEnvVar f1.Name ≠ toEnvVar f2.Name := by
  have key : toEnvVar n1 ≠ toEnvVar n2 := by
    intro h
    have hd := congrArg String.data h
    rw [toEnvVar_data, toEnvVar_data] at hd
    have := toEnvVar_chars_inj n1.data n2.data ((matchName_iff n1).1 h1).2
      ((matchName_iff n2).1 h2).2 hd
    exact hne (String.ext this)
  refine ⟨key, ?_⟩
  intro st f1 f2 hok hf1 hf2
  rw [(hok.flag hf1).1, (hok.flag hf2).1]
  exact key

theorem toEnvVar_injective_on_valid_witness :
    toEnvVar "my-str" = "MY_STR" ∧ toEnvVar "mystr" = "MYSTR" ∧
      toEnvVar "my-str" ≠ toEnvVar "mystr" :=
  ⟨rfl, rfl,
    (toEnvVar_injective_on_valid "my-str" "mystr" (by decide) (by decide) (by decide)).1⟩

end Gears
